import Mathlib

/-! # OcMemoryLib memory-map algorithms

A shallow embedding of `Library/OcMemoryLib/MemoryMap.c`: the attribute-driven
split engine (`OcSplitMemoryMapByAttributes`, `OcSplitMemoryEntryByAttribute`,
`OcRealMemoryType`, `OcCountSplitDescritptors`) and the coalescing pass
(`OcShrinkMemoryMap`).

Conventions of the embedding:

* a memory map is a `List EFI_MEMORY_DESCRIPTOR`; the list holds the
  `CurrentEntryCount` live entries, so a byte size `MemoryMapSize` is the list
  length times `DescriptorSize`, and a descriptor pointer is an index;
* `UINT64`/`UINTN` values are natural numbers and every C operation that can
  leave the 64-bit range is followed by `% 2 ^ 64`; the theorems on well-formed
  tables take ranges that end below `2 ^ 64` (`DescOK`), where nothing wraps;
* the firmware's memory attributes table, which the C code fetches through
  `OcGetMemoryAttributes`, is an explicit argument (`none` when the table is not
  published).
-/

namespace OcMemoryLib

/-! ## Data model -/

/-- The UEFI memory descriptor: `Type`, `PhysicalStart`, `VirtualStart`,
`NumberOfPages`, `Attribute`. -/
structure EFI_MEMORY_DESCRIPTOR where
  /-- The field `Type` (`UINT32`). -/
  MemType : Nat
  /-- The field `PhysicalStart` (`UINT64`). -/
  PhysicalStart : Nat
  /-- The field `VirtualStart` (`UINT64`). -/
  VirtualStart : Nat
  /-- The field `NumberOfPages` (`UINT64`). -/
  NumberOfPages : Nat
  /-- The field `Attribute` (`UINT64`). -/
  Attribute : Nat
deriving DecidableEq, Repr, Inhabited

/-- Status codes returned by the routines of this file. -/
inductive EFI_STATUS where
  | EFI_SUCCESS
  | EFI_UNSUPPORTED
  | EFI_OUT_OF_RESOURCES
  | EFI_NOT_FOUND
  | EFI_BUFFER_TOO_SMALL
deriving DecidableEq, Repr, Inhabited

/-- The macro `EFI_ERROR`. -/
def EFI_ERROR (Status : EFI_STATUS) : Bool :=
  decide (Status ≠ EFI_STATUS.EFI_SUCCESS)

/-! The memory types, numbered in the order of `mEfiMemoryTypeDesc`. -/

/-- Memory type `Reserved`. -/
def EfiReservedMemoryType : Nat := 0
/-- Memory type `LDR Code`. -/
def EfiLoaderCode : Nat := 1
/-- Memory type `LDR Data`. -/
def EfiLoaderData : Nat := 2
/-- Memory type `BS Code`. -/
def EfiBootServicesCode : Nat := 3
/-- Memory type `BS Data`. -/
def EfiBootServicesData : Nat := 4
/-- Memory type `RT Code`. -/
def EfiRuntimeServicesCode : Nat := 5
/-- Memory type `RT Data`. -/
def EfiRuntimeServicesData : Nat := 6
/-- Memory type `Available`. -/
def EfiConventionalMemory : Nat := 7
/-- Memory type `Unusable`. -/
def EfiUnusableMemory : Nat := 8
/-- Memory type `ACPI RECL`. -/
def EfiACPIReclaimMemory : Nat := 9
/-- Memory type `ACPI NVS`. -/
def EfiACPIMemoryNVS : Nat := 10
/-- Memory type `MemMapIO`. -/
def EfiMemoryMappedIO : Nat := 11
/-- Memory type `MemPortIO`. -/
def EfiMemoryMappedIOPortSpace : Nat := 12
/-- Memory type `PAL Code`. -/
def EfiPalCode : Nat := 13
/-- Memory type `Persist`. -/
def EfiPersistentMemory : Nat := 14

/-- Modelled from the spec: the read-only bit of `attributeFlags`; the constant
`EFI_MEMORY_RO` comes from the UEFI headers, which are not part of the sources. -/
def EFI_MEMORY_RO : Nat := 0x20000

/-- Modelled from the spec: the execute-protect bit of `attributeFlags`; the
constant `EFI_MEMORY_XP` comes from the UEFI headers, which are not part of the
sources. -/
def EFI_MEMORY_XP : Nat := 0x4000

/-- Modelled from the spec: the macro `EFI_PAGES_TO_SIZE` of the UEFI headers,
`pageCount * pageSize` as a 64-bit value, with pages of `0x1000` bytes. -/
def EFI_PAGES_TO_SIZE (Pages : Nat) : Nat := (Pages * 4096) % 2 ^ 64

/-- Modelled from the spec: the macro `EFI_SIZE_TO_PAGES` of the UEFI headers,
the number of pages needed to hold `Size` bytes (rounded up to a whole page). -/
def EFI_SIZE_TO_PAGES (Size : Nat) : Nat :=
  Size / 4096 + (if Size % 4096 = 0 then 0 else 1)

/-- Modelled from the spec: the macro `AREA_WITHIN_DESCRIPTOR` of
`OcMemoryLib.h` (not part of the sources): the area `[Area, Area + AreaSize)`
is contained within the descriptor's range, in 64-bit arithmetic. -/
def AREA_WITHIN_DESCRIPTOR (Desc : EFI_MEMORY_DESCRIPTOR) (Area AreaSize : Nat) : Bool :=
  decide (Desc.PhysicalStart ≤ Area) &&
  decide ((Area + AreaSize) % 2 ^ 64 ≤
    (Desc.PhysicalStart + EFI_PAGES_TO_SIZE Desc.NumberOfPages) % 2 ^ 64)

/-- The test `Type == EfiRuntimeServicesCode || Type == EfiRuntimeServicesData`. -/
def isRuntimeType (MemType : Nat) : Bool :=
  decide (MemType = EfiRuntimeServicesCode) || decide (MemType = EfiRuntimeServicesData)

/-! ## Split engine -/

/-- `OcRealMemoryType`: the actual memory type of an attribute entry. -/
def OcRealMemoryType (MemoryAttribte : EFI_MEMORY_DESCRIPTOR) : Nat :=
  if MemoryAttribte.Attribute &&& EFI_MEMORY_RO ≠ 0 then
    EfiRuntimeServicesCode
  else if MemoryAttribte.Attribute &&& EFI_MEMORY_XP ≠ 0 then
    EfiRuntimeServicesData
  else
    MemoryAttribte.MemType

/-- `OcCountSplitDescritptors`: the number of attribute entries of runtime
code or data type; `0` when the attributes table is not published. -/
def OcCountSplitDescritptors (MemoryAttributes : Option (List EFI_MEMORY_DESCRIPTOR)) : Nat :=
  match MemoryAttributes with
  | none => 0
  | some Entries => (Entries.filter (fun e => isRuntimeType e.MemType)).length

/-- The block copy `CopyMem (NewMemoryMapEntry, MemoryMapEntry, DescriptorSize *
(CurrentEntryCount - CurrentEntryIndex))` of the split: the entries from
`Index` to the end move up one slot, the slot `Index` keeps its contents. -/
def CopyMemUp (MemoryMap : List EFI_MEMORY_DESCRIPTOR) (Index : Nat) :
    List EFI_MEMORY_DESCRIPTOR :=
  MemoryMap.take (Index + 1) ++ MemoryMap.drop Index

/-- Outcome of `OcSplitMemoryEntryByAttribute`: the status, the memory map (its
length is the updated `CurrentEntryCount`) and the updated `CurrentEntryIndex`,
which is also the position of `RetMemoryMapEntry`. -/
structure SplitEntryResult where
  /-- The returned status. -/
  Status : EFI_STATUS
  /-- The memory map after the call. -/
  MemoryMap : List EFI_MEMORY_DESCRIPTOR
  /-- The value left in `CurrentEntryIndex`. -/
  CurrentEntryIndex : Nat
deriving DecidableEq, Repr

/-- The second half of `OcSplitMemoryEntryByAttribute`, from the assertion on:
the attribute starts where the entry at `CurrentEntryIndex` starts. -/
def splitEntryAtStart (MemoryMap : List EFI_MEMORY_DESCRIPTOR)
    (CurrentEntryIndex TotalEntryCount : Nat)
    (MemoryAttribute : EFI_MEMORY_DESCRIPTOR) : SplitEntryResult :=
  let MemoryMapEntry := MemoryMap.getD CurrentEntryIndex default
  if MemoryMapEntry.NumberOfPages = MemoryAttribute.NumberOfPages then
    -- [DESC1] -> [DESC1*]
    { Status := EFI_STATUS.EFI_SUCCESS
      MemoryMap := MemoryMap.set CurrentEntryIndex
        { MemoryMapEntry with MemType := OcRealMemoryType MemoryAttribute }
      CurrentEntryIndex := CurrentEntryIndex }
  else if MemoryMap.length = TotalEntryCount then
    { Status := EFI_STATUS.EFI_OUT_OF_RESOURCES
      MemoryMap := MemoryMap
      CurrentEntryIndex := CurrentEntryIndex }
  else
    -- [DESC1] -> [DESC1*][DESC2]
    let Copied := CopyMemUp MemoryMap CurrentEntryIndex
    let NewMemoryMapEntry := Copied.getD (CurrentEntryIndex + 1) default
    let Map1 := Copied.set CurrentEntryIndex
      { MemoryMapEntry with
        MemType := OcRealMemoryType MemoryAttribute
        NumberOfPages := MemoryAttribute.NumberOfPages }
    let Map2 := Map1.set (CurrentEntryIndex + 1)
      { NewMemoryMapEntry with
        PhysicalStart := (NewMemoryMapEntry.PhysicalStart
          + EFI_PAGES_TO_SIZE MemoryAttribute.NumberOfPages) % 2 ^ 64
        NumberOfPages := (NewMemoryMapEntry.NumberOfPages + 2 ^ 64
          - MemoryAttribute.NumberOfPages) % 2 ^ 64 }
    { Status := EFI_STATUS.EFI_SUCCESS
      MemoryMap := Map2
      CurrentEntryIndex := CurrentEntryIndex + 1 }

/-- `OcSplitMemoryEntryByAttribute`: split the entry at `CurrentEntryIndex` by
`MemoryAttribute`; `TotalEntryCount` is the number of slots of the buffer. -/
def OcSplitMemoryEntryByAttribute (MemoryMap : List EFI_MEMORY_DESCRIPTOR)
    (CurrentEntryIndex TotalEntryCount : Nat)
    (MemoryAttribute : EFI_MEMORY_DESCRIPTOR) : SplitEntryResult :=
  let MemoryMapEntry := MemoryMap.getD CurrentEntryIndex default
  if MemoryAttribute.PhysicalStart > MemoryMapEntry.PhysicalStart then
    if MemoryMap.length = TotalEntryCount then
      { Status := EFI_STATUS.EFI_OUT_OF_RESOURCES
        MemoryMap := MemoryMap
        CurrentEntryIndex := CurrentEntryIndex }
    else
      -- [DESC1] -> [DESC1][DESC2]
      let DiffPages :=
        EFI_SIZE_TO_PAGES (MemoryAttribute.PhysicalStart - MemoryMapEntry.PhysicalStart)
      let Copied := CopyMemUp MemoryMap CurrentEntryIndex
      let NewMemoryMapEntry := Copied.getD (CurrentEntryIndex + 1) default
      let Map1 := Copied.set CurrentEntryIndex
        { MemoryMapEntry with NumberOfPages := DiffPages }
      let Map2 := Map1.set (CurrentEntryIndex + 1)
        { NewMemoryMapEntry with
          PhysicalStart := MemoryAttribute.PhysicalStart
          NumberOfPages := (NewMemoryMapEntry.NumberOfPages + 2 ^ 64 - DiffPages) % 2 ^ 64 }
      splitEntryAtStart Map2 (CurrentEntryIndex + 1) TotalEntryCount MemoryAttribute
  else
    splitEntryAtStart MemoryMap CurrentEntryIndex TotalEntryCount MemoryAttribute

/-- The `for (Index2 = LastAttributeIndex; ...)` scan of
`OcSplitMemoryMapByAttributes` over the attribute entries from `Index2` on
(`Attributes` is the part of the table not yet visited). The result is
`some Index2` when the loop stops at an attribute that lies within
`MemoryMapEntry` and has a different real type (the case
`Index2 < AttributeCount && InDescAttrs`), and `none` otherwise. -/
def findSplitAttribute (MemoryMapEntry : EFI_MEMORY_DESCRIPTOR) :
    List EFI_MEMORY_DESCRIPTOR → Nat → Bool → Option Nat
  | [], _, _ => none
  | MemoryAttributesEntry :: Attributes, Index2, InDescAttrs =>
    if isRuntimeType MemoryAttributesEntry.MemType then
      if AREA_WITHIN_DESCRIPTOR MemoryMapEntry MemoryAttributesEntry.PhysicalStart
          (EFI_PAGES_TO_SIZE MemoryAttributesEntry.NumberOfPages) then
        if OcRealMemoryType MemoryAttributesEntry ≠ MemoryMapEntry.MemType then
          some Index2
        else
          findSplitAttribute MemoryMapEntry Attributes (Index2 + 1) true
      else if InDescAttrs then
        none
      else
        findSplitAttribute MemoryMapEntry Attributes (Index2 + 1) InDescAttrs
    else
      findSplitAttribute MemoryMapEntry Attributes (Index2 + 1) InDescAttrs

/-- The main loop of `OcSplitMemoryMapByAttributes`. One unfolding is one pass
through the body of the inner `while` for the entry at `Index`: either the entry
is split by the attribute found (and the loop goes on with the entry the split
made current), or nothing is found (`CanSplit = FALSE`) or the entry is not a
runtime one, and `Index` advances. `none` stands for running out of `fuel`. -/
def splitLoop (TotalEntryCount : Nat) (Attributes : List EFI_MEMORY_DESCRIPTOR) :
    Nat → List EFI_MEMORY_DESCRIPTOR → Nat → Nat →
      Option (EFI_STATUS × List EFI_MEMORY_DESCRIPTOR)
  | 0, _, _, _ => none
  | fuel + 1, MemoryMap, Index, LastAttributeIndex =>
    if h : Index < MemoryMap.length then
      let MemoryMapEntry := MemoryMap[Index]
      if isRuntimeType MemoryMapEntry.MemType then
        match findSplitAttribute MemoryMapEntry (Attributes.drop LastAttributeIndex)
            LastAttributeIndex false with
        | some Index2 =>
          let Result := OcSplitMemoryEntryByAttribute MemoryMap Index TotalEntryCount
            (Attributes.getD Index2 default)
          if EFI_ERROR Result.Status then
            some (Result.Status, Result.MemoryMap)
          else
            splitLoop TotalEntryCount Attributes fuel Result.MemoryMap
              Result.CurrentEntryIndex (Index2 + 1)
        | none =>
          splitLoop TotalEntryCount Attributes fuel MemoryMap (Index + 1) LastAttributeIndex
      else
        splitLoop TotalEntryCount Attributes fuel MemoryMap (Index + 1) LastAttributeIndex
    else
      some (EFI_STATUS.EFI_SUCCESS, MemoryMap)

/-- `OcSplitMemoryMapByAttributes`: `TotalEntryCount` is
`MaxMemoryMapSize / DescriptorSize`, `MemoryMap` holds the
`MemoryMapSize / DescriptorSize` entries of the map, `MemoryAttributes` is the
attributes table (`none` when `OcGetMemoryAttributes` finds nothing). The result
is the status with the memory map left in the buffer. Every pass of the loop
either consumes an attribute or advances `Index`, so the fuel given below is
never used up (`OcSplitMemoryMapByAttributes_returns`). -/
def OcSplitMemoryMapByAttributes (TotalEntryCount : Nat)
    (MemoryMap : List EFI_MEMORY_DESCRIPTOR)
    (MemoryAttributes : Option (List EFI_MEMORY_DESCRIPTOR)) :
    Option (EFI_STATUS × List EFI_MEMORY_DESCRIPTOR) :=
  match MemoryAttributes with
  | none => some (EFI_STATUS.EFI_UNSUPPORTED, MemoryMap)
  | some Attributes =>
    splitLoop TotalEntryCount Attributes (MemoryMap.length + Attributes.length + 1)
      MemoryMap 0 0

/-! ## Ranges and the pieces of a split entry -/

/-- One past the last byte address of the descriptor's range
`[PhysicalStart, PhysicalStart + NumberOfPages pages)`, as a natural number. -/
def rangeEnd (d : EFI_MEMORY_DESCRIPTOR) : Nat := d.PhysicalStart + d.NumberOfPages * 4096

/-- The part of `E` before the attribute `A`: `[E.start, A.start)`, type of `E`. -/
def headPiece (E A : EFI_MEMORY_DESCRIPTOR) : EFI_MEMORY_DESCRIPTOR :=
  { E with NumberOfPages := (A.PhysicalStart - E.PhysicalStart) / 4096 }

/-- The part of `E` the attribute `A` describes: the range of `A`, real type of `A`. -/
def midPiece (E A : EFI_MEMORY_DESCRIPTOR) : EFI_MEMORY_DESCRIPTOR :=
  { E with
    MemType := OcRealMemoryType A
    PhysicalStart := A.PhysicalStart
    NumberOfPages := A.NumberOfPages }

/-- The part of `E` after the attribute `A`: `[A.end, E.end)`, type of `E`. -/
def tailPiece (E A : EFI_MEMORY_DESCRIPTOR) : EFI_MEMORY_DESCRIPTOR :=
  { E with
    PhysicalStart := rangeEnd A
    NumberOfPages := (rangeEnd E - rangeEnd A) / 4096 }

/-- The part of `E` from the start of `A` on: `[A.start, E.end)`, type of `E`. -/
def restPiece (E A : EFI_MEMORY_DESCRIPTOR) : EFI_MEMORY_DESCRIPTOR :=
  { E with
    PhysicalStart := A.PhysicalStart
    NumberOfPages := (rangeEnd E - A.PhysicalStart) / 4096 }

/-- The outcome of splitting the entry `E` of `pre ++ E :: post` by an attribute
`A` that lies within `E`, case by case. -/
def splitEntryOutcome (pre post : List EFI_MEMORY_DESCRIPTOR)
    (E A : EFI_MEMORY_DESCRIPTOR) (cap : Nat) : SplitEntryResult :=
  if E.PhysicalStart < A.PhysicalStart then
    if (pre ++ E :: post).length = cap then
      ⟨EFI_STATUS.EFI_OUT_OF_RESOURCES, pre ++ E :: post, pre.length⟩
    else if rangeEnd A = rangeEnd E then
      ⟨EFI_STATUS.EFI_SUCCESS, pre ++ headPiece E A :: midPiece E A :: post, pre.length + 1⟩
    else if (pre ++ E :: post).length + 1 = cap then
      ⟨EFI_STATUS.EFI_OUT_OF_RESOURCES,
        pre ++ headPiece E A :: restPiece E A :: post, pre.length + 1⟩
    else
      ⟨EFI_STATUS.EFI_SUCCESS,
        pre ++ headPiece E A :: midPiece E A :: tailPiece E A :: post, pre.length + 2⟩
  else
    if rangeEnd A = rangeEnd E then
      ⟨EFI_STATUS.EFI_SUCCESS, pre ++ midPiece E A :: post, pre.length⟩
    else if (pre ++ E :: post).length = cap then
      ⟨EFI_STATUS.EFI_OUT_OF_RESOURCES, pre ++ E :: post, pre.length⟩
    else
      ⟨EFI_STATUS.EFI_SUCCESS, pre ++ midPiece E A :: tailPiece E A :: post, pre.length + 1⟩

/-! ## Well-formed tables, coverage, invariants of the split loop -/

/-- A descriptor of the data model: page-aligned start, at least one page, and a
range that ends below `2 ^ 64` (it does not wrap around). -/
def DescOK (d : EFI_MEMORY_DESCRIPTOR) : Prop :=
  d.PhysicalStart % 4096 = 0 ∧ 1 ≤ d.NumberOfPages ∧ rangeEnd d < 2 ^ 64

instance (d : EFI_MEMORY_DESCRIPTOR) : Decidable (DescOK d) :=
  inferInstanceAs (Decidable (d.PhysicalStart % 4096 = 0 ∧ 1 ≤ d.NumberOfPages ∧
    rangeEnd d < 2 ^ 64))

/-- Sorted ascending and non-overlapping: every entry ends at or before the
start of every later entry. -/
def SortedDisjoint (t : List EFI_MEMORY_DESCRIPTOR) : Prop :=
  t.Pairwise (fun a b => rangeEnd a ≤ b.PhysicalStart)

instance (t : List EFI_MEMORY_DESCRIPTOR) : Decidable (SortedDisjoint t) :=
  inferInstanceAs (Decidable (t.Pairwise (fun a b => rangeEnd a ≤ b.PhysicalStart)))

/-- A well-formed table: descriptors of the data model, sorted ascending and
non-overlapping. -/
def TableOK (t : List EFI_MEMORY_DESCRIPTOR) : Prop :=
  (∀ d ∈ t, DescOK d) ∧ SortedDisjoint t

instance (t : List EFI_MEMORY_DESCRIPTOR) : Decidable (TableOK t) :=
  inferInstanceAs (Decidable ((∀ d ∈ t, DescOK d) ∧ SortedDisjoint t))

/-- The address `x` lies in the range of the descriptor `d`. -/
def inRange (d : EFI_MEMORY_DESCRIPTOR) (x : Nat) : Prop :=
  d.PhysicalStart ≤ x ∧ x < rangeEnd d

/-- The address `x` lies in the range of some entry of the table. -/
def covers (t : List EFI_MEMORY_DESCRIPTOR) (x : Nat) : Prop :=
  ∃ d ∈ t, inRange d x

/-- The sum of `NumberOfPages` over the table. -/
def totalPages (t : List EFI_MEMORY_DESCRIPTOR) : Nat :=
  (t.map (fun d => d.NumberOfPages)).sum

/-- The descriptors `ps` tile `[s, e)`: each is well-formed, the first starts at
`s`, each next one starts where the previous one ends, the last ends at `e`. -/
def Tiles : Nat → Nat → List EFI_MEMORY_DESCRIPTOR → Prop
  | s, e, [] => s = e
  | s, e, d :: ds => d.PhysicalStart = s ∧ DescOK d ∧ Tiles (rangeEnd d) e ds

/-- The range of `a` lies inside the range of `e`. -/
def rangeWithin (e a : EFI_MEMORY_DESCRIPTOR) : Prop :=
  e.PhysicalStart ≤ a.PhysicalStart ∧ rangeEnd a ≤ rangeEnd e

instance (e a : EFI_MEMORY_DESCRIPTOR) : Decidable (rangeWithin e a) :=
  inferInstanceAs (Decidable (e.PhysicalStart ≤ a.PhysicalStart ∧ rangeEnd a ≤ rangeEnd e))

/-- A well-formed attribute table for the table `T`: well-formed as a table
(page-aligned entries of at least one page, sorted, non-overlapping), every
entry of runtime code or data type and inside a runtime-typed entry of `T`. -/
def AttributesOK (T Attributes : List EFI_MEMORY_DESCRIPTOR) : Prop :=
  TableOK Attributes ∧
  ∀ a ∈ Attributes, isRuntimeType a.MemType = true ∧
    ∃ d ∈ T, isRuntimeType d.MemType = true ∧ rangeWithin d a

instance (T Attributes : List EFI_MEMORY_DESCRIPTOR) : Decidable (AttributesOK T Attributes) :=
  inferInstanceAs (Decidable (TableOK Attributes ∧
    ∀ a ∈ Attributes, isRuntimeType a.MemType = true ∧
      ∃ d ∈ T, isRuntimeType d.MemType = true ∧ rangeWithin d a))

/-- The invariant of the split loop behind the type-correctness of its result,
for the map `m`, the current index `i` and the attribute cursor `l`: the map is
well-formed; every attribute lies inside a runtime-typed entry; the entries
before `i` have the real type of every attribute inside them; every attribute
before the cursor ends at or before the start of the current entry, or lies
inside the current entry and derives its type. -/
def SplitInv (Attributes m : List EFI_MEMORY_DESCRIPTOR) (i l : Nat) : Prop :=
  TableOK m ∧
  (∀ X ∈ Attributes, ∃ e ∈ m, isRuntimeType e.MemType = true ∧ rangeWithin e X) ∧
  (∀ e ∈ m.take i, ∀ X ∈ Attributes, rangeWithin e X → e.MemType = OcRealMemoryType X) ∧
  (∀ E, m[i]? = some E → ∀ k X, k < l → Attributes[k]? = some X →
    rangeEnd X ≤ E.PhysicalStart ∨ (rangeWithin E X ∧ E.MemType = OcRealMemoryType X))

/-- Decision procedure for `Tiles`. -/
def decideTiles : (s e : Nat) → (ps : List EFI_MEMORY_DESCRIPTOR) → Decidable (Tiles s e ps)
  | s, e, [] => inferInstanceAs (Decidable (s = e))
  | s, e, d :: ds =>
    have : Decidable (Tiles (rangeEnd d) e ds) := decideTiles (rangeEnd d) e ds
    inferInstanceAs (Decidable (d.PhysicalStart = s ∧ DescOK d ∧ Tiles (rangeEnd d) e ds))

instance (s e : Nat) (ps : List EFI_MEMORY_DESCRIPTOR) : Decidable (Tiles s e ps) :=
  decideTiles s e ps

/-- The attribute entries that lie inside the descriptor `d`. -/
def attributesInside (Attributes : List EFI_MEMORY_DESCRIPTOR) (d : EFI_MEMORY_DESCRIPTOR) :
    List EFI_MEMORY_DESCRIPTOR :=
  Attributes.filter (fun a => decide (rangeWithin d a))

/-- The attribute table describes the entries of `T` completely or not at all:
the attribute entries inside an entry of `T`, when there are any, tile it (the
first starts where the entry starts, each next one starts where the previous
one ends, the last ends where the entry ends). -/
def AttributesTile (T Attributes : List EFI_MEMORY_DESCRIPTOR) : Prop :=
  ∀ d ∈ T, attributesInside Attributes d = [] ∨
    Tiles d.PhysicalStart (rangeEnd d) (attributesInside Attributes d)

instance (T Attributes : List EFI_MEMORY_DESCRIPTOR) : Decidable (AttributesTile T Attributes) :=
  inferInstanceAs (Decidable (∀ d ∈ T, attributesInside Attributes d = [] ∨
    Tiles d.PhysicalStart (rangeEnd d) (attributesInside Attributes d)))

/-- The invariant of the split loop behind the bound of one slot per attribute,
on top of `SplitInv`: every entry from the current one on that holds an
attribute is covered by attributes completely; every attribute before the
cursor ends at or before the start of the current entry or not before its
end; and there is a free slot for every attribute from the cursor on. -/
def SlotInv (cap : Nat) (Attributes m : List EFI_MEMORY_DESCRIPTOR) (i l : Nat) : Prop :=
  SplitInv Attributes m i l ∧
  (∀ e ∈ m.drop i, (∃ X ∈ Attributes, rangeWithin e X) →
    ∀ x, inRange e x → covers Attributes x) ∧
  (∀ E, m[i]? = some E → ∀ k X, k < l → Attributes[k]? = some X →
    rangeEnd X ≤ E.PhysicalStart ∨ rangeEnd E ≤ rangeEnd X) ∧
  m.length + (Attributes.length - l) ≤ cap

/-! ## The scenarios of the specification -/

/-- The table `[{start=0, pages=10, type=runtime-code, flags=0}]`. -/
def scenarioTable : List EFI_MEMORY_DESCRIPTOR :=
  [⟨EfiRuntimeServicesCode, 0, 0, 10, 0⟩]

/-- The attributes `[{start=0, pages=4, flags=RO}]` (start in pages). -/
def scenarioAttributesRO : List EFI_MEMORY_DESCRIPTOR :=
  [⟨EfiRuntimeServicesCode, 0, 0, 4, EFI_MEMORY_RO⟩]

/-- The attributes `[{start=4, pages=3, flags=XP}]` (start in pages). -/
def scenarioAttributesXP : List EFI_MEMORY_DESCRIPTOR :=
  [⟨EfiRuntimeServicesData, 4 * 4096, 0, 3, EFI_MEMORY_XP⟩]

/-- A normalized two-entry table: ten pages of runtime code followed by five
pages of conventional memory. -/
def scenarioTableTwo : List EFI_MEMORY_DESCRIPTOR :=
  [⟨EfiRuntimeServicesCode, 0, 0, 10, 0⟩, ⟨EfiConventionalMemory, 10 * 4096, 0, 5, 0⟩]

/-- One attribute in the middle of the runtime entry of `scenarioTableTwo`:
pages 2 to 5, execute-protected. -/
def scenarioAttributesMiddle : List EFI_MEMORY_DESCRIPTOR :=
  [⟨EfiRuntimeServicesData, 2 * 4096, 0, 3, EFI_MEMORY_XP⟩]

/-- An attribute table that tiles the entry of `scenarioTable`: four read-only
pages, then six execute-protected pages. -/
def scenarioAttributesTiling : List EFI_MEMORY_DESCRIPTOR :=
  [⟨EfiRuntimeServicesCode, 0, 0, 4, EFI_MEMORY_RO⟩,
   ⟨EfiRuntimeServicesData, 4 * 4096, 0, 6, EFI_MEMORY_XP⟩]

/-! ## Coalescing (`OcShrinkMemoryMap`) -/

/-- The type test that `CanBeJoinedFree` applies to each of the two
descriptors: boot services code or data, conventional memory, loader code or
data. -/
def isFreeType (MemType : Nat) : Bool :=
  decide (MemType = EfiBootServicesCode) || decide (MemType = EfiBootServicesData) ||
  decide (MemType = EfiConventionalMemory) || decide (MemType = EfiLoaderCode) ||
  decide (MemType = EfiLoaderData)

/-- The outer test of the loop body of `OcShrinkMemoryMap`:
`Desc->Attribute == PrevDesc->Attribute && PrevDesc->PhysicalStart + Bytes ==
Desc->PhysicalStart`, with `Bytes = EFI_PAGES_TO_SIZE (PrevDesc->NumberOfPages)`. -/
def isContiguousSameAttribute (PrevDesc Desc : EFI_MEMORY_DESCRIPTOR) : Bool :=
  decide (Desc.Attribute = PrevDesc.Attribute) &&
  decide ((PrevDesc.PhysicalStart + EFI_PAGES_TO_SIZE PrevDesc.NumberOfPages) % 2 ^ 64
    = Desc.PhysicalStart)

/-- The value of `CanBeJoinedFree` for `PrevDesc` and `Desc`. -/
def CanBeJoinedFree (PrevDesc Desc : EFI_MEMORY_DESCRIPTOR) : Bool :=
  isContiguousSameAttribute PrevDesc Desc &&
  (isFreeType Desc.MemType && isFreeType PrevDesc.MemType)

/-- The value of `CanBeJoinedRt` for `PrevDesc` and `Desc`. -/
def CanBeJoinedRt (PrevDesc Desc : EFI_MEMORY_DESCRIPTOR) : Bool :=
  isContiguousSameAttribute PrevDesc Desc &&
  ((decide (Desc.MemType = EfiRuntimeServicesCode) &&
      decide (PrevDesc.MemType = EfiRuntimeServicesCode)) ||
   (decide (Desc.MemType = EfiRuntimeServicesData) &&
      decide (PrevDesc.MemType = EfiRuntimeServicesData)))

/-- `PrevDesc` after `Desc` was joined to it as free memory. -/
def joinFree (PrevDesc Desc : EFI_MEMORY_DESCRIPTOR) : EFI_MEMORY_DESCRIPTOR :=
  { PrevDesc with
    MemType := EfiConventionalMemory
    NumberOfPages := (PrevDesc.NumberOfPages + Desc.NumberOfPages) % 2 ^ 64 }

/-- `PrevDesc` after `Desc` was joined to it as runtime memory. -/
def joinRt (PrevDesc Desc : EFI_MEMORY_DESCRIPTOR) : EFI_MEMORY_DESCRIPTOR :=
  { PrevDesc with
    NumberOfPages := (PrevDesc.NumberOfPages + Desc.NumberOfPages) % 2 ^ 64 }

/-- `CopyMem (Destination, Source, Length)` on a buffer of descriptors, with
positions and length counted in descriptors: the `Count` descriptors from
`Source` on are written from `Destination` on. -/
def CopyMem (Buffer : List EFI_MEMORY_DESCRIPTOR) (Destination Source Count : Nat) :
    List EFI_MEMORY_DESCRIPTOR :=
  Buffer.take Destination ++ (Buffer.drop Source).take Count ++
    Buffer.drop (Destination + Count)

/-- The `while (SizeFromDescToEnd > 0)` loop of `OcShrinkMemoryMap`. The first
argument is `SizeFromDescToEnd`, `PrevDesc` and `Desc` are positions in the
buffer, `MemoryMapSize` is the size of the result so far; all sizes are counted
in descriptors. `none` stands for a read outside the buffer. -/
def shrinkLoop : Nat → List EFI_MEMORY_DESCRIPTOR → Nat → Nat → Nat → Bool →
    Option (List EFI_MEMORY_DESCRIPTOR × Nat)
  | 0, MemoryMap, _, _, MemoryMapSize, _ => some (MemoryMap, MemoryMapSize)
  | SizeFromDescToEnd + 1, MemoryMap, PrevDesc, Desc, MemoryMapSize, HasEntriesToRemove =>
    match MemoryMap[PrevDesc]?, MemoryMap[Desc]? with
    | some Prev, some Cur =>
      if CanBeJoinedFree Prev Cur then
        shrinkLoop SizeFromDescToEnd (MemoryMap.set PrevDesc (joinFree Prev Cur))
          PrevDesc (Desc + 1) MemoryMapSize true
      else if CanBeJoinedRt Prev Cur then
        shrinkLoop SizeFromDescToEnd (MemoryMap.set PrevDesc (joinRt Prev Cur))
          PrevDesc (Desc + 1) MemoryMapSize true
      else if HasEntriesToRemove then
        shrinkLoop SizeFromDescToEnd
          (CopyMem MemoryMap (PrevDesc + 1) Desc (SizeFromDescToEnd + 1))
          (PrevDesc + 1) (PrevDesc + 1 + 1) (MemoryMapSize + 1) false
      else
        shrinkLoop SizeFromDescToEnd MemoryMap (PrevDesc + 1) (Desc + 1)
          (MemoryMapSize + 1) false
    | _, _ => none

/-- `OcShrinkMemoryMap` on a memory map of `MemoryMap.length` descriptors: the
result is the map left in the buffer, of the size left in `MemoryMapSize`.
`SizeFromDescToEnd` starts as `MemoryMapSize - DescriptorSize`, an unsigned
subtraction: for an empty map it wraps around to a non-zero value, the loop is
entered and reads descriptors outside the map (`none`). -/
def OcShrinkMemoryMap (MemoryMap : List EFI_MEMORY_DESCRIPTOR) :
    Option (List EFI_MEMORY_DESCRIPTOR) :=
  match shrinkLoop (if MemoryMap.length = 0 then 2 ^ 64 - 1 else MemoryMap.length - 1)
      MemoryMap 0 1 1 false with
  | some (Buffer, MemoryMapSize) => some (Buffer.take MemoryMapSize)
  | none => none

/-- The pass of `OcShrinkMemoryMap` as a function on lists: `PrevDesc` is the
descriptor being accumulated, the list holds the descriptors still to visit
(`shrinkLoop_eq_coalesceFrom` relates it to the in-place loop). -/
def coalesceFrom (PrevDesc : EFI_MEMORY_DESCRIPTOR) :
    List EFI_MEMORY_DESCRIPTOR → List EFI_MEMORY_DESCRIPTOR
  | [] => [PrevDesc]
  | Desc :: Rest =>
    if CanBeJoinedFree PrevDesc Desc then
      coalesceFrom (joinFree PrevDesc Desc) Rest
    else if CanBeJoinedRt PrevDesc Desc then
      coalesceFrom (joinRt PrevDesc Desc) Rest
    else
      PrevDesc :: coalesceFrom Desc Rest

/-- No entry of the table can be joined to its predecessor. -/
def NoJoin (t : List EFI_MEMORY_DESCRIPTOR) : Prop :=
  t.Chain' (fun a b => CanBeJoinedFree a b = false ∧ CanBeJoinedRt a b = false)

/-- The table of the coalescing scenario:
`[{0,2,conventional},{2,3,conventional},{5,1,runtime-data}]`. -/
def scenarioCoalesce : List EFI_MEMORY_DESCRIPTOR :=
  [⟨EfiConventionalMemory, 0, 0, 2, 0⟩, ⟨EfiConventionalMemory, 2 * 4096, 0, 3, 0⟩,
   ⟨EfiRuntimeServicesData, 5 * 4096, 0, 1, 0⟩]

/-! ## Coalescing: ranges, merge condition, merge count -/

/-- No address lies in the ranges of both descriptors. -/
def rangesDisjoint (a b : EFI_MEMORY_DESCRIPTOR) : Prop :=
  ∀ x, ¬ (inRange a x ∧ inRange b x)

/-- The end address of the descriptor as the loop of `OcShrinkMemoryMap`
computes it, `PhysicalStart + EFI_PAGES_TO_SIZE (NumberOfPages)` in 64-bit
arithmetic. -/
def endAddress64 (d : EFI_MEMORY_DESCRIPTOR) : Nat :=
  (d.PhysicalStart + EFI_PAGES_TO_SIZE d.NumberOfPages) % 2 ^ 64

/-- The condition under which `OcShrinkMemoryMap` merges `Desc` into
`PrevDesc`, in the words of the specification: byte-contiguous, identical
attributes, and both types in the free class, or both runtime code, or both
runtime data. -/
def mergeCondition (PrevDesc Desc : EFI_MEMORY_DESCRIPTOR) : Prop :=
  endAddress64 PrevDesc = Desc.PhysicalStart ∧ Desc.Attribute = PrevDesc.Attribute ∧
  ((isFreeType PrevDesc.MemType = true ∧ isFreeType Desc.MemType = true) ∨
   (PrevDesc.MemType = EfiRuntimeServicesCode ∧ Desc.MemType = EfiRuntimeServicesCode) ∨
   (PrevDesc.MemType = EfiRuntimeServicesData ∧ Desc.MemType = EfiRuntimeServicesData))

instance (PrevDesc Desc : EFI_MEMORY_DESCRIPTOR) : Decidable (mergeCondition PrevDesc Desc) :=
  inferInstanceAs (Decidable (
    endAddress64 PrevDesc = Desc.PhysicalStart ∧ Desc.Attribute = PrevDesc.Attribute ∧
    ((isFreeType PrevDesc.MemType = true ∧ isFreeType Desc.MemType = true) ∨
     (PrevDesc.MemType = EfiRuntimeServicesCode ∧ Desc.MemType = EfiRuntimeServicesCode) ∨
     (PrevDesc.MemType = EfiRuntimeServicesData ∧ Desc.MemType = EfiRuntimeServicesData))))

/-- The merged entry in the words of the specification: the predecessor's
start, the sum of the page counts (a 64-bit value), type conventional when the
types are of the free class and the unchanged runtime type otherwise. -/
def mergedEntry (PrevDesc Desc : EFI_MEMORY_DESCRIPTOR) : EFI_MEMORY_DESCRIPTOR :=
  { PrevDesc with
    MemType := if isFreeType PrevDesc.MemType then EfiConventionalMemory else PrevDesc.MemType
    NumberOfPages := (PrevDesc.NumberOfPages + Desc.NumberOfPages) % 2 ^ 64 }

/-- The number of merges the pass of `OcShrinkMemoryMap` performs, counted along
`coalesceFrom`: the passes through the loop body that take one of the two join
branches. -/
def joinCountFrom (PrevDesc : EFI_MEMORY_DESCRIPTOR) : List EFI_MEMORY_DESCRIPTOR → Nat
  | [] => 0
  | Desc :: Rest =>
    if CanBeJoinedFree PrevDesc Desc then
      joinCountFrom (joinFree PrevDesc Desc) Rest + 1
    else if CanBeJoinedRt PrevDesc Desc then
      joinCountFrom (joinRt PrevDesc Desc) Rest + 1
    else
      joinCountFrom Desc Rest

/-! ## Sorting -/

/-- The inner loop `while (NextMemoryMapEntry < MemoryMapEnd)` of
`OcSortMemoryMap`. The first argument is the number of descriptors from
`NextMemoryMapEntry` to `MemoryMapEnd`; `MemoryMapEntry` and
`NextMemoryMapEntry` are positions in the map. The two descriptors are exchanged
through `TempMemoryMap` when the start of the first is greater. -/
def sortInner : Nat → List EFI_MEMORY_DESCRIPTOR → Nat → Nat → List EFI_MEMORY_DESCRIPTOR
  | 0, MemoryMap, _, _ => MemoryMap
  | Count + 1, MemoryMap, MemoryMapEntry, NextMemoryMapEntry =>
    if (MemoryMap.getD MemoryMapEntry default).PhysicalStart >
        (MemoryMap.getD NextMemoryMapEntry default).PhysicalStart then
      let TempMemoryMap := MemoryMap.getD MemoryMapEntry default
      let MemoryMap1 := MemoryMap.set MemoryMapEntry (MemoryMap.getD NextMemoryMapEntry default)
      sortInner Count (MemoryMap1.set NextMemoryMapEntry TempMemoryMap)
        MemoryMapEntry (NextMemoryMapEntry + 1)
    else
      sortInner Count MemoryMap MemoryMapEntry (NextMemoryMapEntry + 1)

/-- The outer loop `while (MemoryMapEntry < MemoryMapEnd)` of `OcSortMemoryMap`.
The first argument is the number of descriptors from `MemoryMapEntry` to
`MemoryMapEnd`; the inner loop starts at the descriptor after `MemoryMapEntry`,
with one descriptor less to the end. -/
def sortOuter : Nat → List EFI_MEMORY_DESCRIPTOR → Nat → List EFI_MEMORY_DESCRIPTOR
  | 0, MemoryMap, _ => MemoryMap
  | Count + 1, MemoryMap, MemoryMapEntry =>
    sortOuter Count (sortInner Count MemoryMap MemoryMapEntry (MemoryMapEntry + 1))
      (MemoryMapEntry + 1)

/-- `OcSortMemoryMap` on a memory map of `MemoryMap.length` descriptors: the
map left in the buffer. -/
def OcSortMemoryMap (MemoryMap : List EFI_MEMORY_DESCRIPTOR) : List EFI_MEMORY_DESCRIPTOR :=
  sortOuter MemoryMap.length MemoryMap 0

/-- The inner loop of `OcSortMemoryMap` as a function on lists: `Entry` is the
descriptor at `MemoryMapEntry`, the list holds the descriptors still to compare
with it; the result is the descriptor left at `MemoryMapEntry` and the
descriptors left after it (`sortInner_eq_innerPass` relates it to the loop). -/
def innerPass (Entry : EFI_MEMORY_DESCRIPTOR) :
    List EFI_MEMORY_DESCRIPTOR → EFI_MEMORY_DESCRIPTOR × List EFI_MEMORY_DESCRIPTOR
  | [] => (Entry, [])
  | Next :: Rest =>
    if Entry.PhysicalStart > Next.PhysicalStart then
      ((innerPass Next Rest).1, Entry :: (innerPass Next Rest).2)
    else
      ((innerPass Entry Rest).1, Next :: (innerPass Entry Rest).2)

/-- The outer loop of `OcSortMemoryMap` as a function on lists: the descriptors
from `MemoryMapEntry` on, with their number as first argument
(`sortOuter_eq_sortPasses` relates it to the loop). -/
def sortPasses : Nat → List EFI_MEMORY_DESCRIPTOR → List EFI_MEMORY_DESCRIPTOR
  | 0, l => l
  | _ + 1, [] => []
  | Count + 1, Entry :: Rest =>
    (innerPass Entry Rest).1 :: sortPasses Count (innerPass Entry Rest).2

/-- A table of three descriptors in descending order of start. -/
def scenarioUnsorted : List EFI_MEMORY_DESCRIPTOR :=
  [⟨EfiRuntimeServicesData, 5 * 4096, 0, 1, 0⟩, ⟨EfiConventionalMemory, 2 * 4096, 0, 3, 0⟩,
   ⟨EfiConventionalMemory, 0, 0, 2, 0⟩]

/-! ## Allocation from the top -/

/-- The test of `AllocatePagesFromTop` on a descriptor: conventional memory,
enough pages, and `PhysicalStart + EFI_PAGES_TO_SIZE (Pages) <= *Memory`, the
sum in 64-bit arithmetic. -/
def qualifies (Desc : EFI_MEMORY_DESCRIPTOR) (Pages Memory : Nat) : Bool :=
  decide (Desc.MemType = EfiConventionalMemory) && decide (Pages ≤ Desc.NumberOfPages) &&
    decide ((Desc.PhysicalStart + EFI_PAGES_TO_SIZE Pages) % 2 ^ 64 ≤ Memory)

/-- The address `AllocatePagesFromTop` writes to `*Memory` for a descriptor that
passed the test: the top of the block when the whole block is under `*Memory`,
and `*Memory - EFI_PAGES_TO_SIZE (Pages)` otherwise, in 64-bit arithmetic. -/
def candidateAddress (Desc : EFI_MEMORY_DESCRIPTOR) (Pages Memory : Nat) : Nat :=
  if (Desc.PhysicalStart + EFI_PAGES_TO_SIZE Desc.NumberOfPages) % 2 ^ 64 ≤ Memory then
    (Desc.PhysicalStart + EFI_PAGES_TO_SIZE (Desc.NumberOfPages - Pages)) % 2 ^ 64
  else
    (Memory + (2 ^ 64 - EFI_PAGES_TO_SIZE Pages)) % 2 ^ 64

/-- What a call of `AllocatePagesFromTop` leaves: the status returned, the value
left in `*Memory`, and the calls of `gBS->AllocatePages (AllocateAddress, ...)`
made, each with its memory type, number of pages and address. -/
structure ALLOCATE_RESULT where
  /-- The status returned. -/
  Status : EFI_STATUS
  /-- The value left in `*Memory`. -/
  Memory : Nat
  /-- The calls of `gBS->AllocatePages`: memory type, pages, address. -/
  Allocations : List (Nat × Nat × Nat)
deriving DecidableEq, Repr

/-- The `for` loop of `AllocatePagesFromTop`, from the last descriptor of the map
down to the first. The first argument is the number of descriptors from
`MemoryMap` to `Desc`, `Desc` included, so `Desc` is at position `Count`;
`Memory` is the current value of `*Memory`. `CheckRange` is `none` for `NULL`;
`AllocatePages` stands for `gBS->AllocatePages (AllocateAddress, ...)` and gives
the status of the firmware. The candidate is written to `*Memory` before
`CheckRange` is asked, and stays there when the loop continues. -/
def allocateScan (MemoryType Pages : Nat) (CheckRange : Option (Nat → Nat → Bool))
    (AllocatePages : Nat → Nat → Nat → EFI_STATUS) (MemoryMap : List EFI_MEMORY_DESCRIPTOR) :
    Nat → Nat → ALLOCATE_RESULT
  | 0, Memory => ⟨EFI_STATUS.EFI_NOT_FOUND, Memory, []⟩
  | Count + 1, Memory =>
    let Desc := MemoryMap.getD Count default
    if qualifies Desc Pages Memory then
      let Memory1 := candidateAddress Desc Pages Memory
      if (match CheckRange with
          | some Check => Check Memory1 (EFI_PAGES_TO_SIZE Pages)
          | none => false) then
        allocateScan MemoryType Pages CheckRange AllocatePages MemoryMap Count Memory1
      else
        ⟨AllocatePages MemoryType Pages Memory1, Memory1, [(MemoryType, Pages, Memory1)]⟩
    else
      allocateScan MemoryType Pages CheckRange AllocatePages MemoryMap Count Memory

/-- `AllocatePagesFromTop`. `Snapshot` is what `GetCurrentMemoryMapAlloc` gives:
its status and the memory map; `Memory` is the value of `*Memory` at the call.
An error of the snapshot is returned as it is. -/
def AllocatePagesFromTop (MemoryType Pages Memory : Nat)
    (Snapshot : EFI_STATUS × List EFI_MEMORY_DESCRIPTOR)
    (CheckRange : Option (Nat → Nat → Bool))
    (AllocatePages : Nat → Nat → Nat → EFI_STATUS) : ALLOCATE_RESULT :=
  if EFI_ERROR Snapshot.1 then
    ⟨Snapshot.1, Memory, []⟩
  else
    allocateScan MemoryType Pages CheckRange AllocatePages Snapshot.2 Snapshot.2.length Memory

/-- The range `[a, a + Pages * 4096)` lies inside a single conventional entry of
the table and ends at or below the ceiling. -/
def fitsBelow (T : List EFI_MEMORY_DESCRIPTOR) (Pages Ceiling a : Nat) : Prop :=
  (∃ E ∈ T, E.MemType = EfiConventionalMemory ∧ E.PhysicalStart ≤ a ∧
    a + Pages * 4096 ≤ rangeEnd E) ∧ a + Pages * 4096 ≤ Ceiling

/-- The scan of the top-down allocator in the words of the specification: from
the last entry down, the first entry that is conventional, has enough pages,
has `start + requestedSize <= ceiling` for the ceiling of the caller, and whose
candidate, computed against the ceiling of the caller, the conflict check does
not reject; the result is that candidate. The first argument is the number of
entries still to scan. -/
def selectFromTop (Pages Ceiling : Nat) (ConflictCheck : Nat → Nat → Bool)
    (T : List EFI_MEMORY_DESCRIPTOR) : Nat → Option Nat
  | 0 => none
  | Count + 1 =>
    let E := T.getD Count default
    if qualifies E Pages Ceiling ∧
        ConflictCheck (candidateAddress E Pages Ceiling) (EFI_PAGES_TO_SIZE Pages) = false then
      some (candidateAddress E Pages Ceiling)
    else
      selectFromTop Pages Ceiling ConflictCheck T Count

/-- A firmware allocator that grants every request. -/
def allocatePagesGranted : Nat → Nat → Nat → EFI_STATUS :=
  fun _ _ _ => EFI_STATUS.EFI_SUCCESS

/-- A firmware allocator that finds the requested pages taken:
`EFI_NOT_FOUND`. -/
def allocatePagesTaken : Nat → Nat → Nat → EFI_STATUS :=
  fun _ _ _ => EFI_STATUS.EFI_NOT_FOUND

/-- A table of one conventional entry of `0x200` pages from address 0: it
straddles the ceiling `0x100000`. -/
def scenarioStraddle : List EFI_MEMORY_DESCRIPTOR :=
  [⟨EfiConventionalMemory, 0, 0, 0x200, 0⟩]

/-- The table of the allocation scenario of the specification:
`[{0x0,16,conventional}]`. -/
def scenarioAllocate : List EFI_MEMORY_DESCRIPTOR :=
  [⟨EfiConventionalMemory, 0, 0, 16, 0⟩]

/-- A snapshot that is not in ascending order: a conventional entry of 16 pages
at `0x80000`, then one of 16 pages at `0x10000`. -/
def scenarioSnapshotUnsorted : List EFI_MEMORY_DESCRIPTOR :=
  [⟨EfiConventionalMemory, 0x80000, 0, 16, 0⟩, ⟨EfiConventionalMemory, 0x10000, 0, 16, 0⟩]

/-- A conflict check that rejects the range at `0x1E000` and no other. -/
def conflictAt1E000 : Nat → Nat → Bool :=
  fun Address _ => decide (Address = 0x1E000)

/-- A sorted table of two conventional entries of 16 pages, at `0x0` and at
`0x80000`. -/
def scenarioAllocateTwo : List EFI_MEMORY_DESCRIPTOR :=
  [⟨EfiConventionalMemory, 0, 0, 16, 0⟩, ⟨EfiConventionalMemory, 0x80000, 0, 16, 0⟩]

/-- A conventional entry of 4 pages at `0xffffffffffffc000`: it ends at `2 ^ 64`,
the top of the address space. -/
def scenarioTopEntry : EFI_MEMORY_DESCRIPTOR :=
  ⟨EfiConventionalMemory, 0xffffffffffffc000, 0, 4, 0⟩

/-- A sorted table of two conventional entries: 16 pages at `0x0`, and 2 pages at
`0xffffffffffffe000`, which end at `2 ^ 64`. -/
def scenarioTableTop : List EFI_MEMORY_DESCRIPTOR :=
  [⟨EfiConventionalMemory, 0, 0, 16, 0⟩, ⟨EfiConventionalMemory, 0xffffffffffffe000, 0, 2, 0⟩]

/-- A snapshot of one conventional entry of 2 pages at `0xffffffffffffe000`,
which end at `2 ^ 64`. -/
def scenarioSnapshotTop : List EFI_MEMORY_DESCRIPTOR :=
  [⟨EfiConventionalMemory, 0xffffffffffffe000, 0, 2, 0⟩]

/-! ## Updating an entry, counting runtime pages -/

/-- The attributes after `Attribute |= SetAttributes; Attribute &= ~DropAttributes`
on `UINT64` values; the complement is the exclusive or with `2 ^ 64 - 1`. -/
def updatedAttribute (Attribute SetAttributes DropAttributes : Nat) : Nat :=
  (Attribute ||| SetAttributes) &&& ((2 ^ 64 - 1) ^^^ DropAttributes)

/-- `OcUpdateDescriptors`: the loop walks the map from its first descriptor; at
the first descriptor with `AREA_WITHIN_DESCRIPTOR (MemoryMap, Address, 1)` it
sets the type, sets and drops the attributes and returns `EFI_SUCCESS`; after
the last descriptor it returns `EFI_NOT_FOUND`. The result is the status with
the map left in the buffer. -/
def OcUpdateDescriptors : List EFI_MEMORY_DESCRIPTOR → Nat → Nat → Nat → Nat →
    EFI_STATUS × List EFI_MEMORY_DESCRIPTOR
  | [], _, _, _, _ => (EFI_STATUS.EFI_NOT_FOUND, [])
  | MemoryMap :: Rest, Address, MemType, SetAttributes, DropAttributes =>
    if AREA_WITHIN_DESCRIPTOR MemoryMap Address 1 then
      (EFI_STATUS.EFI_SUCCESS,
        { MemoryMap with
          MemType := MemType
          Attribute := updatedAttribute MemoryMap.Attribute SetAttributes DropAttributes } ::
          Rest)
    else
      ((OcUpdateDescriptors Rest Address MemType SetAttributes DropAttributes).1,
        MemoryMap :: (OcUpdateDescriptors Rest Address MemType SetAttributes DropAttributes).2)

/-- Modelled from the spec: the runtime-visible bit of `attributeFlags`; the
constant `EFI_MEMORY_RUNTIME` comes from the UEFI headers, which are not part
of the sources. -/
def EFI_MEMORY_RUNTIME : Nat := 0x8000000000000000

/-- The test of `CountRuntimePages` on a descriptor:
`Type != EfiReservedMemoryType && (Attribute & EFI_MEMORY_RUNTIME) != 0`. -/
def isCountedRuntime (Desc : EFI_MEMORY_DESCRIPTOR) : Bool :=
  decide (Desc.MemType ≠ EfiReservedMemoryType) &&
    decide (Desc.Attribute &&& EFI_MEMORY_RUNTIME ≠ 0)

/-- The loop of `CountRuntimePages` over the descriptors still to visit, with
the current values of `DescNum` (`UINTN`) and `PageNum` (`UINT64`); the result
is the final `(DescNum, PageNum)`. -/
def countRuntimeLoop : List EFI_MEMORY_DESCRIPTOR → Nat → Nat → Nat × Nat
  | [], DescNum, PageNum => (DescNum, PageNum)
  | Desc :: Rest, DescNum, PageNum =>
    if isCountedRuntime Desc then
      countRuntimeLoop Rest ((DescNum + 1) % 2 ^ 64) ((PageNum + Desc.NumberOfPages) % 2 ^ 64)
    else
      countRuntimeLoop Rest DescNum PageNum

/-- `CountRuntimePages`: the page count returned, and the value written to
`DescriptorCount`. -/
def CountRuntimePages (MemoryMap : List EFI_MEMORY_DESCRIPTOR) : Nat × Nat :=
  ((countRuntimeLoop MemoryMap 0 0).2, (countRuntimeLoop MemoryMap 0 0).1)

/-- A table with a runtime-visible entry of runtime data (3 pages), a
runtime-visible entry of reserved type (5 pages), a conventional entry that is
not runtime-visible (7 pages) and a runtime-visible entry of runtime code
(2 pages). -/
def scenarioRuntimePages : List EFI_MEMORY_DESCRIPTOR :=
  [⟨EfiRuntimeServicesData, 0, 0, 3, EFI_MEMORY_RUNTIME⟩,
   ⟨EfiReservedMemoryType, 3 * 4096, 0, 5, EFI_MEMORY_RUNTIME⟩,
   ⟨EfiConventionalMemory, 8 * 4096, 0, 7, 0⟩,
   ⟨EfiRuntimeServicesCode, 15 * 4096, 0, 2, EFI_MEMORY_RUNTIME ||| EFI_MEMORY_RO⟩]

/-- The types that take part in a merge of `OcShrinkMemoryMap`: the five free
types, runtime code and runtime data. -/
def isMergeType (MemType : Nat) : Bool :=
  isFreeType MemType || decide (MemType = EfiRuntimeServicesCode) ||
    decide (MemType = EfiRuntimeServicesData)

/-- Three contiguous entries of ACPI reclaim and persistent memory with equal
attributes. -/
def scenarioNoMerge : List EFI_MEMORY_DESCRIPTOR :=
  [⟨EfiACPIReclaimMemory, 0, 0, 2, 0⟩, ⟨EfiACPIReclaimMemory, 2 * 4096, 0, 3, 0⟩,
   ⟨EfiPersistentMemory, 5 * 4096, 0, 1, 0⟩]

/-! ## Acquiring the memory map -/

/-- What one call of the firmware's `GetMemoryMap` gives back: the status, the
value left in `*MemoryMapSize` (in bytes), the descriptor size, and the
descriptors written to the buffer. -/
structure GET_MEMORY_MAP_RESULT where
  /-- The status of the call. -/
  Status : EFI_STATUS
  /-- The value left in `*MemoryMapSize`. -/
  MemoryMapSize : Nat
  /-- The value left in `*DescriptorSize`. -/
  DescriptorSize : Nat
  /-- The descriptors written to the buffer. -/
  MemoryMap : List EFI_MEMORY_DESCRIPTOR
deriving DecidableEq, Repr

/-- `OcGetCurrentMemoryMap`. `GetMemoryMap n size` is the answer of the firmware
to the call number `n` of the routine, made with a buffer of `size` bytes (the
call number 0 is the query of the size, with no buffer); `AllocatePool size`
tells whether the pool allocation gives a buffer; `MemoryAttributes` is the
attributes table that `OcCountSplitDescritptors` counts. The result is `none`
for `NULL`, and otherwise the memory map with the values left in
`*MemoryMapSize` and `*OriginalMemoryMapSize`. The addition checked by
`OcOverflowAddUN` fails when the sum does not fit in 64 bits. -/
def OcGetCurrentMemoryMap (GetMemoryMap : Nat → Nat → GET_MEMORY_MAP_RESULT)
    (AllocatePool : Nat → Bool) (MemoryAttributes : Option (List EFI_MEMORY_DESCRIPTOR))
    (IncludeSplitSpace : Bool) : Option (List EFI_MEMORY_DESCRIPTOR × Nat × Nat) :=
  let Query := GetMemoryMap 0 0
  if Query.Status ≠ EFI_STATUS.EFI_BUFFER_TOO_SMALL then
    none
  else
    let ExtraSize :=
      if IncludeSplitSpace then
        (OcCountSplitDescritptors MemoryAttributes * Query.DescriptorSize) % 2 ^ 64
      else 0
    let Slack := max ((Query.DescriptorSize + ExtraSize) % 2 ^ 64) ((1024 + ExtraSize) % 2 ^ 64)
    if 2 ^ 64 ≤ Query.MemoryMapSize + Slack then
      none
    else
      let OriginalSize := Query.MemoryMapSize + Slack
      if AllocatePool OriginalSize = false then
        none
      else
        let Fill := GetMemoryMap 1 OriginalSize
        if EFI_ERROR Fill.Status then
          none
        else
          some (Fill.MemoryMap, Fill.MemoryMapSize, OriginalSize)

/-- What `GetCurrentMemoryMapAlloc` leaves: the status, the value left in
`*MemoryMapSize`, the memory map (`none` for `NULL`), the value left in
`*TopMemory` (`none` when `TopMemory` is `NULL`), and the passes whose buffer
was released again by `FreePool` or `gBS->FreePages`. -/
structure MEMORY_MAP_ALLOC_RESULT where
  /-- The status returned. -/
  Status : EFI_STATUS
  /-- The value left in `*MemoryMapSize`. -/
  MemoryMapSize : Nat
  /-- The memory map left in `*MemoryMap`. -/
  MemoryMap : Option (List EFI_MEMORY_DESCRIPTOR)
  /-- The value left in `*TopMemory`. -/
  TopMemory : Option Nat
  /-- The passes whose buffer was released. -/
  Released : List Nat
deriving DecidableEq, Repr

/-- The `do ... while (Status == EFI_BUFFER_TOO_SMALL)` loop of
`GetCurrentMemoryMapAlloc`. `Cycle` is the number of the pass, which is also the
number of the call of `GetMemoryMap` it makes; `MemoryMapSize` is the value of
`*MemoryMapSize` on entry; `TopMemory` is the value of `*TopMemory`, `none` when
the pointer is `NULL`; `Released` lists the passes whose buffer was released so
far. With `TopMemory` the buffer comes from
`AllocatePagesFromTop (EfiBootServicesData, *TopMemory, &MemoryMapAlloc, ...)`,
after `MemoryMapAlloc = *TopMemory` and
`*TopMemory = EFI_SIZE_TO_PAGES (*MemoryMapSize)`, so that from the second pass
on the ceiling is the page count of the pass before; `Snapshot n` is the
snapshot that call takes in pass `n`, `AllocatePages` the allocator of the
firmware. Without `TopMemory` the buffer comes from the pool, and
`AllocatePool n size` tells whether pass `n` gets one. When the fill call fails
the buffer of the pass is released. `none` stands for running out of `fuel`:
the loop goes on as long as the firmware answers `EFI_BUFFER_TOO_SMALL`. -/
def memoryMapAllocLoop (GetMemoryMap : Nat → Nat → GET_MEMORY_MAP_RESULT)
    (AllocatePool : Nat → Nat → Bool)
    (Snapshot : Nat → EFI_STATUS × List EFI_MEMORY_DESCRIPTOR)
    (AllocatePages : Nat → Nat → Nat → EFI_STATUS) :
    Nat → Nat → Nat → Option Nat → List Nat → Option MEMORY_MAP_ALLOC_RESULT
  | 0, _, _, _, _ => none
  | fuel + 1, Cycle, MemoryMapSize, some TopMemory, Released =>
    let Size := (MemoryMapSize + 512) % 2 ^ 64
    let MemoryMapAlloc := TopMemory
    let Pages := EFI_SIZE_TO_PAGES Size
    let Allocation := AllocatePagesFromTop EfiBootServicesData Pages MemoryMapAlloc
      (Snapshot Cycle) none AllocatePages
    if EFI_ERROR Allocation.Status then
      some ⟨Allocation.Status, Size, none, some Pages, Released⟩
    else
      let Fill := GetMemoryMap Cycle Size
      if Fill.Status = EFI_STATUS.EFI_BUFFER_TOO_SMALL then
        memoryMapAllocLoop GetMemoryMap AllocatePool Snapshot AllocatePages fuel (Cycle + 1)
          Fill.MemoryMapSize (some Pages) (Released ++ [Cycle])
      else if EFI_ERROR Fill.Status then
        some ⟨Fill.Status, Fill.MemoryMapSize, none, some Pages, Released ++ [Cycle]⟩
      else
        some ⟨Fill.Status, Fill.MemoryMapSize, some Fill.MemoryMap, some Pages, Released⟩
  | fuel + 1, Cycle, MemoryMapSize, none, Released =>
    let Size := (MemoryMapSize + 512) % 2 ^ 64
    if AllocatePool Cycle Size = false then
      some ⟨EFI_STATUS.EFI_OUT_OF_RESOURCES, Size, none, none, Released⟩
    else
      let Fill := GetMemoryMap Cycle Size
      if Fill.Status = EFI_STATUS.EFI_BUFFER_TOO_SMALL then
        memoryMapAllocLoop GetMemoryMap AllocatePool Snapshot AllocatePages fuel (Cycle + 1)
          Fill.MemoryMapSize none (Released ++ [Cycle])
      else if EFI_ERROR Fill.Status then
        some ⟨Fill.Status, Fill.MemoryMapSize, none, none, Released ++ [Cycle]⟩
      else
        some ⟨Fill.Status, Fill.MemoryMapSize, some Fill.MemoryMap, none, Released⟩

/-- `GetCurrentMemoryMapAlloc`: the query of the size (call number 0, no
buffer), then the loop. -/
def GetCurrentMemoryMapAlloc (GetMemoryMap : Nat → Nat → GET_MEMORY_MAP_RESULT)
    (AllocatePool : Nat → Nat → Bool)
    (Snapshot : Nat → EFI_STATUS × List EFI_MEMORY_DESCRIPTOR)
    (AllocatePages : Nat → Nat → Nat → EFI_STATUS) (TopMemory : Option Nat) (fuel : Nat) :
    Option MEMORY_MAP_ALLOC_RESULT :=
  let Query := GetMemoryMap 0 0
  if Query.Status ≠ EFI_STATUS.EFI_BUFFER_TOO_SMALL then
    some ⟨Query.Status, Query.MemoryMapSize, none, TopMemory, []⟩
  else
    memoryMapAllocLoop GetMemoryMap AllocatePool Snapshot AllocatePages fuel 1
      Query.MemoryMapSize TopMemory []

/-- The size of the buffer that `GetCurrentMemoryMapAlloc` passes to the call
number `n` of `GetMemoryMap`: nothing for the query, and then each time 512
bytes more than the size the firmware reported in the call before. -/
def requestSize (GetMemoryMap : Nat → Nat → GET_MEMORY_MAP_RESULT) : Nat → Nat
  | 0 => 0
  | n + 1 => ((GetMemoryMap n (requestSize GetMemoryMap n)).MemoryMapSize + 512) % 2 ^ 64

/-- A memory map of `n` conventional entries of one page, two pages apart. -/
def scenarioMapOf (n : Nat) : List EFI_MEMORY_DESCRIPTOR :=
  (List.range n).map (fun i => ⟨EfiConventionalMemory, i * 8192, 0, 1, 0⟩)

/-- A firmware with descriptors of 48 bytes whose map has 2 entries at the query
of the size and 26 entries from then on (it grew by 1152 bytes): a call with a
buffer that is too small answers `EFI_BUFFER_TOO_SMALL` with the size needed,
a call with a buffer that is large enough fills in the map. -/
def scenarioFirmware (n size : Nat) : GET_MEMORY_MAP_RESULT :=
  if size < (if n = 0 then 2 else 26) * 48 then
    ⟨EFI_STATUS.EFI_BUFFER_TOO_SMALL, (if n = 0 then 2 else 26) * 48, 48, []⟩
  else
    ⟨EFI_STATUS.EFI_SUCCESS, (if n = 0 then 2 else 26) * 48, 48,
      scenarioMapOf (if n = 0 then 2 else 26)⟩

/-- A pool that gives every buffer. -/
def poolGranted : Nat → Bool := fun _ => true

/-- A pool that gives a buffer in every pass. -/
def poolGrantedInPass : Nat → Nat → Bool := fun _ _ => true

/-- The slack `MAX (*DescriptorSize + ExtraSize, 1024 + ExtraSize)` that
`OcGetCurrentMemoryMap` adds to the size the firmware reported, with
`ExtraSize = OcCountSplitDescritptors () * *DescriptorSize` when the split space
is included and 0 otherwise, in 64-bit arithmetic. -/
def snapshotSlack (DescriptorSize : Nat) (MemoryAttributes : Option (List EFI_MEMORY_DESCRIPTOR))
    (IncludeSplitSpace : Bool) : Nat :=
  max ((DescriptorSize + (if IncludeSplitSpace then
        (OcCountSplitDescritptors MemoryAttributes * DescriptorSize) % 2 ^ 64 else 0)) % 2 ^ 64)
    ((1024 + (if IncludeSplitSpace then
        (OcCountSplitDescritptors MemoryAttributes * DescriptorSize) % 2 ^ 64 else 0)) % 2 ^ 64)

/-- A snapshot in which 2 pages fit below `0x100000`, whatever the pass. -/
def scenarioSnapshots : Nat → EFI_STATUS × List EFI_MEMORY_DESCRIPTOR :=
  fun _ => (EFI_STATUS.EFI_SUCCESS, [⟨EfiConventionalMemory, 0, 0, 16, 0⟩])

/-! ## The assertion of `OcSplitMemoryEntryByAttribute` -/

/-- The descriptor `MemoryMapEntry` of `OcSplitMemoryEntryByAttribute` at its
`ASSERT`: the entry inserted by the head split when the attribute starts after
the entry (the copy of the entry with `PhysicalStart` set to the start of the
attribute and `NumberOfPages` decreased by `DiffPages`), and the entry itself
otherwise (`OcSplitMemoryEntryByAttribute_at_assert` relates it to the
routine). -/
def entryAtAssert (MemoryMapEntry MemoryAttribute : EFI_MEMORY_DESCRIPTOR) :
    EFI_MEMORY_DESCRIPTOR :=
  if MemoryAttribute.PhysicalStart > MemoryMapEntry.PhysicalStart then
    { MemoryMapEntry with
      PhysicalStart := MemoryAttribute.PhysicalStart
      NumberOfPages := (MemoryMapEntry.NumberOfPages + 2 ^ 64
        - EFI_SIZE_TO_PAGES (MemoryAttribute.PhysicalStart - MemoryMapEntry.PhysicalStart))
          % 2 ^ 64 }
  else
    MemoryMapEntry

/-! ## List bookkeeping -/

theorem getD_append_mid (pre post : List EFI_MEMORY_DESCRIPTOR) (E : EFI_MEMORY_DESCRIPTOR) :
    (pre ++ E :: post).getD pre.length default = E := by
  induction pre with
  | nil => rfl
  | cons a l ih => simpa using ih

theorem getD_append_mid_succ (pre post : List EFI_MEMORY_DESCRIPTOR)
    (E F : EFI_MEMORY_DESCRIPTOR) :
    (pre ++ E :: F :: post).getD (pre.length + 1) default = F := by
  induction pre with
  | nil => rfl
  | cons a l ih => simpa using ih

theorem set_append_mid (pre post : List EFI_MEMORY_DESCRIPTOR) (E G : EFI_MEMORY_DESCRIPTOR) :
    (pre ++ E :: post).set pre.length G = pre ++ G :: post := by
  simp [List.set_append]

theorem set_append_mid_succ (pre post : List EFI_MEMORY_DESCRIPTOR)
    (E F G : EFI_MEMORY_DESCRIPTOR) :
    (pre ++ E :: F :: post).set (pre.length + 1) G = pre ++ E :: G :: post := by
  simp [List.set_append]

theorem CopyMemUp_append_mid (pre post : List EFI_MEMORY_DESCRIPTOR) (E : EFI_MEMORY_DESCRIPTOR) :
    CopyMemUp (pre ++ E :: post) pre.length = pre ++ E :: E :: post := by
  simp [CopyMemUp, List.take_append, List.drop_append]

/-! ## The split of one entry, on a map written `pre ++ E :: post` -/

/-- What `splitEntryAtStart` does to the entry `E` at position `pre.length`. -/
theorem splitEntryAtStart_append (pre post : List EFI_MEMORY_DESCRIPTOR)
    (E A : EFI_MEMORY_DESCRIPTOR) (cap : Nat) :
    splitEntryAtStart (pre ++ E :: post) pre.length cap A =
      if E.NumberOfPages = A.NumberOfPages then
        { Status := EFI_STATUS.EFI_SUCCESS
          MemoryMap := pre ++ { E with MemType := OcRealMemoryType A } :: post
          CurrentEntryIndex := pre.length }
      else if (pre ++ E :: post).length = cap then
        { Status := EFI_STATUS.EFI_OUT_OF_RESOURCES
          MemoryMap := pre ++ E :: post
          CurrentEntryIndex := pre.length }
      else
        { Status := EFI_STATUS.EFI_SUCCESS
          MemoryMap := pre ++
            { E with MemType := OcRealMemoryType A, NumberOfPages := A.NumberOfPages } ::
            { E with
              PhysicalStart := (E.PhysicalStart + EFI_PAGES_TO_SIZE A.NumberOfPages) % 2 ^ 64
              NumberOfPages := (E.NumberOfPages + 2 ^ 64 - A.NumberOfPages) % 2 ^ 64 } :: post
          CurrentEntryIndex := pre.length + 1 } := by
  unfold splitEntryAtStart
  simp only [getD_append_mid, CopyMemUp_append_mid, set_append_mid, set_append_mid_succ,
    getD_append_mid_succ]

/-- What `OcSplitMemoryEntryByAttribute` does to the entry `E` at position
`pre.length` when the attribute starts after it. -/
theorem OcSplitMemoryEntryByAttribute_append_gt (pre post : List EFI_MEMORY_DESCRIPTOR)
    (E A : EFI_MEMORY_DESCRIPTOR) (cap : Nat) (hgt : E.PhysicalStart < A.PhysicalStart) :
    OcSplitMemoryEntryByAttribute (pre ++ E :: post) pre.length cap A =
      if (pre ++ E :: post).length = cap then
        { Status := EFI_STATUS.EFI_OUT_OF_RESOURCES
          MemoryMap := pre ++ E :: post
          CurrentEntryIndex := pre.length }
      else
        splitEntryAtStart
          ((pre ++ [{ E with NumberOfPages :=
              EFI_SIZE_TO_PAGES (A.PhysicalStart - E.PhysicalStart) }]) ++
            { E with
              PhysicalStart := A.PhysicalStart
              NumberOfPages := (E.NumberOfPages + 2 ^ 64
                - EFI_SIZE_TO_PAGES (A.PhysicalStart - E.PhysicalStart)) % 2 ^ 64 } :: post)
          (pre ++ [{ E with NumberOfPages :=
              EFI_SIZE_TO_PAGES (A.PhysicalStart - E.PhysicalStart) }]).length cap A := by
  unfold OcSplitMemoryEntryByAttribute
  simp only [getD_append_mid, CopyMemUp_append_mid, set_append_mid, set_append_mid_succ,
    getD_append_mid_succ, gt_iff_lt, hgt, if_true, List.length_append, List.length_singleton,
    List.append_assoc, List.singleton_append]

/-- What `OcSplitMemoryEntryByAttribute` does when the attribute does not start
after the entry. -/
theorem OcSplitMemoryEntryByAttribute_append_le (pre post : List EFI_MEMORY_DESCRIPTOR)
    (E A : EFI_MEMORY_DESCRIPTOR) (cap : Nat) (hle : A.PhysicalStart ≤ E.PhysicalStart) :
    OcSplitMemoryEntryByAttribute (pre ++ E :: post) pre.length cap A =
      splitEntryAtStart (pre ++ E :: post) pre.length cap A := by
  unfold OcSplitMemoryEntryByAttribute
  simp only [getD_append_mid, gt_iff_lt, Nat.not_lt.mpr hle, if_false]

theorem EFI_SIZE_TO_PAGES_aligned (s : Nat) (h : s % 4096 = 0) :
    EFI_SIZE_TO_PAGES s = s / 4096 := by
  simp [EFI_SIZE_TO_PAGES, h]

/-- For page-aligned `E` and `A`, with `A` inside `E` and `E` ending below
`2 ^ 64`, `OcSplitMemoryEntryByAttribute` computes `splitEntryOutcome`. -/
theorem OcSplitMemoryEntryByAttribute_eq_outcome (pre post : List EFI_MEMORY_DESCRIPTOR)
    (E A : EFI_MEMORY_DESCRIPTOR) (cap : Nat)
    (hE : E.PhysicalStart % 4096 = 0) (hA : A.PhysicalStart % 4096 = 0)
    (hlo : E.PhysicalStart ≤ A.PhysicalStart) (hhi : rangeEnd A ≤ rangeEnd E)
    (hwrap : rangeEnd E < 2 ^ 64) :
    OcSplitMemoryEntryByAttribute (pre ++ E :: post) pre.length cap A =
      splitEntryOutcome pre post E A cap := by
  unfold rangeEnd at hhi hwrap
  unfold splitEntryOutcome
  by_cases hgt : E.PhysicalStart < A.PhysicalStart
  · rw [OcSplitMemoryEntryByAttribute_append_gt _ _ _ _ _ hgt, if_pos hgt]
    by_cases hcap : (pre ++ E :: post).length = cap
    · rw [if_pos hcap, if_pos hcap]
    · rw [if_neg hcap, if_neg hcap, splitEntryAtStart_append]
      have hd : (A.PhysicalStart - E.PhysicalStart) % 4096 = 0 := by omega
      rw [EFI_SIZE_TO_PAGES_aligned _ hd]
      have hlen : (pre ++ [{ E with NumberOfPages :=
          (A.PhysicalStart - E.PhysicalStart) / 4096 }] ++
            { E with
              PhysicalStart := A.PhysicalStart
              NumberOfPages := (E.NumberOfPages + 2 ^ 64
                - (A.PhysicalStart - E.PhysicalStart) / 4096) % 2 ^ 64 } :: post).length
          = (pre ++ E :: post).length + 1 := by
        simp only [List.length_append, List.length_cons, List.length_nil]; omega
      rw [hlen]
      simp only [rangeEnd, headPiece, midPiece, tailPiece, restPiece, EFI_PAGES_TO_SIZE,
        List.length_append, List.length_singleton, List.append_assoc, List.singleton_append]
      have e1 : (E.NumberOfPages + 2 ^ 64 - (A.PhysicalStart - E.PhysicalStart) / 4096) % 2 ^ 64
          = E.NumberOfPages - (A.PhysicalStart - E.PhysicalStart) / 4096 := by omega
      rw [e1]
      by_cases hex : A.PhysicalStart + A.NumberOfPages * 4096
          = E.PhysicalStart + E.NumberOfPages * 4096
      · have e2 : E.NumberOfPages - (A.PhysicalStart - E.PhysicalStart) / 4096
            = A.NumberOfPages := by omega
        rw [if_pos e2, if_pos hex, e2]
      · have e2 : ¬ E.NumberOfPages - (A.PhysicalStart - E.PhysicalStart) / 4096
            = A.NumberOfPages := by omega
        rw [if_neg e2, if_neg hex]
        have e3 : (E.PhysicalStart + E.NumberOfPages * 4096 - A.PhysicalStart) / 4096
            = E.NumberOfPages - (A.PhysicalStart - E.PhysicalStart) / 4096 := by omega
        have e4 : (A.PhysicalStart + A.NumberOfPages * 4096 % 2 ^ 64) % 2 ^ 64
            = A.PhysicalStart + A.NumberOfPages * 4096 := by omega
        have e5 : (E.NumberOfPages - (A.PhysicalStart - E.PhysicalStart) / 4096 + 2 ^ 64
            - A.NumberOfPages) % 2 ^ 64
            = (E.PhysicalStart + E.NumberOfPages * 4096
              - (A.PhysicalStart + A.NumberOfPages * 4096)) / 4096 := by omega
        rw [e3, e4, e5]
  · have hEq : A.PhysicalStart = E.PhysicalStart := by omega
    rw [OcSplitMemoryEntryByAttribute_append_le _ _ _ _ _ (by omega), if_neg hgt,
      splitEntryAtStart_append]
    simp only [rangeEnd, headPiece, midPiece, tailPiece, restPiece, EFI_PAGES_TO_SIZE]
    by_cases hex : A.PhysicalStart + A.NumberOfPages * 4096
        = E.PhysicalStart + E.NumberOfPages * 4096
    · have e2 : E.NumberOfPages = A.NumberOfPages := by omega
      rw [if_pos e2, if_pos hex, hEq, e2]
    · have e2 : ¬ E.NumberOfPages = A.NumberOfPages := by omega
      rw [if_neg e2, if_neg hex]
      have e4 : (E.PhysicalStart + A.NumberOfPages * 4096 % 2 ^ 64) % 2 ^ 64
          = A.PhysicalStart + A.NumberOfPages * 4096 := by omega
      have e5 : (E.NumberOfPages + 2 ^ 64 - A.NumberOfPages) % 2 ^ 64
          = (E.PhysicalStart + E.NumberOfPages * 4096
            - (A.PhysicalStart + A.NumberOfPages * 4096)) / 4096 := by omega
      rw [e4, e5, hEq]

/-! ## The attribute scan -/

/-- When the scan stops at `Index2`, the attribute there is a runtime one,
passes the containment test against the entry and has another real type; the
runtime attributes passed over on the way that pass the containment test have
the entry's type. -/
theorem findSplitAttribute_some (E : EFI_MEMORY_DESCRIPTOR) :
    ∀ (l : List EFI_MEMORY_DESCRIPTOR) (i : Nat) (b : Bool) (j : Nat),
      findSplitAttribute E l i b = some j →
      i ≤ j ∧ ∃ A, l[j - i]? = some A ∧ isRuntimeType A.MemType = true ∧
        AREA_WITHIN_DESCRIPTOR E A.PhysicalStart (EFI_PAGES_TO_SIZE A.NumberOfPages) = true ∧
        OcRealMemoryType A ≠ E.MemType ∧
        ∀ k B, k < j - i → l[k]? = some B → isRuntimeType B.MemType = true →
          AREA_WITHIN_DESCRIPTOR E B.PhysicalStart (EFI_PAGES_TO_SIZE B.NumberOfPages) = true →
          OcRealMemoryType B = E.MemType := by
  intro l
  induction l with
  | nil => intro i b j h; simp [findSplitAttribute] at h
  | cons a l ih =>
    intro i b j h
    have step : ∀ b2, findSplitAttribute E l (i + 1) b2 = some j →
        (isRuntimeType a.MemType = true →
          AREA_WITHIN_DESCRIPTOR E a.PhysicalStart (EFI_PAGES_TO_SIZE a.NumberOfPages) = true →
          OcRealMemoryType a = E.MemType) →
        i ≤ j ∧ ∃ A, (a :: l)[j - i]? = some A ∧ isRuntimeType A.MemType = true ∧
          AREA_WITHIN_DESCRIPTOR E A.PhysicalStart (EFI_PAGES_TO_SIZE A.NumberOfPages) = true ∧
          OcRealMemoryType A ≠ E.MemType ∧
          ∀ k B, k < j - i → (a :: l)[k]? = some B → isRuntimeType B.MemType = true →
            AREA_WITHIN_DESCRIPTOR E B.PhysicalStart (EFI_PAGES_TO_SIZE B.NumberOfPages) = true →
            OcRealMemoryType B = E.MemType := by
      intro b2 h2 ha
      obtain ⟨hij, A, hA, h3, h4, h5, h6⟩ := ih (i + 1) b2 j h2
      have hji : j - i = (j - (i + 1)) + 1 := by omega
      refine ⟨by omega, A, ?_, h3, h4, h5, ?_⟩
      · rw [hji, List.getElem?_cons_succ]; exact hA
      · intro k B hk hB hrt hin
        cases k with
        | zero =>
          simp only [List.getElem?_cons_zero, Option.some.injEq] at hB
          subst hB
          exact ha hrt hin
        | succ k =>
          rw [List.getElem?_cons_succ] at hB
          exact h6 k B (by omega) hB hrt hin
    unfold findSplitAttribute at h
    by_cases hrt : isRuntimeType a.MemType = true
    · rw [if_pos hrt] at h
      by_cases hin : AREA_WITHIN_DESCRIPTOR E a.PhysicalStart
          (EFI_PAGES_TO_SIZE a.NumberOfPages) = true
      · rw [if_pos hin] at h
        by_cases hty : OcRealMemoryType a ≠ E.MemType
        · rw [if_pos hty] at h
          simp only [Option.some.injEq] at h
          subst h
          refine ⟨le_refl _, a, by simp, hrt, hin, hty, ?_⟩
          intro k B hk
          omega
        · rw [if_neg hty] at h
          exact step true h (fun _ _ => not_not.mp hty)
      · rw [if_neg hin] at h
        by_cases hb : b = true
        · rw [if_pos hb] at h; exact absurd h (by simp)
        · rw [if_neg hb] at h
          exact step b h (fun _ h' => absurd h' hin)
    · rw [if_neg hrt] at h
      exact step b h (fun h' _ => absurd h' hrt)

/-- The scan from `LastAttributeIndex` stops, if at all, at an index of the
table that is not below `LastAttributeIndex`. -/
theorem findSplitAttribute_drop_some (E : EFI_MEMORY_DESCRIPTOR)
    (Attributes : List EFI_MEMORY_DESCRIPTOR) (last j : Nat)
    (h : findSplitAttribute E (Attributes.drop last) last false = some j) :
    last ≤ j ∧ j < Attributes.length ∧
      Attributes.getD j default ∈ Attributes ∧
      Attributes[j]? = some (Attributes.getD j default) ∧
      isRuntimeType (Attributes.getD j default).MemType = true ∧
      AREA_WITHIN_DESCRIPTOR E (Attributes.getD j default).PhysicalStart
        (EFI_PAGES_TO_SIZE (Attributes.getD j default).NumberOfPages) = true ∧
      OcRealMemoryType (Attributes.getD j default) ≠ E.MemType ∧
      ∀ k B, last ≤ k → k < j → Attributes[k]? = some B → isRuntimeType B.MemType = true →
        AREA_WITHIN_DESCRIPTOR E B.PhysicalStart (EFI_PAGES_TO_SIZE B.NumberOfPages) = true →
        OcRealMemoryType B = E.MemType := by
  obtain ⟨hij, A, hA, h3, h4, h5, h6⟩ := findSplitAttribute_some E _ _ _ _ h
  rw [List.getElem?_drop] at hA
  have hj : last + (j - last) = j := by omega
  rw [hj] at hA
  have hlt : j < Attributes.length := by
    by_contra hc
    rw [List.getElem?_eq_none (by omega)] at hA
    exact absurd hA (by simp)
  have hget : Attributes.getD j default = A := by
    rw [List.getD_eq_getElem?_getD, hA]; rfl
  rw [hget]
  refine ⟨hij, hlt, List.getElem?_mem hA, hA, h3, h4, h5, ?_⟩
  intro k B hk1 hk2 hB hrt hin
  refine h6 (k - last) B (by omega) ?_ hrt hin
  rw [List.getElem?_drop]
  have : last + (k - last) = k := by omega
  rw [this]; exact hB

/-! ## Bookkeeping of one split and termination of the loop -/

theorem eq_take_append_getElem_drop (l : List EFI_MEMORY_DESCRIPTOR) (i : Nat)
    (h : i < l.length) :
    l = l.take i ++ l[i] :: l.drop (i + 1) ∧ (l.take i).length = i := by
  constructor
  · rw [← List.drop_eq_getElem_cons h, List.take_append_drop]
  · rw [List.length_take]; omega

/-- Facts on `OcSplitMemoryEntryByAttribute` that need no assumption on the
descriptors: the status is success or out-of-resources, the current index
moves with the length, at most two entries are inserted, the length stays within
the capacity, and two free slots are enough. -/
theorem OcSplitMemoryEntryByAttribute_counts (pre post : List EFI_MEMORY_DESCRIPTOR)
    (E A : EFI_MEMORY_DESCRIPTOR) (cap : Nat) :
    ((OcSplitMemoryEntryByAttribute (pre ++ E :: post) pre.length cap A).Status
        = EFI_STATUS.EFI_SUCCESS ∨
      (OcSplitMemoryEntryByAttribute (pre ++ E :: post) pre.length cap A).Status
        = EFI_STATUS.EFI_OUT_OF_RESOURCES) ∧
    (OcSplitMemoryEntryByAttribute (pre ++ E :: post) pre.length cap A).MemoryMap.length
      = (OcSplitMemoryEntryByAttribute (pre ++ E :: post) pre.length cap A).CurrentEntryIndex
        + post.length + 1 ∧
    pre.length ≤
      (OcSplitMemoryEntryByAttribute (pre ++ E :: post) pre.length cap A).CurrentEntryIndex ∧
    (OcSplitMemoryEntryByAttribute (pre ++ E :: post) pre.length cap A).CurrentEntryIndex
      ≤ pre.length + 2 ∧
    ((pre ++ E :: post).length ≤ cap →
      (OcSplitMemoryEntryByAttribute (pre ++ E :: post) pre.length cap A).MemoryMap.length
        ≤ cap) ∧
    ((pre ++ E :: post).length + 2 ≤ cap →
      (OcSplitMemoryEntryByAttribute (pre ++ E :: post) pre.length cap A).Status
        = EFI_STATUS.EFI_SUCCESS) := by
  by_cases hgt : E.PhysicalStart < A.PhysicalStart
  · rw [OcSplitMemoryEntryByAttribute_append_gt _ _ _ _ _ hgt]
    by_cases hcap : (pre ++ E :: post).length = cap
    · rw [if_pos hcap]
      simp only [List.length_append, List.length_cons] at hcap
      refine ⟨Or.inr rfl, ?_, ?_, ?_, ?_, ?_⟩ <;>
        simp only [List.length_append, List.length_cons] <;> intros <;> omega
    · rw [if_neg hcap, splitEntryAtStart_append]
      simp only [List.length_append, List.length_cons, List.length_nil] at hcap ⊢
      split_ifs <;>
        simp only [List.length_append, List.length_cons, List.length_nil] <;>
        refine ⟨by simp, ?_, ?_, ?_, ?_, ?_⟩ <;> intros <;> first | omega | simp
  · rw [OcSplitMemoryEntryByAttribute_append_le _ _ _ _ _ (by omega), splitEntryAtStart_append]
    simp only [List.length_append, List.length_cons]
    split_ifs <;>
      simp only [List.length_append, List.length_cons] <;>
      refine ⟨by simp, ?_, ?_, ?_, ?_, ?_⟩ <;> intros <;> first | omega | simp

theorem splitLoop_succ (cap : Nat) (Attributes : List EFI_MEMORY_DESCRIPTOR)
    (fuel : Nat) (MemoryMap : List EFI_MEMORY_DESCRIPTOR) (Index last : Nat) :
    splitLoop cap Attributes (fuel + 1) MemoryMap Index last =
      if h : Index < MemoryMap.length then
        if isRuntimeType (MemoryMap[Index]).MemType then
          match findSplitAttribute MemoryMap[Index] (Attributes.drop last) last false with
          | some Index2 =>
            if EFI_ERROR (OcSplitMemoryEntryByAttribute MemoryMap Index cap
                (Attributes.getD Index2 default)).Status then
              some ((OcSplitMemoryEntryByAttribute MemoryMap Index cap
                  (Attributes.getD Index2 default)).Status,
                (OcSplitMemoryEntryByAttribute MemoryMap Index cap
                  (Attributes.getD Index2 default)).MemoryMap)
            else
              splitLoop cap Attributes fuel
                (OcSplitMemoryEntryByAttribute MemoryMap Index cap
                  (Attributes.getD Index2 default)).MemoryMap
                (OcSplitMemoryEntryByAttribute MemoryMap Index cap
                  (Attributes.getD Index2 default)).CurrentEntryIndex (Index2 + 1)
          | none => splitLoop cap Attributes fuel MemoryMap (Index + 1) last
        else
          splitLoop cap Attributes fuel MemoryMap (Index + 1) last
      else
        some (EFI_STATUS.EFI_SUCCESS, MemoryMap) := rfl

/-- A proof rule for the loop: an invariant `Inv` on (map, index, attribute
cursor) that is kept by advancing and by a successful split, and gives `Post` at
the two exits, gives `Post` for whatever the loop returns. -/
theorem splitLoop_rule (cap : Nat) (Attributes : List EFI_MEMORY_DESCRIPTOR)
    (Inv : List EFI_MEMORY_DESCRIPTOR → Nat → Nat → Prop)
    (Post : EFI_STATUS × List EFI_MEMORY_DESCRIPTOR → Prop)
    (hdone : ∀ m i l, Inv m i l → ¬ i < m.length → Post (EFI_STATUS.EFI_SUCCESS, m))
    (hadv : ∀ m i l, Inv m i l → ∀ h : i < m.length,
      (isRuntimeType (m[i]).MemType = false ∨
        findSplitAttribute m[i] (Attributes.drop l) l false = none) → Inv m (i + 1) l)
    (hsplit : ∀ m i l j, Inv m i l → ∀ h : i < m.length,
      isRuntimeType (m[i]).MemType = true →
      findSplitAttribute m[i] (Attributes.drop l) l false = some j →
      (EFI_ERROR (OcSplitMemoryEntryByAttribute m i cap (Attributes.getD j default)).Status
          = true →
        Post ((OcSplitMemoryEntryByAttribute m i cap (Attributes.getD j default)).Status,
          (OcSplitMemoryEntryByAttribute m i cap (Attributes.getD j default)).MemoryMap)) ∧
      (EFI_ERROR (OcSplitMemoryEntryByAttribute m i cap (Attributes.getD j default)).Status
          = false →
        Inv (OcSplitMemoryEntryByAttribute m i cap (Attributes.getD j default)).MemoryMap
          (OcSplitMemoryEntryByAttribute m i cap
            (Attributes.getD j default)).CurrentEntryIndex (j + 1))) :
    ∀ fuel m i l, Inv m i l → ∀ res, splitLoop cap Attributes fuel m i l = some res →
      Post res := by
  intro fuel
  induction fuel with
  | zero => intro m i l _ res h; simp [splitLoop] at h
  | succ fuel ih =>
    intro m i l hinv res h
    rw [splitLoop_succ] at h
    by_cases hi : i < m.length
    · rw [dif_pos hi] at h
      by_cases hrt : isRuntimeType (m[i]).MemType = true
      · rw [if_pos hrt] at h
        cases hf : findSplitAttribute m[i] (Attributes.drop l) l false with
        | none =>
          rw [hf] at h
          exact ih _ _ _ (hadv m i l hinv hi (Or.inr hf)) res h
        | some j =>
          rw [hf] at h
          simp only at h
          obtain ⟨h1, h2⟩ := hsplit m i l j hinv hi hrt hf
          by_cases he : EFI_ERROR (OcSplitMemoryEntryByAttribute m i cap
              (Attributes.getD j default)).Status = true
          · rw [if_pos he] at h
            simp only [Option.some.injEq] at h
            rw [← h]; exact h1 he
          · rw [if_neg he] at h
            exact ih _ _ _ (h2 (by simpa using he)) res h
      · rw [if_neg hrt] at h
        exact ih _ _ _ (hadv m i l hinv hi (Or.inl (by simpa using hrt))) res h
    · rw [dif_neg hi] at h
      simp only [Option.some.injEq] at h
      rw [← h]; exact hdone m i l hinv hi

/-- The loop returns as soon as the fuel exceeds the number of entries still to
visit plus the number of attributes still to consume. -/
theorem splitLoop_returns (cap : Nat) (Attributes : List EFI_MEMORY_DESCRIPTOR) :
    ∀ fuel m i l, (m.length - i) + (Attributes.length - l) < fuel →
      ∃ res, splitLoop cap Attributes fuel m i l = some res := by
  intro fuel
  induction fuel with
  | zero => intro m i l h; omega
  | succ fuel ih =>
    intro m i l hfuel
    rw [splitLoop_succ]
    by_cases hi : i < m.length
    · rw [dif_pos hi]
      have hadv : ∃ res, splitLoop cap Attributes fuel m (i + 1) l = some res :=
        ih _ _ _ (by omega)
      by_cases hrt : isRuntimeType (m[i]).MemType = true
      · rw [if_pos hrt]
        cases hf : findSplitAttribute m[i] (Attributes.drop l) l false with
        | none => exact hadv
        | some j =>
          simp only
          by_cases he : EFI_ERROR (OcSplitMemoryEntryByAttribute m i cap
              (Attributes.getD j default)).Status = true
          · rw [if_pos he]; exact ⟨_, rfl⟩
          · rw [if_neg he]
            obtain ⟨hlj, hjlt, -⟩ := findSplitAttribute_drop_some _ _ _ _ hf
            obtain ⟨hm, hlen⟩ := eq_take_append_getElem_drop m i hi
            have hc := OcSplitMemoryEntryByAttribute_counts (m.take i) (m.drop (i + 1)) m[i]
              (Attributes.getD j default) cap
            rw [← hm, hlen] at hc
            obtain ⟨-, h2, -⟩ := hc
            apply ih
            rw [h2]
            have : (m.drop (i + 1)).length = m.length - (i + 1) := List.length_drop _ _
            omega
      · rw [if_neg hrt]; exact hadv
    · rw [dif_neg hi]; exact ⟨_, rfl⟩

/-- `OcSplitMemoryMapByAttributes` always returns: the fuel of the embedding is
never used up. -/
theorem OcSplitMemoryMapByAttributes_returns (cap : Nat)
    (MemoryMap : List EFI_MEMORY_DESCRIPTOR)
    (MemoryAttributes : Option (List EFI_MEMORY_DESCRIPTOR)) :
    ∃ res, OcSplitMemoryMapByAttributes cap MemoryMap MemoryAttributes = some res := by
  cases MemoryAttributes with
  | none => exact ⟨_, rfl⟩
  | some Attributes =>
    exact splitLoop_returns cap Attributes _ _ _ _ (by omega)

theorem Tiles_facts : ∀ (ps : List EFI_MEMORY_DESCRIPTOR) (s e : Nat), Tiles s e ps →
    s ≤ e ∧ (∀ d ∈ ps, DescOK d ∧ s ≤ d.PhysicalStart ∧ rangeEnd d ≤ e) ∧
    SortedDisjoint ps ∧ (∀ x, covers ps x ↔ (s ≤ x ∧ x < e)) ∧
    totalPages ps * 4096 = e - s := by
  intro ps
  induction ps with
  | nil =>
    intro s e h
    simp only [Tiles] at h
    subst h
    refine ⟨le_refl _, by simp, List.Pairwise.nil, ?_, by simp [totalPages]⟩
    intro x; simp only [covers, List.not_mem_nil, false_and, exists_false, false_iff]; omega
  | cons d ds ih =>
    intro s e h
    obtain ⟨hs, hd, ht⟩ := h
    obtain ⟨h1, h2, h3, h4, h5⟩ := ih _ _ ht
    have hd' := hd
    unfold DescOK rangeEnd at hd'
    unfold rangeEnd at h1 h5
    refine ⟨by unfold rangeEnd at *; omega, ?_, ?_, ?_, ?_⟩
    · intro d' hd'
      rcases List.mem_cons.mp hd' with rfl | hm
      · exact ⟨hd, by omega, by unfold rangeEnd; omega⟩
      · obtain ⟨a, b, c⟩ := h2 d' hm
        exact ⟨a, by unfold rangeEnd at b; omega, c⟩
    · refine List.Pairwise.cons ?_ h3
      intro d' hm
      exact (h2 d' hm).2.1
    · intro x
      have := h4 x
      simp only [covers, List.mem_cons, exists_eq_or_imp, inRange] at this ⊢
      rw [this]; unfold rangeEnd; omega
    · simp only [totalPages, List.map_cons, List.sum_cons] at h5 ⊢
      omega

/-- Replacing an entry of a well-formed table by descriptors that tile its range
leaves the table well-formed, covering the same addresses, with the same total
page count. -/
theorem replace_by_tiles (pre post ps : List EFI_MEMORY_DESCRIPTOR) (E : EFI_MEMORY_DESCRIPTOR)
    (hok : TableOK (pre ++ E :: post)) (ht : Tiles E.PhysicalStart (rangeEnd E) ps) :
    TableOK (pre ++ ps ++ post) ∧
    (∀ x, covers (pre ++ ps ++ post) x ↔ covers (pre ++ E :: post) x) ∧
    totalPages (pre ++ ps ++ post) = totalPages (pre ++ E :: post) := by
  obtain ⟨h1, h2, h3, h4, h5⟩ := Tiles_facts ps _ _ ht
  obtain ⟨hall, hsorted⟩ := hok
  unfold SortedDisjoint at hsorted h3
  rw [List.pairwise_append] at hsorted
  obtain ⟨s1, s2, s3⟩ := hsorted
  rw [List.pairwise_cons] at s2
  obtain ⟨s4, s5⟩ := s2
  refine ⟨⟨?_, ?_⟩, ?_, ?_⟩
  · intro d hd
    simp only [List.mem_append] at hd
    rcases hd with (hd | hd) | hd
    · exact hall d (by simp [hd])
    · exact (h2 d hd).1
    · exact hall d (by simp [hd])
  · unfold SortedDisjoint
    rw [List.append_assoc, List.pairwise_append]
    refine ⟨s1, ?_, ?_⟩
    · rw [List.pairwise_append]
      refine ⟨h3, s5, ?_⟩
      intro a ha b hb
      have := s4 b hb
      have := (h2 a ha).2.2
      omega
    · intro a ha b hb
      rcases List.mem_append.mp hb with hb | hb
      · have := s3 a ha E (by simp)
        have := (h2 b hb).2.1
        omega
      · exact s3 a ha b (by simp [hb])
  · intro x
    have := h4 x
    simp only [covers, List.mem_append, List.mem_cons, inRange] at this ⊢
    constructor
    · rintro ⟨d, (hd | hd) | hd, hx⟩
      · exact ⟨d, Or.inl hd, hx⟩
      · exact ⟨E, Or.inr (Or.inl rfl), this.mp ⟨d, hd, hx⟩⟩
      · exact ⟨d, Or.inr (Or.inr hd), hx⟩
    · rintro ⟨d, hd | rfl | hd, hx⟩
      · exact ⟨d, Or.inl (Or.inl hd), hx⟩
      · obtain ⟨d', hd', hx'⟩ := this.mpr hx
        exact ⟨d', Or.inl (Or.inr hd'), hx'⟩
      · exact ⟨d, Or.inr hd, hx⟩
  · simp only [totalPages, List.map_append, List.sum_append, List.map_cons, List.sum_cons] at h5 ⊢
    unfold rangeEnd at h5 h1
    omega

/-- For ranges that end below `2 ^ 64` the containment test of the scan is
containment of the attribute's range in the entry's range. -/
theorem AREA_WITHIN_DESCRIPTOR_iff (E A : EFI_MEMORY_DESCRIPTOR)
    (hE : rangeEnd E < 2 ^ 64) (hA : rangeEnd A < 2 ^ 64) :
    AREA_WITHIN_DESCRIPTOR E A.PhysicalStart (EFI_PAGES_TO_SIZE A.NumberOfPages) = true ↔
      (E.PhysicalStart ≤ A.PhysicalStart ∧ rangeEnd A ≤ rangeEnd E) := by
  unfold rangeEnd at *
  simp only [AREA_WITHIN_DESCRIPTOR, EFI_PAGES_TO_SIZE, Bool.and_eq_true, decide_eq_true_eq]
  have e1 : (A.PhysicalStart + A.NumberOfPages * 4096 % 2 ^ 64) % 2 ^ 64
      = A.PhysicalStart + A.NumberOfPages * 4096 := by omega
  have e2 : (E.PhysicalStart + E.NumberOfPages * 4096 % 2 ^ 64) % 2 ^ 64
      = E.PhysicalStart + E.NumberOfPages * 4096 := by omega
  rw [e1, e2]

/-- The outcome of a split replaces the entry by descriptors that tile it. -/
theorem splitEntryOutcome_tiles (pre post : List EFI_MEMORY_DESCRIPTOR)
    (E A : EFI_MEMORY_DESCRIPTOR) (cap : Nat) (hE : DescOK E) (hA : DescOK A)
    (hlo : E.PhysicalStart ≤ A.PhysicalStart) (hhi : rangeEnd A ≤ rangeEnd E) :
    ∃ ps, (splitEntryOutcome pre post E A cap).MemoryMap = pre ++ ps ++ post ∧
      Tiles E.PhysicalStart (rangeEnd E) ps := by
  have hE' := hE
  have hA' := hA
  unfold DescOK rangeEnd at hE' hA'
  unfold rangeEnd at hhi
  unfold splitEntryOutcome
  have hself : Tiles E.PhysicalStart (rangeEnd E) [E] := ⟨rfl, hE, rfl⟩
  split_ifs with h1 h2 h3 h4 h5 h6
  · exact ⟨[E], by simp, hself⟩
  · refine ⟨[headPiece E A, midPiece E A], by simp, ?_⟩
    unfold rangeEnd at h3
    simp only [Tiles, DescOK, rangeEnd, headPiece, midPiece, true_and, and_true]
    omega
  · refine ⟨[headPiece E A, restPiece E A], by simp, ?_⟩
    unfold rangeEnd at h3
    simp only [Tiles, DescOK, rangeEnd, headPiece, restPiece, true_and, and_true]
    omega
  · refine ⟨[headPiece E A, midPiece E A, tailPiece E A], by simp, ?_⟩
    unfold rangeEnd at h3
    simp only [Tiles, DescOK, rangeEnd, headPiece, midPiece, tailPiece, true_and, and_true]
    omega
  · refine ⟨[midPiece E A], by simp, ?_⟩
    unfold rangeEnd at h5
    simp only [Tiles, DescOK, rangeEnd, midPiece, true_and, and_true]
    omega
  · exact ⟨[E], by simp, hself⟩
  · refine ⟨[midPiece E A, tailPiece E A], by simp, ?_⟩
    unfold rangeEnd at h5
    simp only [Tiles, DescOK, rangeEnd, midPiece, tailPiece, true_and, and_true]
    omega

/-- One split, as the engine performs it (the attribute passed the containment
test against the entry at `i`), keeps the table well-formed, covering the same
addresses, with the same total page count. -/
theorem OcSplitMemoryEntryByAttribute_preserves (m : List EFI_MEMORY_DESCRIPTOR)
    (i cap : Nat) (A : EFI_MEMORY_DESCRIPTOR) (hi : i < m.length) (hm : TableOK m)
    (hA : DescOK A)
    (hin : AREA_WITHIN_DESCRIPTOR m[i] A.PhysicalStart
      (EFI_PAGES_TO_SIZE A.NumberOfPages) = true) :
    TableOK (OcSplitMemoryEntryByAttribute m i cap A).MemoryMap ∧
    (∀ x, covers (OcSplitMemoryEntryByAttribute m i cap A).MemoryMap x ↔ covers m x) ∧
    totalPages (OcSplitMemoryEntryByAttribute m i cap A).MemoryMap = totalPages m := by
  obtain ⟨hdec, hlen⟩ := eq_take_append_getElem_drop m i hi
  have hE : DescOK m[i] := hm.1 _ (List.getElem_mem _)
  obtain ⟨hlo, hhi⟩ := (AREA_WITHIN_DESCRIPTOR_iff m[i] A hE.2.2 hA.2.2).mp hin
  have hout := OcSplitMemoryEntryByAttribute_eq_outcome (m.take i) (m.drop (i + 1)) m[i] A cap
    hE.1 hA.1 hlo hhi hE.2.2
  rw [← hdec, hlen] at hout
  obtain ⟨ps, hps, ht⟩ := splitEntryOutcome_tiles (m.take i) (m.drop (i + 1)) m[i] A cap
    hE hA hlo hhi
  rw [hout, hps]
  have hm' : TableOK (m.take i ++ m[i] :: m.drop (i + 1)) := by rw [← hdec]; exact hm
  have := replace_by_tiles _ _ ps _ hm' ht
  rw [← hdec] at this
  exact this

/-- Whatever the split loop returns, from a well-formed table and with
well-formed attribute entries, is a well-formed table covering the same
addresses with the same total page count. -/
theorem splitLoop_preserves (cap : Nat) (Attributes T : List EFI_MEMORY_DESCRIPTOR)
    (hA : ∀ a ∈ Attributes, DescOK a) (fuel : Nat) (m : List EFI_MEMORY_DESCRIPTOR)
    (i l : Nat)
    (hm : TableOK m ∧ (∀ x, covers m x ↔ covers T x) ∧ totalPages m = totalPages T)
    (res : EFI_STATUS × List EFI_MEMORY_DESCRIPTOR)
    (hres : splitLoop cap Attributes fuel m i l = some res) :
    TableOK res.2 ∧ (∀ x, covers res.2 x ↔ covers T x) ∧ totalPages res.2 = totalPages T := by
  refine splitLoop_rule cap Attributes
    (fun m _ _ => TableOK m ∧ (∀ x, covers m x ↔ covers T x) ∧ totalPages m = totalPages T)
    (fun res => TableOK res.2 ∧ (∀ x, covers res.2 x ↔ covers T x) ∧
      totalPages res.2 = totalPages T)
    ?_ ?_ ?_ fuel m i l hm res hres
  · intro m i l h _; exact h
  · intro m i l h _ _; exact h
  · intro m i l j h hi _ hf
    obtain ⟨-, -, hmem, -, -, hin, -⟩ := findSplitAttribute_drop_some _ _ _ _ hf
    obtain ⟨p1, p2, p3⟩ := OcSplitMemoryEntryByAttribute_preserves m i cap _ hi h.1
      (hA _ hmem) hin
    have key : TableOK (OcSplitMemoryEntryByAttribute m i cap
          (Attributes.getD j default)).MemoryMap ∧
        (∀ x, covers (OcSplitMemoryEntryByAttribute m i cap
          (Attributes.getD j default)).MemoryMap x ↔ covers T x) ∧
        totalPages (OcSplitMemoryEntryByAttribute m i cap
          (Attributes.getD j default)).MemoryMap = totalPages T :=
      ⟨p1, fun x => (p2 x).trans (h.2.1 x), p3.trans h.2.2⟩
    exact ⟨fun _ => key, fun _ => key⟩

/-- In a well-formed table the starts ascend strictly and no address lies in
the ranges of two entries. -/
theorem TableOK_sorted_disjoint (t : List EFI_MEMORY_DESCRIPTOR) (h : TableOK t) :
    t.Pairwise (fun a b => a.PhysicalStart < b.PhysicalStart) ∧
    t.Pairwise (fun a b => ∀ x, ¬ (inRange a x ∧ inRange b x)) := by
  obtain ⟨hall, hs⟩ := h
  unfold SortedDisjoint at hs
  constructor
  · refine List.Pairwise.imp_of_mem ?_ hs
    intro a b ha _ hab
    have := hall a ha
    unfold DescOK rangeEnd at this
    unfold rangeEnd at hab
    omega
  · refine List.Pairwise.imp ?_ hs
    intro a b hab x hx
    unfold inRange at hx
    omega

/-- The loop never leaves more entries than the buffer holds. -/
theorem splitLoop_length_le (cap : Nat) (Attributes : List EFI_MEMORY_DESCRIPTOR)
    (fuel : Nat) (m : List EFI_MEMORY_DESCRIPTOR) (i l : Nat) (hm : m.length ≤ cap)
    (res : EFI_STATUS × List EFI_MEMORY_DESCRIPTOR)
    (hres : splitLoop cap Attributes fuel m i l = some res) :
    res.2.length ≤ cap := by
  refine splitLoop_rule cap Attributes (fun m _ _ => m.length ≤ cap)
    (fun res => res.2.length ≤ cap) ?_ ?_ ?_ fuel m i l hm res hres
  · intro m i l h _; exact h
  · intro m i l h _ _; exact h
  · intro m i l j h hi _ _
    obtain ⟨hdec, hlen⟩ := eq_take_append_getElem_drop m i hi
    have hc := OcSplitMemoryEntryByAttribute_counts (m.take i) (m.drop (i + 1)) m[i]
      (Attributes.getD j default) cap
    rw [← hdec, hlen] at hc
    exact ⟨fun _ => hc.2.2.2.2.1 h, fun _ => hc.2.2.2.2.1 h⟩

/-! ## Counting free slots -/

/-- The runtime attributes from index `l` on (those the scan can still stop
at). -/
theorem runtime_count_drop (Attributes : List EFI_MEMORY_DESCRIPTOR) (l j : Nat)
    (A : EFI_MEMORY_DESCRIPTOR) (hlj : l ≤ j) (hA : Attributes[j]? = some A)
    (hrt : isRuntimeType A.MemType = true) :
    ((Attributes.drop (j + 1)).filter (fun e => isRuntimeType e.MemType)).length + 1 ≤
      ((Attributes.drop l).filter (fun e => isRuntimeType e.MemType)).length := by
  have hj : j < Attributes.length := by
    by_contra hc
    rw [List.getElem?_eq_none (by omega)] at hA
    exact absurd hA (by simp)
  have hAj : Attributes[j] = A := by
    rw [List.getElem?_eq_getElem hj] at hA
    exact Option.some.inj hA
  have h1 : Attributes.drop l
      = (Attributes.drop l).take (j - l) ++ A :: Attributes.drop (j + 1) := by
    have h2 : (Attributes.drop l).drop (j - l) = A :: Attributes.drop (j + 1) := by
      rw [List.drop_drop]
      have : l + (j - l) = j := by omega
      rw [this, List.drop_eq_getElem_cons hj, hAj]
    rw [← h2, List.take_append_drop]
  rw [h1, List.filter_append, List.length_append, List.filter_cons_of_pos (by simpa using hrt),
    List.length_cons]
  omega

/-- With two free slots for every runtime attribute not yet consumed, the loop
returns success. -/
theorem splitLoop_success_of_slots (cap : Nat) (Attributes : List EFI_MEMORY_DESCRIPTOR)
    (fuel : Nat) (m : List EFI_MEMORY_DESCRIPTOR) (i l : Nat)
    (hm : m.length +
      2 * ((Attributes.drop l).filter (fun e => isRuntimeType e.MemType)).length ≤ cap)
    (res : EFI_STATUS × List EFI_MEMORY_DESCRIPTOR)
    (hres : splitLoop cap Attributes fuel m i l = some res) :
    res.1 = EFI_STATUS.EFI_SUCCESS := by
  refine splitLoop_rule cap Attributes
    (fun m _ l => m.length +
      2 * ((Attributes.drop l).filter (fun e => isRuntimeType e.MemType)).length ≤ cap)
    (fun res => res.1 = EFI_STATUS.EFI_SUCCESS) ?_ ?_ ?_ fuel m i l hm res hres
  · intro m i l _ _; rfl
  · intro m i l h _ _; exact h
  · intro m i l j h hi _ hf
    obtain ⟨hlj, -, -, hget, hrt, -⟩ := findSplitAttribute_drop_some _ _ _ _ hf
    have hcount := runtime_count_drop Attributes l j _ hlj hget hrt
    obtain ⟨hdec, hlen⟩ := eq_take_append_getElem_drop m i hi
    have hc := OcSplitMemoryEntryByAttribute_counts (m.take i) (m.drop (i + 1)) m[i]
      (Attributes.getD j default) cap
    rw [← hdec, hlen] at hc
    obtain ⟨-, c2, -, c4, -, c6⟩ := hc
    have hs := c6 (by omega)
    refine ⟨fun he => ?_, fun _ => ?_⟩
    · rw [hs] at he; exact absurd he (by decide)
    · show (OcSplitMemoryEntryByAttribute m i cap (Attributes.getD j default)).MemoryMap.length
        + 2 * ((Attributes.drop (j + 1)).filter (fun e => isRuntimeType e.MemType)).length ≤ cap
      rw [c2]
      have : (m.drop (i + 1)).length = m.length - (i + 1) := List.length_drop _ _
      omega

/-! ## Reaching the first runtime descriptor -/

/-- Entries that are not of a runtime type are stepped over. -/
theorem splitLoop_skip (cap : Nat) (Attributes m : List EFI_MEMORY_DESCRIPTOR) (l : Nat) :
    ∀ (k fuel i : Nat),
      (∀ n, i ≤ n → n < i + k → ∃ h : n < m.length, isRuntimeType (m[n]).MemType = false) →
      splitLoop cap Attributes (fuel + k) m i l = splitLoop cap Attributes fuel m (i + k) l := by
  intro k
  induction k with
  | zero => intro fuel i _; rfl
  | succ k ih =>
    intro fuel i h
    obtain ⟨hi, hrt⟩ := h i (le_refl _) (by omega)
    have e : fuel + (k + 1) = (fuel + k) + 1 := by omega
    rw [e, splitLoop_succ, dif_pos hi, hrt]
    simp only [Bool.false_eq_true, if_false]
    rw [ih fuel (i + 1) (fun n h1 h2 => h n (by omega) (by omega))]
    have e2 : i + 1 + k = i + (k + 1) := by omega
    rw [e2]

/-- The scan passes over attributes that lie within the entry and derive the
entry's type, and stops at the first runtime attribute within the entry that
derives another type. -/
theorem findSplitAttribute_stops (E A : EFI_MEMORY_DESCRIPTOR)
    (rest : List EFI_MEMORY_DESCRIPTOR)
    (hArt : isRuntimeType A.MemType = true)
    (hAin : AREA_WITHIN_DESCRIPTOR E A.PhysicalStart (EFI_PAGES_TO_SIZE A.NumberOfPages) = true)
    (hAty : OcRealMemoryType A ≠ E.MemType) :
    ∀ (same : List EFI_MEMORY_DESCRIPTOR) (i : Nat) (b : Bool),
      (∀ B ∈ same, AREA_WITHIN_DESCRIPTOR E B.PhysicalStart
          (EFI_PAGES_TO_SIZE B.NumberOfPages) = true ∧ OcRealMemoryType B = E.MemType) →
      findSplitAttribute E (same ++ A :: rest) i b = some (i + same.length) := by
  intro same
  induction same with
  | nil =>
    intro i b _
    simp only [List.nil_append, findSplitAttribute, hArt, hAin, if_true, List.length_nil,
      Nat.add_zero]
    rw [if_pos hAty]
  | cons B same ih =>
    intro i b h
    obtain ⟨hin, hty⟩ := h B (by simp)
    have hrec := fun b2 => ih (i + 1) b2 (fun B' hB' => h B' (by simp [hB']))
    have e : i + (B :: same).length = i + 1 + same.length := by
      simp only [List.length_cons]; omega
    rw [e]
    simp only [List.cons_append, findSplitAttribute, hin, if_true]
    by_cases hrt : isRuntimeType B.MemType = true
    · rw [if_pos hrt, if_neg (not_not.mpr hty)]
      exact hrec true
    · rw [if_neg hrt]
      exact hrec b

/-! ## Types after the split -/

/-- The real type of a runtime attribute is a runtime type. -/
theorem OcRealMemoryType_isRuntimeType (A : EFI_MEMORY_DESCRIPTOR)
    (h : isRuntimeType A.MemType = true) : isRuntimeType (OcRealMemoryType A) = true := by
  unfold OcRealMemoryType
  split_ifs
  · decide
  · decide
  · exact h

/-- In a well-formed table an address lies in the range of one entry only. -/
theorem entry_unique_of_address (m : List EFI_MEMORY_DESCRIPTOR) (hm : TableOK m)
    (e1 e2 : EFI_MEMORY_DESCRIPTOR) (h1 : e1 ∈ m) (h2 : e2 ∈ m) (x : Nat)
    (hx1 : inRange e1 x) (hx2 : inRange e2 x) : e1 = e2 := by
  by_contra hne
  have hs : m.Pairwise (fun a b => rangeEnd a ≤ b.PhysicalStart ∨ rangeEnd b ≤ a.PhysicalStart) :=
    List.Pairwise.imp (fun h => Or.inl h) hm.2
  have hsym : Symmetric (fun a b : EFI_MEMORY_DESCRIPTOR =>
      rangeEnd a ≤ b.PhysicalStart ∨ rangeEnd b ≤ a.PhysicalStart) :=
    fun a b h => h.symm
  have := List.Pairwise.forall hsym hs h1 h2 hne
  unfold inRange at hx1 hx2
  omega

/-- In a well-formed table an attribute of at least one page lies inside one
entry only. -/
theorem entry_unique_of_within (m : List EFI_MEMORY_DESCRIPTOR) (hm : TableOK m)
    (e1 e2 X : EFI_MEMORY_DESCRIPTOR) (h1 : e1 ∈ m) (h2 : e2 ∈ m) (hX : DescOK X)
    (hx1 : rangeWithin e1 X) (hx2 : rangeWithin e2 X) : e1 = e2 := by
  unfold DescOK rangeEnd at hX
  unfold rangeWithin rangeEnd at hx1 hx2
  refine entry_unique_of_address m hm e1 e2 h1 h2 X.PhysicalStart ?_ ?_ <;>
    (unfold inRange rangeEnd; omega)

/-- In a sorted table an earlier entry ends at or before a later one starts. -/
theorem sorted_getElem?_lt (t : List EFI_MEMORY_DESCRIPTOR) (ht : SortedDisjoint t)
    (k j : Nat) (X Y : EFI_MEMORY_DESCRIPTOR) (hk : t[k]? = some X) (hj : t[j]? = some Y)
    (hkj : k < j) : rangeEnd X ≤ Y.PhysicalStart := by
  obtain ⟨hk', rfl⟩ := List.getElem?_eq_some.mp hk
  obtain ⟨hj', rfl⟩ := List.getElem?_eq_some.mp hj
  exact (List.pairwise_iff_getElem.mp ht) k j hk' hj' hkj

/-- When the scan finds nothing, every attribute it ran over that lies inside
the entry derives the entry's type. The flag `InDescAttrs` being set means an
attribute inside the entry was met before, so the attributes still to come
start at or after the entry's start. -/
theorem findSplitAttribute_none (E : EFI_MEMORY_DESCRIPTOR) (hE : rangeEnd E < 2 ^ 64) :
    ∀ (L : List EFI_MEMORY_DESCRIPTOR) (i : Nat) (b : Bool),
      findSplitAttribute E L i b = none →
      (∀ a ∈ L, DescOK a ∧ isRuntimeType a.MemType = true) → SortedDisjoint L →
      (b = true → ∀ a ∈ L, E.PhysicalStart ≤ a.PhysicalStart) →
      ∀ a ∈ L, rangeWithin E a → OcRealMemoryType a = E.MemType := by
  intro L
  induction L with
  | nil => intro i b _ _ _ _ a ha; simp at ha
  | cons a L ih =>
    intro i b hnone hall hsorted hflag
    obtain ⟨haok, hart⟩ := hall a (by simp)
    have hall' : ∀ a' ∈ L, DescOK a' ∧ isRuntimeType a'.MemType = true :=
      fun a' ha' => hall a' (by simp [ha'])
    have hsorted' : SortedDisjoint L := (List.pairwise_cons.mp hsorted).2
    have hafter : ∀ a' ∈ L, rangeEnd a ≤ a'.PhysicalStart := (List.pairwise_cons.mp hsorted).1
    have hiff := AREA_WITHIN_DESCRIPTOR_iff E a hE haok.2.2
    unfold findSplitAttribute at hnone
    rw [if_pos hart] at hnone
    have haok' := haok
    unfold DescOK rangeEnd at haok'
    by_cases hin : AREA_WITHIN_DESCRIPTOR E a.PhysicalStart
        (EFI_PAGES_TO_SIZE a.NumberOfPages) = true
    · rw [if_pos hin] at hnone
      by_cases hty : OcRealMemoryType a ≠ E.MemType
      · rw [if_pos hty] at hnone; exact absurd hnone (by simp)
      · rw [if_neg hty] at hnone
        have hflag' : true = true → ∀ a' ∈ L, E.PhysicalStart ≤ a'.PhysicalStart := by
          intro _ a' ha'
          have h1 := hafter a' ha'
          have h2 := (hiff.mp hin).1
          unfold rangeEnd at h1
          omega
        have hrec := ih (i + 1) true hnone hall' hsorted' hflag'
        intro a' ha' hw
        rcases List.mem_cons.mp ha' with rfl | hmem
        · exact not_not.mp hty
        · exact hrec a' hmem hw
    · rw [if_neg hin] at hnone
      have hnotin : ¬ rangeWithin E a := fun hw => hin (hiff.mpr hw)
      by_cases hb : b = true
      · intro a' ha' hw
        rcases List.mem_cons.mp ha' with rfl | hmem
        · exact absurd hw hnotin
        · exfalso
          have h1 := hafter a' hmem
          have h2 := hflag hb a (by simp)
          have h3 := (hall' a' hmem).1
          unfold DescOK rangeEnd at h3
          unfold rangeWithin rangeEnd at hw hnotin
          unfold rangeEnd at h1
          omega
      · rw [if_neg hb] at hnone
        have hflag' : b = true → ∀ a' ∈ L, E.PhysicalStart ≤ a'.PhysicalStart :=
          fun h => absurd h hb
        have hrec := ih (i + 1) b hnone hall' hsorted' hflag'
        intro a' ha' hw
        rcases List.mem_cons.mp ha' with rfl | hmem
        · exact absurd hw hnotin
        · exact hrec a' hmem hw

theorem headPiece_end (E A : EFI_MEMORY_DESCRIPTOR) (hE : E.PhysicalStart % 4096 = 0)
    (hA : A.PhysicalStart % 4096 = 0) (hlo : E.PhysicalStart ≤ A.PhysicalStart) :
    rangeEnd (headPiece E A) = A.PhysicalStart := by
  simp only [rangeEnd, headPiece]; omega

theorem tailPiece_end (E A : EFI_MEMORY_DESCRIPTOR) (hE : E.PhysicalStart % 4096 = 0)
    (hA : A.PhysicalStart % 4096 = 0) (hhi : rangeEnd A ≤ rangeEnd E) :
    rangeEnd (tailPiece E A) = rangeEnd E := by
  simp only [rangeEnd, tailPiece] at hhi ⊢; omega

theorem DescOK_nonempty (X : EFI_MEMORY_DESCRIPTOR) (h : DescOK X) :
    X.PhysicalStart < rangeEnd X := by
  unfold DescOK rangeEnd at *; omega

/-- The invariant after a successful split that leaves `done ++ [cur]` in the
place of `E`, from what is known of the attributes and of the pieces. -/
theorem SplitInv_after_split (Attributes pre post done : List EFI_MEMORY_DESCRIPTOR)
    (E cur A : EFI_MEMORY_DESCRIPTOR) (j : Nat)
    (hnew : TableOK (pre ++ done ++ cur :: post))
    (hAttrOK : ∀ X ∈ Attributes, DescOK X)
    (hold_b : ∀ X ∈ Attributes, ∃ e ∈ pre ++ E :: post,
      isRuntimeType e.MemType = true ∧ rangeWithin e X)
    (hold_c : ∀ e ∈ pre, ∀ X ∈ Attributes, rangeWithin e X → e.MemType = OcRealMemoryType X)
    (hT : ∀ X ∈ Attributes,
      X = A ∨ rangeEnd X ≤ A.PhysicalStart ∨ rangeEnd A ≤ X.PhysicalStart)
    (hK : ∀ k X, k < j + 1 → Attributes[k]? = some X → X = A ∨ rangeEnd X ≤ A.PhysicalStart)
    (hH : ∀ X ∈ Attributes, rangeWithin E X → rangeEnd X ≤ A.PhysicalStart →
      E.MemType = OcRealMemoryType X)
    (hb : ∀ X, DescOK X → rangeWithin E X →
      (X = A ∨ rangeEnd X ≤ A.PhysicalStart ∨ rangeEnd A ≤ X.PhysicalStart) →
      ∃ e ∈ done ++ [cur], isRuntimeType e.MemType = true ∧ rangeWithin e X)
    (hc : ∀ e ∈ done, ∀ X, DescOK X → rangeWithin e X →
      (X = A ∨ rangeEnd X ≤ A.PhysicalStart ∨ rangeEnd A ≤ X.PhysicalStart) →
      (X = A ∧ e.MemType = OcRealMemoryType A) ∨
      (rangeWithin E X ∧ rangeEnd X ≤ A.PhysicalStart ∧ e.MemType = E.MemType))
    (hd : ∀ X, DescOK X → (X = A ∨ rangeEnd X ≤ A.PhysicalStart) →
      rangeEnd X ≤ cur.PhysicalStart ∨ (rangeWithin cur X ∧ cur.MemType = OcRealMemoryType X)) :
    SplitInv Attributes (pre ++ done ++ cur :: post) (pre ++ done).length (j + 1) := by
  refine ⟨hnew, ?_, ?_, ?_⟩
  · intro X hX
    obtain ⟨e, he, hrt, hw⟩ := hold_b X hX
    rcases List.mem_append.mp he with he | he
    · exact ⟨e, by simp [he], hrt, hw⟩
    · rcases List.mem_cons.mp he with rfl | he
      · obtain ⟨e', he', hrt', hw'⟩ := hb X (hAttrOK X hX) hw (hT X hX)
        refine ⟨e', ?_, hrt', hw'⟩
        rcases List.mem_append.mp he' with h | h
        · simp [h]
        · simp only [List.mem_singleton] at h; simp [h]
      · exact ⟨e, by simp [he], hrt, hw⟩
  · intro e he X hX hw
    rw [List.take_left'  rfl] at he
    rcases List.mem_append.mp he with he | he
    · exact hold_c e he X hX hw
    · rcases hc e he X (hAttrOK X hX) hw (hT X hX) with ⟨rfl, h⟩ | ⟨h1, h2, h3⟩
      · exact h
      · rw [h3]; exact hH X hX h1 h2
  · intro E' hE' k X hk hX
    have hcur : (pre ++ done ++ cur :: post)[(pre ++ done).length]? = some cur := by
      rw [List.getElem?_append_right (le_refl _)]; simp
    rw [hcur] at hE'
    obtain rfl := Option.some.inj hE'
    exact hd X (hAttrOK X (List.getElem?_mem hX)) (hK k X hk hX)

/-- The invariant is kept when the loop advances to the next entry. -/
theorem SplitInv_advance (Attributes m : List EFI_MEMORY_DESCRIPTOR) (i l : Nat)
    (hAok : TableOK Attributes)
    (hArt : ∀ a ∈ Attributes, isRuntimeType a.MemType = true)
    (hinv : SplitInv Attributes m i l) (hi : i < m.length)
    (hnone : isRuntimeType (m[i]).MemType = false ∨
      findSplitAttribute m[i] (Attributes.drop l) l false = none) :
    SplitInv Attributes m (i + 1) l := by
  obtain ⟨hm, hb, hc, hd⟩ := hinv
  have hEmem : m[i] ∈ m := List.getElem_mem _
  have hEok : DescOK m[i] := hm.1 _ hEmem
  refine ⟨hm, hb, ?_, ?_⟩
  · intro e he X hX hw
    rw [List.take_succ, List.getElem?_eq_getElem hi] at he
    rcases List.mem_append.mp he with he | he
    · exact hc e he X hX hw
    · simp only [Option.toList, List.mem_singleton] at he
      subst he
      have hXok := hAok.1 X hX
      rcases hnone with hnrt | hnone
      · obtain ⟨e', he', hrt', hw'⟩ := hb X hX
        have := entry_unique_of_within m hm _ _ X hEmem he' hXok hw hw'
        rw [← this, hnrt] at hrt'
        exact absurd hrt' (by simp)
      · obtain ⟨k, hk⟩ := List.mem_iff_getElem?.mp hX
        by_cases hkl : k < l
        · rcases hd m[i] (List.getElem?_eq_getElem hi) k X hkl hk with h | h
          · have := DescOK_nonempty X hXok
            unfold rangeWithin at hw
            omega
          · exact h.2
        · have hmem : X ∈ Attributes.drop l := by
            apply List.getElem?_mem (n := k - l)
            rw [List.getElem?_drop]
            have : l + (k - l) = k := by omega
            rw [this]; exact hk
          have := findSplitAttribute_none m[i] hEok.2.2 (Attributes.drop l) l false hnone
            (fun a ha => ⟨hAok.1 a (List.mem_of_mem_drop ha), hArt a (List.mem_of_mem_drop ha)⟩)
            (List.Pairwise.sublist (List.drop_sublist _ _) hAok.2)
            (fun h => absurd h (by simp)) X hmem hw
          exact this.symm
  · intro E' hE' k X hk hX
    obtain ⟨hi', rfl⟩ := List.getElem?_eq_some.mp hE'
    have hord : rangeEnd m[i] ≤ (m[i + 1]).PhysicalStart :=
      (List.pairwise_iff_getElem.mp hm.2) i (i + 1) hi hi' (by omega)
    have hne := DescOK_nonempty _ hEok
    rcases hd m[i] (List.getElem?_eq_getElem hi) k X hk hX with h | h
    · left; omega
    · left
      have := h.1
      unfold rangeWithin at this
      omega

/-- The invariant is kept by a successful split. -/
theorem SplitInv_split (Attributes m : List EFI_MEMORY_DESCRIPTOR) (i l j cap : Nat)
    (hAok : TableOK Attributes)
    (hArt : ∀ a ∈ Attributes, isRuntimeType a.MemType = true)
    (hinv : SplitInv Attributes m i l) (hi : i < m.length)
    (hrt : isRuntimeType (m[i]).MemType = true)
    (hf : findSplitAttribute m[i] (Attributes.drop l) l false = some j)
    (hs : EFI_ERROR (OcSplitMemoryEntryByAttribute m i cap
      (Attributes.getD j default)).Status = false) :
    SplitInv Attributes (OcSplitMemoryEntryByAttribute m i cap
        (Attributes.getD j default)).MemoryMap
      (OcSplitMemoryEntryByAttribute m i cap (Attributes.getD j default)).CurrentEntryIndex
      (j + 1) := by
  obtain ⟨hlj, hjlt, hAmem, hAget, hArtj, hin, hty, hskip⟩ :=
    findSplitAttribute_drop_some _ _ _ _ hf
  generalize hAdef : Attributes.getD j default = A at *
  obtain ⟨hm, hb, hc, hd⟩ := hinv
  have hnewOK := (OcSplitMemoryEntryByAttribute_preserves m i cap A hi hm (hAok.1 A hAmem) hin).1
  obtain ⟨hdec, hlen⟩ := eq_take_append_getElem_drop m i hi
  generalize hE : m[i] = E at *
  generalize hpre : m.take i = pre at *
  generalize hpost : m.drop (i + 1) = post at *
  have hEmem : E ∈ m := by rw [hdec]; simp
  have hEok : DescOK E := hm.1 E hEmem
  have hAk : DescOK A := hAok.1 A hAmem
  obtain ⟨hlo, hhi⟩ := (AREA_WITHIN_DESCRIPTOR_iff E A hEok.2.2 hAk.2.2).mp hin
  have hout := OcSplitMemoryEntryByAttribute_eq_outcome pre post E A cap
    hEok.1 hAk.1 hlo hhi hEok.2.2
  rw [← hdec, hlen] at hout
  rw [hout] at hs hnewOK ⊢
  have hEi : m[i]? = some E := by rw [List.getElem?_eq_getElem hi, hE]
  -- what is known of the attributes
  have hT : ∀ X ∈ Attributes,
      X = A ∨ rangeEnd X ≤ A.PhysicalStart ∨ rangeEnd A ≤ X.PhysicalStart := by
    intro X hX
    obtain ⟨k, hk⟩ := List.mem_iff_getElem?.mp hX
    rcases Nat.lt_trichotomy k j with h | h | h
    · exact Or.inr (Or.inl (sorted_getElem?_lt _ hAok.2 k j X A hk hAget h))
    · subst h; rw [hAget] at hk; exact Or.inl (Option.some.inj hk).symm
    · exact Or.inr (Or.inr (sorted_getElem?_lt _ hAok.2 j k A X hAget hk h))
  have hK : ∀ k X, k < j + 1 → Attributes[k]? = some X →
      X = A ∨ rangeEnd X ≤ A.PhysicalStart := by
    intro k X hk hX
    by_cases h : k = j
    · subst h; rw [hAget] at hX; exact Or.inl (Option.some.inj hX).symm
    · exact Or.inr (sorted_getElem?_lt _ hAok.2 k j X A hX hAget (by omega))
  have hH : ∀ X ∈ Attributes, rangeWithin E X → rangeEnd X ≤ A.PhysicalStart →
      E.MemType = OcRealMemoryType X := by
    intro X hX hw hbefore
    obtain ⟨k, hk⟩ := List.mem_iff_getElem?.mp hX
    have hXok := hAok.1 X hX
    have hXne := DescOK_nonempty X hXok
    have hAne := DescOK_nonempty A hAk
    have hkj : k < j := by
      by_contra hge
      rcases Nat.lt_or_eq_of_le (Nat.le_of_not_lt hge) with h | h
      · have := sorted_getElem?_lt _ hAok.2 j k A X hAget hk h
        omega
      · subst h; rw [hAget] at hk; obtain rfl := Option.some.inj hk; omega
    by_cases hkl : k < l
    · rcases hd E hEi k X hkl hk with h | h
      · unfold rangeWithin at hw; omega
      · exact h.2
    · exact (hskip k X (by omega) hkj hk (hArt X hX)
        ((AREA_WITHIN_DESCRIPTOR_iff E X hEok.2.2 hXok.2.2).mpr hw)).symm
  have hold_b : ∀ X ∈ Attributes, ∃ e ∈ pre ++ E :: post,
      isRuntimeType e.MemType = true ∧ rangeWithin e X := by
    rw [← hdec]; exact hb
  have hAne := DescOK_nonempty A hAk
  have hmidrt : isRuntimeType (midPiece E A).MemType = true :=
    OcRealMemoryType_isRuntimeType A hArtj
  have hhead := headPiece_end E A hEok.1 hAk.1 hlo
  have htail := tailPiece_end E A hEok.1 hAk.1 hhi
  have hmidend : rangeEnd (midPiece E A) = rangeEnd A := rfl
  have step := fun done cur h1 h2 h3 h4 =>
    SplitInv_after_split Attributes pre post done E cur A j h1 hAok.1 hold_b hc hT hK hH h2 h3 h4
  unfold splitEntryOutcome at hs hnewOK ⊢
  split_ifs at hs hnewOK ⊢ with c1 c2 c3 c4 c5 c6
  · simp [EFI_ERROR] at hs
  · -- head and attribute
    have := step [headPiece E A] (midPiece E A) (by simpa using hnewOK) ?_ ?_ ?_
    · simpa using this
    · intro X hX hw ht
      have hXne := DescOK_nonempty X hX
      unfold rangeWithin at hw
      rcases ht with hXA | h | h
      · obtain rfl := hXA.symm
        exact ⟨midPiece E A, by simp, hmidrt, ⟨le_refl _, le_of_eq rfl⟩⟩
      · exact ⟨headPiece E A, by simp, hrt, ⟨hw.1, by rw [hhead]; exact h⟩⟩
      · omega
    · intro e he X hX hw ht
      simp only [List.mem_singleton] at he
      subst he
      have hXne := DescOK_nonempty X hX
      unfold rangeWithin at hw
      rw [hhead] at hw
      have hs' : (headPiece E A).PhysicalStart = E.PhysicalStart := rfl
      rw [hs'] at hw
      refine Or.inr ⟨⟨hw.1, by omega⟩, hw.2, rfl⟩
    · intro X hX ht
      rcases ht with hXA | h
      · obtain rfl := hXA.symm
        exact Or.inr ⟨⟨le_refl _, le_of_eq rfl⟩, rfl⟩
      · exact Or.inl h
  · simp [EFI_ERROR] at hs
  · -- head, attribute and tail
    have := step [headPiece E A, midPiece E A] (tailPiece E A) (by simpa using hnewOK) ?_ ?_ ?_
    · simpa using this
    · intro X hX hw ht
      have hXne := DescOK_nonempty X hX
      unfold rangeWithin at hw
      rcases ht with hXA | h | h
      · obtain rfl := hXA.symm
        exact ⟨midPiece E A, by simp, hmidrt, ⟨le_refl _, le_of_eq rfl⟩⟩
      · exact ⟨headPiece E A, by simp, hrt, ⟨hw.1, by rw [hhead]; exact h⟩⟩
      · exact ⟨tailPiece E A, by simp, hrt, ⟨h, by rw [htail]; exact hw.2⟩⟩
    · intro e he X hX hw ht
      have hXne := DescOK_nonempty X hX
      unfold rangeWithin at hw
      simp only [List.mem_cons, List.mem_singleton, List.not_mem_nil, or_false] at he
      rcases he with rfl | rfl
      · rw [hhead] at hw
        have hs' : (headPiece E A).PhysicalStart = E.PhysicalStart := rfl
        rw [hs'] at hw
        exact Or.inr ⟨⟨hw.1, by omega⟩, hw.2, rfl⟩
      · rw [hmidend] at hw
        have hs' : (midPiece E A).PhysicalStart = A.PhysicalStart := rfl
        rw [hs'] at hw
        rcases ht with hXA | h | h
        · obtain rfl := hXA.symm
          exact Or.inl ⟨rfl, rfl⟩
        · omega
        · omega
    · intro X hX ht
      have hs' : (tailPiece E A).PhysicalStart = rangeEnd A := rfl
      rw [hs']
      rcases ht with hXA | h
      · obtain rfl := hXA.symm
        exact Or.inl (le_refl _)
      · left; omega
  · -- the attribute covers the entry
    have := step [] (midPiece E A) (by simpa using hnewOK) ?_ ?_ ?_
    · simpa using this
    · intro X hX hw ht
      have hXne := DescOK_nonempty X hX
      unfold rangeWithin at hw
      rcases ht with hXA | h | h
      · obtain rfl := hXA.symm
        exact ⟨midPiece E A, by simp, hmidrt, ⟨le_refl _, le_of_eq rfl⟩⟩
      · omega
      · omega
    · intro e he; simp at he
    · intro X hX ht
      rcases ht with hXA | h
      · obtain rfl := hXA.symm
        exact Or.inr ⟨⟨le_refl _, le_of_eq rfl⟩, rfl⟩
      · exact Or.inl h
  · simp [EFI_ERROR] at hs
  · -- attribute and tail
    have := step [midPiece E A] (tailPiece E A) (by simpa using hnewOK) ?_ ?_ ?_
    · simpa using this
    · intro X hX hw ht
      have hXne := DescOK_nonempty X hX
      unfold rangeWithin at hw
      rcases ht with hXA | h | h
      · obtain rfl := hXA.symm
        exact ⟨midPiece E A, by simp, hmidrt, ⟨le_refl _, le_of_eq rfl⟩⟩
      · omega
      · exact ⟨tailPiece E A, by simp, hrt, ⟨h, by rw [htail]; exact hw.2⟩⟩
    · intro e he X hX hw ht
      have hXne := DescOK_nonempty X hX
      unfold rangeWithin at hw
      simp only [List.mem_singleton] at he
      subst he
      rw [hmidend] at hw
      have hs' : (midPiece E A).PhysicalStart = A.PhysicalStart := rfl
      rw [hs'] at hw
      rcases ht with hXA | h | h
      · obtain rfl := hXA.symm
        exact Or.inl ⟨rfl, rfl⟩
      · omega
      · omega
    · intro X hX ht
      have hs' : (tailPiece E A).PhysicalStart = rangeEnd A := rfl
      rw [hs']
      rcases ht with hXA | h
      · obtain rfl := hXA.symm
        exact Or.inl (le_refl _)
      · left; omega

/-- When the loop returns success, every entry of the table it leaves that
shares an address with an attribute has the real type of that attribute. -/
theorem splitLoop_types (cap : Nat) (Attributes : List EFI_MEMORY_DESCRIPTOR)
    (hAok : TableOK Attributes)
    (hArt : ∀ a ∈ Attributes, isRuntimeType a.MemType = true)
    (fuel : Nat) (m : List EFI_MEMORY_DESCRIPTOR) (i l : Nat)
    (hinv : SplitInv Attributes m i l)
    (res : EFI_STATUS × List EFI_MEMORY_DESCRIPTOR)
    (hres : splitLoop cap Attributes fuel m i l = some res) :
    res.1 = EFI_STATUS.EFI_SUCCESS →
      ∀ A ∈ Attributes, ∀ e ∈ res.2, (∃ x, inRange A x ∧ inRange e x) →
        e.MemType = OcRealMemoryType A := by
  refine splitLoop_rule cap Attributes (SplitInv Attributes)
    (fun res => res.1 = EFI_STATUS.EFI_SUCCESS →
      ∀ A ∈ Attributes, ∀ e ∈ res.2, (∃ x, inRange A x ∧ inRange e x) →
        e.MemType = OcRealMemoryType A) ?_ ?_ ?_ fuel m i l hinv res hres
  · intro m i l h hi _ A hA e he hx
    obtain ⟨hm, hb, hc, -⟩ := h
    obtain ⟨x, hxA, hxe⟩ := hx
    obtain ⟨e', he', -, hw⟩ := hb A hA
    have hxe' : inRange e' x := by
      unfold inRange at hxA ⊢
      unfold rangeWithin at hw
      omega
    have heq := entry_unique_of_address m hm e e' he he' x hxe hxe'
    rw [List.take_of_length_le (by omega)] at hc
    exact hc e he A hA (by rw [heq]; exact hw)
  · intro m i l h hi hnone
    exact SplitInv_advance Attributes m i l hAok hArt h hi hnone
  · intro m i l j h hi hrt hf
    refine ⟨fun he hsucc => ?_, fun hs => SplitInv_split Attributes m i l j cap hAok hArt h hi
      hrt hf hs⟩
    simp only at hsucc
    rw [hsucc] at he
    exact absurd he (by decide)

/-! ## One slot per attribute when the attributes tile the runtime entries -/

/-- When the attributes inside an entry tile it, every address of the entry is
covered by an attribute. -/
theorem AttributesTile_covered (T Attributes : List EFI_MEMORY_DESCRIPTOR)
    (h : AttributesTile T Attributes) (d : EFI_MEMORY_DESCRIPTOR) (hd : d ∈ T)
    (hex : ∃ X ∈ Attributes, rangeWithin d X) (x : Nat) (hx : inRange d x) :
    covers Attributes x := by
  obtain ⟨X, hX, hw⟩ := hex
  have hmem : X ∈ attributesInside Attributes d := by
    unfold attributesInside
    exact List.mem_filter.mpr ⟨hX, by simpa using hw⟩
  rcases h d hd with h0 | ht
  · rw [h0] at hmem; exact absurd hmem (List.not_mem_nil X)
  · obtain ⟨-, -, -, hc, -⟩ := Tiles_facts _ _ _ ht
    obtain ⟨Y, hY, hYx⟩ := (hc x).mpr hx
    exact ⟨Y, (List.mem_filter.mp hY).1, hYx⟩

/-- With a free slot for each insertion it needs (one when the attribute starts
after the entry, one when it ends before the entry's end), the split succeeds,
inserts exactly those entries, and leaves as current entry the attribute's range
or the part of the entry after it. -/
theorem splitEntryOutcome_success (pre post : List EFI_MEMORY_DESCRIPTOR)
    (E A : EFI_MEMORY_DESCRIPTOR) (cap : Nat) (hE : DescOK E) (hA : DescOK A)
    (hlo : E.PhysicalStart ≤ A.PhysicalStart) (hhi : rangeEnd A ≤ rangeEnd E)
    (hroom : (pre ++ E :: post).length + (if E.PhysicalStart < A.PhysicalStart then 1 else 0)
      + (if rangeEnd A < rangeEnd E then 1 else 0) ≤ cap) :
    ∃ done cur, splitEntryOutcome pre post E A cap
        = ⟨EFI_STATUS.EFI_SUCCESS, pre ++ done ++ cur :: post, (pre ++ done).length⟩ ∧
      done.length = (if E.PhysicalStart < A.PhysicalStart then 1 else 0)
        + (if rangeEnd A < rangeEnd E then 1 else 0) ∧
      rangeWithin E cur ∧
      ((cur.PhysicalStart = A.PhysicalStart ∧ rangeEnd cur = rangeEnd A) ∨
        cur.PhysicalStart = rangeEnd A) := by
  have htail := tailPiece_end E A hE.1 hA.1 hhi
  have hAne := DescOK_nonempty A hA
  have hmid : rangeWithin E (midPiece E A) := ⟨hlo, hhi⟩
  have htl : rangeWithin E (tailPiece E A) := by
    refine ⟨?_, le_of_eq htail⟩
    show E.PhysicalStart ≤ rangeEnd A
    omega
  unfold splitEntryOutcome
  by_cases c1 : E.PhysicalStart < A.PhysicalStart
  · rw [if_pos c1] at hroom ⊢
    rw [if_pos c1]
    by_cases c3 : rangeEnd A = rangeEnd E
    · have c3' : ¬ rangeEnd A < rangeEnd E := by omega
      rw [if_neg c3'] at hroom ⊢
      rw [if_neg (by omega), if_pos c3]
      exact ⟨[headPiece E A], midPiece E A, by simp, rfl, hmid, Or.inl ⟨rfl, rfl⟩⟩
    · have c3' : rangeEnd A < rangeEnd E := by omega
      rw [if_pos c3'] at hroom ⊢
      rw [if_neg (by omega), if_neg c3, if_neg (by omega)]
      exact ⟨[headPiece E A, midPiece E A], tailPiece E A, by simp, rfl, htl, Or.inr rfl⟩
  · rw [if_neg c1] at hroom ⊢
    rw [if_neg c1]
    by_cases c3 : rangeEnd A = rangeEnd E
    · have c3' : ¬ rangeEnd A < rangeEnd E := by omega
      rw [if_neg c3'] at hroom ⊢
      rw [if_pos c3]
      exact ⟨[], midPiece E A, by simp, rfl, hmid, Or.inl ⟨rfl, rfl⟩⟩
    · have c3' : rangeEnd A < rangeEnd E := by omega
      rw [if_pos c3'] at hroom ⊢
      rw [if_neg c3, if_neg (by omega)]
      exact ⟨[midPiece E A], tailPiece E A, by simp, rfl, htl, Or.inr rfl⟩

/-- The slot invariant is kept when the loop advances to the next entry. -/
theorem SlotInv_advance (cap : Nat) (Attributes m : List EFI_MEMORY_DESCRIPTOR) (i l : Nat)
    (hAok : TableOK Attributes)
    (hArt : ∀ a ∈ Attributes, isRuntimeType a.MemType = true)
    (hinv : SlotInv cap Attributes m i l) (hi : i < m.length)
    (hnone : isRuntimeType (m[i]).MemType = false ∨
      findSplitAttribute m[i] (Attributes.drop l) l false = none) :
    SlotInv cap Attributes m (i + 1) l := by
  obtain ⟨hs, hg, he, hphi⟩ := hinv
  refine ⟨SplitInv_advance Attributes m i l hAok hArt hs hi hnone, ?_, ?_, hphi⟩
  · intro e hmem
    refine hg e ?_
    rw [List.drop_eq_getElem_cons hi]
    exact List.mem_cons_of_mem _ hmem
  · intro E' hE' k X hk hX
    obtain ⟨hi', rfl⟩ := List.getElem?_eq_some.mp hE'
    have hord : rangeEnd m[i] ≤ (m[i + 1]).PhysicalStart :=
      (List.pairwise_iff_getElem.mp hs.1.2) i (i + 1) hi hi' (by omega)
    have hne := DescOK_nonempty _ (hs.1.1 _ (List.getElem_mem hi))
    left
    rcases hs.2.2.2 m[i] (List.getElem?_eq_getElem hi) k X hk hX with h | h
    · omega
    · have := h.1
      unfold rangeWithin at this
      omega

/-- Under the slot invariant a split finds the slots it needs: it succeeds, and
the invariant holds again afterwards. -/
theorem SlotInv_split (cap : Nat) (Attributes m : List EFI_MEMORY_DESCRIPTOR) (i l j : Nat)
    (hAok : TableOK Attributes)
    (hArt : ∀ a ∈ Attributes, isRuntimeType a.MemType = true)
    (hinv : SlotInv cap Attributes m i l) (hi : i < m.length)
    (hrt : isRuntimeType (m[i]).MemType = true)
    (hf : findSplitAttribute m[i] (Attributes.drop l) l false = some j) :
    (OcSplitMemoryEntryByAttribute m i cap (Attributes.getD j default)).Status
      = EFI_STATUS.EFI_SUCCESS ∧
    SlotInv cap Attributes
      (OcSplitMemoryEntryByAttribute m i cap (Attributes.getD j default)).MemoryMap
      (OcSplitMemoryEntryByAttribute m i cap (Attributes.getD j default)).CurrentEntryIndex
      (j + 1) := by
  obtain ⟨hs, hg, he, hphi⟩ := hinv
  obtain ⟨hlj, hjlt, hAmem, hAget, hArtj, hin, hty, hskip⟩ :=
    findSplitAttribute_drop_some _ _ _ _ hf
  have hsplit := fun h => SplitInv_split Attributes m i l j cap hAok hArt hs hi hrt hf h
  generalize hAdef : Attributes.getD j default = A at *
  obtain ⟨hdec, hlen⟩ := eq_take_append_getElem_drop m i hi
  have hdrop : m.drop i = m[i] :: m.drop (i + 1) := List.drop_eq_getElem_cons hi
  have hEi : m[i]? = some m[i] := List.getElem?_eq_getElem hi
  generalize hE : m[i] = E at *
  generalize hpre : m.take i = pre at *
  generalize hpost : m.drop (i + 1) = post at *
  have hEmem : E ∈ m := by rw [hdec]; simp
  have hEok : DescOK E := hs.1.1 E hEmem
  have hAk : DescOK A := hAok.1 A hAmem
  have hEne := DescOK_nonempty E hEok
  have hAne := DescOK_nonempty A hAk
  obtain ⟨hlo, hhi⟩ := (AREA_WITHIN_DESCRIPTOR_iff E A hEok.2.2 hAk.2.2).mp hin
  -- an attribute that starts after the entry is not the first one inside it
  have hhead : E.PhysicalStart < A.PhysicalStart → l < j := by
    intro hgt
    obtain ⟨Y, hY, hYx⟩ := hg E (by rw [hdrop]; simp) ⟨A, hAmem, hlo, hhi⟩ E.PhysicalStart
      ⟨le_refl _, hEne⟩
    obtain ⟨e', he', -, hw'⟩ := hs.2.1 Y hY
    have hYok := hAok.1 Y hY
    have hxe' : inRange e' E.PhysicalStart := by
      unfold inRange at hYx ⊢
      unfold rangeWithin at hw'
      omega
    have heq := entry_unique_of_address m hs.1 E e' hEmem he' E.PhysicalStart
      ⟨le_refl _, hEne⟩ hxe'
    rw [← heq] at hw'
    obtain ⟨k, hk⟩ := List.mem_iff_getElem?.mp hY
    unfold inRange at hYx
    unfold rangeWithin at hw'
    have hkj : k < j := by
      by_contra hge
      rcases Nat.lt_or_eq_of_le (Nat.le_of_not_lt hge) with h | h
      · have := sorted_getElem?_lt _ hAok.2 j k A Y hAget hk h
        omega
      · subst h; rw [hAget] at hk; obtain rfl := Option.some.inj hk; omega
    have hsorted := sorted_getElem?_lt _ hAok.2 k j Y A hk hAget hkj
    by_contra hlk
    rcases he E hEi k Y (by omega) hk with h | h
    · omega
    · omega
  have hroom : (pre ++ E :: post).length
      + (if E.PhysicalStart < A.PhysicalStart then 1 else 0)
      + (if rangeEnd A < rangeEnd E then 1 else 0) ≤ cap ∧
      (if E.PhysicalStart < A.PhysicalStart then 1 else 0)
      + (if rangeEnd A < rangeEnd E then 1 else 0) + l ≤ j + 1 := by
    rw [← hdec]
    by_cases c1 : E.PhysicalStart < A.PhysicalStart
    · have := hhead c1
      rw [if_pos c1]
      split_ifs <;> omega
    · rw [if_neg c1]
      split_ifs <;> omega
  obtain ⟨done, cur, hout, hdone, hcurE, hcur⟩ :=
    splitEntryOutcome_success pre post E A cap hEok hAk hlo hhi hroom.1
  have heq := OcSplitMemoryEntryByAttribute_eq_outcome pre post E A cap
    hEok.1 hAk.1 hlo hhi hEok.2.2
  rw [← hdec, hlen] at heq
  rw [heq, hout] at hsplit ⊢
  have hsi := hsplit rfl
  refine ⟨rfl, hsi, ?_, ?_, ?_⟩
  · intro e hmem hex x hx
    have hd' : (pre ++ done ++ cur :: post).drop (pre ++ done).length = cur :: post :=
      List.drop_left' rfl
    simp only at hmem
    rw [hd'] at hmem
    rcases List.mem_cons.mp hmem with rfl | hmem
    · obtain ⟨X, hX, hw⟩ := hex
      unfold rangeWithin at hw hcurE
      unfold inRange at hx
      exact hg E (by rw [hdrop]; simp) ⟨X, hX, by unfold rangeWithin; omega⟩ x
        (by unfold inRange; omega)
    · exact hg e (by rw [hdrop]; exact List.mem_cons_of_mem _ hmem) hex x hx
  · intro E' hE' k X hk hX
    have hcur' : (pre ++ done ++ cur :: post)[(pre ++ done).length]? = some cur := by
      rw [List.getElem?_append_right (le_refl _)]; simp
    simp only at hE'
    rw [hcur'] at hE'
    obtain rfl := Option.some.inj hE'
    by_cases hkj : k = j
    · subst hkj
      rw [hAget] at hX
      obtain rfl := Option.some.inj hX
      rcases hcur with h | h
      · right; omega
      · left; omega
    · have := sorted_getElem?_lt _ hAok.2 k j X A hX hAget (by omega)
      left
      rcases hcur with h | h
      · omega
      · omega
  · simp only [List.length_append, List.length_cons] at hroom ⊢
    rw [hdec] at hphi
    simp only [List.length_append, List.length_cons] at hphi
    omega

/-- With one free slot for every attribute from the cursor on, and attributes
that tile the entries they lie in, the loop returns success. -/
theorem splitLoop_success_of_tiling (cap : Nat) (Attributes : List EFI_MEMORY_DESCRIPTOR)
    (hAok : TableOK Attributes)
    (hArt : ∀ a ∈ Attributes, isRuntimeType a.MemType = true)
    (fuel : Nat) (m : List EFI_MEMORY_DESCRIPTOR) (i l : Nat)
    (hinv : SlotInv cap Attributes m i l)
    (res : EFI_STATUS × List EFI_MEMORY_DESCRIPTOR)
    (hres : splitLoop cap Attributes fuel m i l = some res) :
    res.1 = EFI_STATUS.EFI_SUCCESS := by
  refine splitLoop_rule cap Attributes (SlotInv cap Attributes)
    (fun res => res.1 = EFI_STATUS.EFI_SUCCESS) ?_ ?_ ?_ fuel m i l hinv res hres
  · intro m i l _ _; rfl
  · intro m i l h hi hnone
    exact SlotInv_advance cap Attributes m i l hAok hArt h hi hnone
  · intro m i l j h hi hrt hf
    obtain ⟨h1, h2⟩ := SlotInv_split cap Attributes m i l j hAok hArt h hi hrt hf
    exact ⟨fun _ => h1, fun _ => h2⟩

/-! ## Coalescing: the in-place loop and its functional description -/

theorem shrinkLoop_succ (r : Nat) (buf : List EFI_MEMORY_DESCRIPTOR) (p d m : Nat) (h : Bool)
    (Prev Cur : EFI_MEMORY_DESCRIPTOR) (hp : buf[p]? = some Prev) (hd : buf[d]? = some Cur) :
    shrinkLoop (r + 1) buf p d m h =
      if CanBeJoinedFree Prev Cur then
        shrinkLoop r (buf.set p (joinFree Prev Cur)) p (d + 1) m true
      else if CanBeJoinedRt Prev Cur then
        shrinkLoop r (buf.set p (joinRt Prev Cur)) p (d + 1) m true
      else if h then
        shrinkLoop r (CopyMem buf (p + 1) d (r + 1)) (p + 1) (p + 1 + 1) (m + 1) false
      else
        shrinkLoop r buf (p + 1) (d + 1) (m + 1) false := by
  rw [shrinkLoop, hp, hd]

theorem take_set_same (l : List EFI_MEMORY_DESCRIPTOR) (p : Nat) (a : EFI_MEMORY_DESCRIPTOR) :
    (l.set p a).take p = l.take p := by
  induction l generalizing p with
  | nil => simp
  | cons x xs ih =>
    cases p with
    | zero => simp
    | succ p => simp [ih]

/-- The invariant of the in-place loop: with `PrevDesc` at `p`, `Desc` at `d`
and `r` descriptors left from `d` on, the loop returns, and the map it leaves is
the finished part `buf.take p` followed by the pass over the descriptors left,
started from the descriptor at `p`. -/
theorem shrinkLoop_eq_coalesceFrom :
    ∀ (r : Nat) (buf : List EFI_MEMORY_DESCRIPTOR) (p d : Nat) (h : Bool)
      (Prev : EFI_MEMORY_DESCRIPTOR),
      p < d → d + r ≤ buf.length → (h = false → d = p + 1) → buf[p]? = some Prev →
      ∃ buf' m', shrinkLoop r buf p d (p + 1) h = some (buf', m') ∧
        buf'.take m' = buf.take p ++ coalesceFrom Prev ((buf.drop d).take r) := by
  intro r
  induction r with
  | zero =>
    intro buf p d h Prev hpd hlen _ hp
    refine ⟨buf, p + 1, rfl, ?_⟩
    rw [List.take_zero, coalesceFrom, List.take_succ, hp]
    rfl
  | succ r ih =>
    intro buf p d h Prev hpd hlen hflag hp
    have hdlt : d < buf.length := by omega
    have hplt : p < buf.length := by omega
    have hd : buf[d]? = some buf[d] := List.getElem?_eq_getElem hdlt
    have hrest : (buf.drop d).take (r + 1) = buf[d] :: (buf.drop (d + 1)).take r := by
      rw [List.drop_eq_getElem_cons hdlt, List.take_succ_cons]
    rw [shrinkLoop_succ r buf p d (p + 1) h Prev buf[d] hp hd, hrest, coalesceFrom]
    have hmerge : ∀ (P' : EFI_MEMORY_DESCRIPTOR),
        ∃ buf' m', shrinkLoop r (buf.set p P') p (d + 1) (p + 1) true = some (buf', m') ∧
          buf'.take m' = buf.take p ++ coalesceFrom P' ((buf.drop (d + 1)).take r) := by
      intro P'
      obtain ⟨buf', m', h1, h2⟩ := ih (buf.set p P') p (d + 1) true P' (by omega)
        (by rw [List.length_set]; omega) (fun hc => absurd hc (by simp))
        (List.getElem?_set_self hplt)
      refine ⟨buf', m', h1, ?_⟩
      rw [h2, take_set_same, List.drop_set_of_lt _ _ (by omega)]
    by_cases c1 : CanBeJoinedFree Prev buf[d] = true
    · rw [if_pos c1, if_pos c1]; exact hmerge _
    · rw [if_neg c1, if_neg c1]
      by_cases c2 : CanBeJoinedRt Prev buf[d] = true
      · rw [if_pos c2, if_pos c2]; exact hmerge _
      · rw [if_neg c2, if_neg c2]
        have htake : buf.take (p + 1) = buf.take p ++ [Prev] := by
          rw [List.take_succ, hp]; rfl
        by_cases hh : h = true
        · rw [if_pos hh]
          -- compaction: the descriptors from `d` on move down to `p + 1`
          have hcopy : CopyMem buf (p + 1) d (r + 1)
              = buf.take (p + 1) ++ buf[d] ::
                ((buf.drop (d + 1)).take r ++ buf.drop (p + 1 + (r + 1))) := by
            unfold CopyMem
            rw [hrest, List.append_assoc, List.cons_append]
          have hlen1 : (buf.take (p + 1)).length = p + 1 := by
            rw [List.length_take]; omega
          have hlenr : ((buf.drop (d + 1)).take r).length = r := by
            rw [List.length_take, List.length_drop]; omega
          have hlen2 : (CopyMem buf (p + 1) d (r + 1)).length = buf.length := by
            rw [hcopy]
            simp only [List.length_append, List.length_cons, hlen1, hlenr, List.length_drop]
            omega
          have hget : (CopyMem buf (p + 1) d (r + 1))[p + 1]? = some buf[d] := by
            rw [hcopy, List.getElem?_append_right (by omega), hlen1]
            simp
          obtain ⟨buf', m', h1, h2⟩ := ih (CopyMem buf (p + 1) d (r + 1)) (p + 1) (p + 1 + 1)
            false buf[d] (by omega) (by rw [hlen2]; omega) (fun _ => rfl) hget
          refine ⟨buf', m', h1, ?_⟩
          rw [h2]
          have e1 : (CopyMem buf (p + 1) d (r + 1)).take (p + 1) = buf.take (p + 1) := by
            rw [hcopy, List.take_left' hlen1]
          have e2 : ((CopyMem buf (p + 1) d (r + 1)).drop (p + 1 + 1)).take r
              = (buf.drop (d + 1)).take r := by
            rw [hcopy]
            have : buf.take (p + 1) ++ buf[d] ::
                ((buf.drop (d + 1)).take r ++ buf.drop (p + 1 + (r + 1)))
                = (buf.take (p + 1) ++ [buf[d]]) ++
                  ((buf.drop (d + 1)).take r ++ buf.drop (p + 1 + (r + 1))) := by simp
            rw [this, List.drop_left' (by simp [hlen1]), List.take_left' hlenr]
          rw [e1, e2, htake, List.append_assoc, List.singleton_append]
        · rw [if_neg hh]
          have hdp : d = p + 1 := hflag (by simpa using hh)
          subst hdp
          obtain ⟨buf', m', h1, h2⟩ := ih buf (p + 1) (p + 1 + 1) false buf[p + 1] (by omega)
            (by omega) (fun _ => rfl) hd
          refine ⟨buf', m', h1, ?_⟩
          rw [h2, htake, List.append_assoc, List.singleton_append]

/-- On a non-empty map `OcShrinkMemoryMap` returns the functional pass from the
first descriptor over the others. -/
theorem OcShrinkMemoryMap_cons (t : EFI_MEMORY_DESCRIPTOR) (ts : List EFI_MEMORY_DESCRIPTOR) :
    OcShrinkMemoryMap (t :: ts) = some (coalesceFrom t ts) := by
  obtain ⟨buf', m', h1, h2⟩ := shrinkLoop_eq_coalesceFrom ts.length (t :: ts) 0 1 false t
    (by omega) (by simp only [List.length_cons]; omega) (fun _ => rfl) (by simp)
  have hsize : (if (t :: ts).length = 0 then 2 ^ 64 - 1 else (t :: ts).length - 1)
      = ts.length := by
    rw [if_neg (by simp)]; simp
  unfold OcShrinkMemoryMap
  rw [hsize, h1]
  simp only [h2, List.take_zero, List.nil_append, List.drop_succ_cons, List.drop_zero,
    List.take_length]

/-- What the join tests read of the second descriptor: its start, its
attributes and the class of its type. -/
theorem CanBeJoined_congr (P h d : EFI_MEMORY_DESCRIPTOR)
    (h1 : h.PhysicalStart = d.PhysicalStart) (h2 : h.Attribute = d.Attribute)
    (h3 : isFreeType h.MemType = isFreeType d.MemType)
    (h4 : (h.MemType = EfiRuntimeServicesCode) ↔ (d.MemType = EfiRuntimeServicesCode))
    (h5 : (h.MemType = EfiRuntimeServicesData) ↔ (d.MemType = EfiRuntimeServicesData)) :
    CanBeJoinedFree P h = CanBeJoinedFree P d ∧ CanBeJoinedRt P h = CanBeJoinedRt P d := by
  simp only [CanBeJoinedFree, CanBeJoinedRt, isContiguousSameAttribute, h1, h2, h3, h4, h5,
    and_self]

/-- The pass leaves a non-empty table whose first entry has the start, the
attributes and the type class of the descriptor it started from. -/
theorem coalesceFrom_head : ∀ (l : List EFI_MEMORY_DESCRIPTOR) (P : EFI_MEMORY_DESCRIPTOR),
    ∃ h tl, coalesceFrom P l = h :: tl ∧
      h.PhysicalStart = P.PhysicalStart ∧ h.Attribute = P.Attribute ∧
      isFreeType h.MemType = isFreeType P.MemType ∧
      ((h.MemType = EfiRuntimeServicesCode) ↔ (P.MemType = EfiRuntimeServicesCode)) ∧
      ((h.MemType = EfiRuntimeServicesData) ↔ (P.MemType = EfiRuntimeServicesData)) := by
  intro l
  induction l with
  | nil => intro P; exact ⟨P, [], rfl, rfl, rfl, rfl, Iff.rfl, Iff.rfl⟩
  | cons d ds ih =>
    intro P
    unfold coalesceFrom
    by_cases c1 : CanBeJoinedFree P d = true
    · rw [if_pos c1]
      obtain ⟨h, tl, e, h1, h2, h3, h4, h5⟩ := ih (joinFree P d)
      have hP : isFreeType P.MemType = true := by
        simp only [CanBeJoinedFree, Bool.and_eq_true] at c1
        exact c1.2.2
      have hP5 : ¬ P.MemType = EfiRuntimeServicesCode := by
        intro hc; rw [hc] at hP; exact absurd hP (by decide)
      have hP6 : ¬ P.MemType = EfiRuntimeServicesData := by
        intro hc; rw [hc] at hP; exact absurd hP (by decide)
      refine ⟨h, tl, e, h1, h2, ?_, ?_, ?_⟩
      · rw [h3, hP]; rfl
      · rw [h4]
        exact ⟨fun hc => absurd (show EfiConventionalMemory = EfiRuntimeServicesCode from hc)
          (by decide), fun hc => absurd hc hP5⟩
      · rw [h5]
        exact ⟨fun hc => absurd (show EfiConventionalMemory = EfiRuntimeServicesData from hc)
          (by decide), fun hc => absurd hc hP6⟩
    · rw [if_neg c1]
      by_cases c2 : CanBeJoinedRt P d = true
      · rw [if_pos c2]
        exact ih (joinRt P d)
      · rw [if_neg c2]
        exact ⟨P, coalesceFrom d ds, rfl, rfl, rfl, rfl, Iff.rfl, Iff.rfl⟩

/-- In the table the pass leaves no entry can be joined to its predecessor. -/
theorem coalesceFrom_NoJoin : ∀ (l : List EFI_MEMORY_DESCRIPTOR) (P : EFI_MEMORY_DESCRIPTOR),
    NoJoin (coalesceFrom P l) := by
  intro l
  induction l with
  | nil => intro P; exact List.chain'_singleton P
  | cons d ds ih =>
    intro P
    unfold coalesceFrom
    by_cases c1 : CanBeJoinedFree P d = true
    · rw [if_pos c1]; exact ih _
    · rw [if_neg c1]
      by_cases c2 : CanBeJoinedRt P d = true
      · rw [if_pos c2]; exact ih _
      · rw [if_neg c2]
        obtain ⟨h, tl, e, h1, h2, h3, h4, h5⟩ := coalesceFrom_head ds d
        have hrec := ih d
        rw [e] at hrec ⊢
        obtain ⟨g1, g2⟩ := CanBeJoined_congr P h d h1 h2 h3 h4 h5
        refine List.Chain'.cons ?_ hrec
        rw [g1, g2]
        exact ⟨by simpa using c1, by simpa using c2⟩

/-- The pass changes nothing in a table where no entry can be joined to its
predecessor. -/
theorem coalesceFrom_of_NoJoin : ∀ (l : List EFI_MEMORY_DESCRIPTOR) (P : EFI_MEMORY_DESCRIPTOR),
    NoJoin (P :: l) → coalesceFrom P l = P :: l := by
  intro l
  induction l with
  | nil => intro P _; rfl
  | cons d ds ih =>
    intro P h
    obtain ⟨⟨c1, c2⟩, hrest⟩ := List.chain'_cons.mp h
    unfold coalesceFrom
    rw [c1, c2]
    simp only [Bool.false_eq_true, if_false]
    rw [ih d hrest]

/-! ## Coalescing: ranges and order -/

/-- Below `2 ^ 64` the contiguity test of the loop says that `Desc` starts where
`PrevDesc` ends. -/
theorem isContiguousSameAttribute_nowrap (P d : EFI_MEMORY_DESCRIPTOR)
    (hP : rangeEnd P < 2 ^ 64) (h : isContiguousSameAttribute P d = true) :
    rangeEnd P = d.PhysicalStart := by
  unfold rangeEnd at *
  simp only [isContiguousSameAttribute, EFI_PAGES_TO_SIZE, Bool.and_eq_true,
    decide_eq_true_eq] at h
  omega

/-- What a join does to the range, below `2 ^ 64`: the joined descriptor starts
where `PrevDesc` starts, ends where `Desc` ends, and has the pages of both. -/
theorem join_range (P d J : EFI_MEMORY_DESCRIPTOR)
    (hP : rangeEnd P < 2 ^ 64) (hd : rangeEnd d < 2 ^ 64)
    (hc : isContiguousSameAttribute P d = true)
    (hJs : J.PhysicalStart = P.PhysicalStart)
    (hJp : J.NumberOfPages = (P.NumberOfPages + d.NumberOfPages) % 2 ^ 64) :
    rangeEnd J = rangeEnd d ∧ J.NumberOfPages = P.NumberOfPages + d.NumberOfPages ∧
      rangeEnd J < 2 ^ 64 ∧ ∀ x, inRange J x ↔ (inRange P x ∨ inRange d x) := by
  have hadj := isContiguousSameAttribute_nowrap P d hP hc
  unfold rangeEnd at *
  have hp : J.NumberOfPages = P.NumberOfPages + d.NumberOfPages := by omega
  refine ⟨by omega, hp, by omega, ?_⟩
  intro x
  unfold inRange rangeEnd
  omega

/-- The pass of `OcShrinkMemoryMap` over descriptors whose ranges end below
`2 ^ 64`: the table it leaves covers the same addresses, has the same total
page count, and each of its entries ends below `2 ^ 64` and starts where an
input entry starts. -/
theorem coalesceFrom_ranges : ∀ (l : List EFI_MEMORY_DESCRIPTOR) (P : EFI_MEMORY_DESCRIPTOR),
    (∀ d ∈ P :: l, rangeEnd d < 2 ^ 64) →
    (∀ x, covers (coalesceFrom P l) x ↔ covers (P :: l) x) ∧
    totalPages (coalesceFrom P l) = totalPages (P :: l) ∧
    (∀ o ∈ coalesceFrom P l, rangeEnd o < 2 ^ 64 ∧
      ∃ e ∈ P :: l, o.PhysicalStart = e.PhysicalStart) := by
  intro l
  induction l with
  | nil =>
    intro P hw
    refine ⟨fun _ => Iff.rfl, rfl, ?_⟩
    intro o ho
    simp only [coalesceFrom, List.mem_singleton] at ho
    subst ho
    exact ⟨hw o (by simp), o, by simp, rfl⟩
  | cons d ds ih =>
    intro P hw
    have hP := hw P (by simp)
    have hd := hw d (by simp)
    have hmerge : ∀ J : EFI_MEMORY_DESCRIPTOR, isContiguousSameAttribute P d = true →
        J.PhysicalStart = P.PhysicalStart →
        J.NumberOfPages = (P.NumberOfPages + d.NumberOfPages) % 2 ^ 64 →
        (∀ x, covers (coalesceFrom J ds) x ↔ covers (P :: d :: ds) x) ∧
        totalPages (coalesceFrom J ds) = totalPages (P :: d :: ds) ∧
        (∀ o ∈ coalesceFrom J ds, rangeEnd o < 2 ^ 64 ∧
          ∃ e ∈ P :: d :: ds, o.PhysicalStart = e.PhysicalStart) := by
      intro J hc hJs hJp
      obtain ⟨-, j2, j3, j4⟩ := join_range P d J hP hd hc hJs hJp
      obtain ⟨i1, i2, i3⟩ := ih J (by
        intro e he
        rcases List.mem_cons.mp he with rfl | he
        · exact j3
        · exact hw e (by simp [he]))
      refine ⟨?_, ?_, ?_⟩
      · intro x
        rw [i1 x]
        simp only [covers, List.mem_cons, exists_eq_or_imp]
        rw [j4 x]
        tauto
      · rw [i2]
        simp only [totalPages, List.map_cons, List.sum_cons]
        omega
      · intro o ho
        obtain ⟨o1, e, he, o2⟩ := i3 o ho
        refine ⟨o1, ?_⟩
        rcases List.mem_cons.mp he with rfl | he
        · exact ⟨P, by simp, by rw [o2, hJs]⟩
        · exact ⟨e, by simp [he], o2⟩
    unfold coalesceFrom
    by_cases c1 : CanBeJoinedFree P d = true
    · rw [if_pos c1]
      have hc : isContiguousSameAttribute P d = true := by
        simp only [CanBeJoinedFree, Bool.and_eq_true] at c1; exact c1.1
      exact hmerge (joinFree P d) hc rfl rfl
    · rw [if_neg c1]
      by_cases c2 : CanBeJoinedRt P d = true
      · rw [if_pos c2]
        have hc : isContiguousSameAttribute P d = true := by
          simp only [CanBeJoinedRt, Bool.and_eq_true] at c2; exact c2.1
        exact hmerge (joinRt P d) hc rfl rfl
      · rw [if_neg c2]
        obtain ⟨i1, i2, i3⟩ := ih d (fun e he => hw e (by simp [he]))
        refine ⟨?_, ?_, ?_⟩
        · intro x
          have := i1 x
          simp only [covers, List.mem_cons, exists_eq_or_imp] at this ⊢
          rw [this]
        · simp only [totalPages, List.map_cons, List.sum_cons] at i2 ⊢
          rw [i2]
        · intro o ho
          rcases List.mem_cons.mp ho with rfl | ho
          · exact ⟨hP, o, by simp, rfl⟩
          · obtain ⟨o1, e, he, o2⟩ := i3 o ho
            exact ⟨o1, e, List.mem_cons_of_mem _ he, o2⟩

/-- The pass of `OcShrinkMemoryMap` keeps a table sorted ascending by start and
free of overlaps, when the ranges end below `2 ^ 64`. -/
theorem coalesceFrom_sorted_disjoint :
    ∀ (l : List EFI_MEMORY_DESCRIPTOR) (P : EFI_MEMORY_DESCRIPTOR),
    (∀ d ∈ P :: l, rangeEnd d < 2 ^ 64) →
    (P :: l).Pairwise (fun a b => a.PhysicalStart ≤ b.PhysicalStart) →
    (P :: l).Pairwise rangesDisjoint →
    (coalesceFrom P l).Pairwise (fun a b => a.PhysicalStart ≤ b.PhysicalStart) ∧
    (coalesceFrom P l).Pairwise rangesDisjoint := by
  intro l
  induction l with
  | nil =>
    intro P _ _ _
    exact ⟨List.pairwise_singleton _ _, List.pairwise_singleton _ _⟩
  | cons d ds ih =>
    intro P hw hs hdj
    have hP := hw P (by simp)
    have hd := hw d (by simp)
    obtain ⟨hsP, hs'⟩ := List.pairwise_cons.mp hs
    obtain ⟨hdP, hdj'⟩ := List.pairwise_cons.mp hdj
    obtain ⟨hsd, hs''⟩ := List.pairwise_cons.mp hs'
    obtain ⟨hdd, hdj''⟩ := List.pairwise_cons.mp hdj'
    have hmerge : ∀ J : EFI_MEMORY_DESCRIPTOR, isContiguousSameAttribute P d = true →
        J.PhysicalStart = P.PhysicalStart →
        J.NumberOfPages = (P.NumberOfPages + d.NumberOfPages) % 2 ^ 64 →
        (coalesceFrom J ds).Pairwise (fun a b => a.PhysicalStart ≤ b.PhysicalStart) ∧
        (coalesceFrom J ds).Pairwise rangesDisjoint := by
      intro J hc hJs hJp
      obtain ⟨-, -, j3, j4⟩ := join_range P d J hP hd hc hJs hJp
      refine ih J ?_ ?_ ?_
      · intro e he
        rcases List.mem_cons.mp he with rfl | he
        · exact j3
        · exact hw e (by simp [he])
      · refine List.pairwise_cons.mpr ⟨?_, hs''⟩
        intro e he
        rw [hJs]
        exact hsP e (by simp [he])
      · refine List.pairwise_cons.mpr ⟨?_, hdj''⟩
        intro e he x hx
        rcases (j4 x).mp hx.1 with h | h
        · exact hdP e (by simp [he]) x ⟨h, hx.2⟩
        · exact hdd e he x ⟨h, hx.2⟩
    unfold coalesceFrom
    by_cases c1 : CanBeJoinedFree P d = true
    · rw [if_pos c1]
      have hc : isContiguousSameAttribute P d = true := by
        simp only [CanBeJoinedFree, Bool.and_eq_true] at c1; exact c1.1
      exact hmerge (joinFree P d) hc rfl rfl
    · rw [if_neg c1]
      by_cases c2 : CanBeJoinedRt P d = true
      · rw [if_pos c2]
        have hc : isContiguousSameAttribute P d = true := by
          simp only [CanBeJoinedRt, Bool.and_eq_true] at c2; exact c2.1
        exact hmerge (joinRt P d) hc rfl rfl
      · rw [if_neg c2]
        have hw' : ∀ e ∈ d :: ds, rangeEnd e < 2 ^ 64 := fun e he => hw e (by simp [he])
        obtain ⟨r1, r2⟩ := ih d hw' hs' hdj'
        obtain ⟨i1, -, i3⟩ := coalesceFrom_ranges ds d hw'
        refine ⟨List.pairwise_cons.mpr ⟨?_, r1⟩, List.pairwise_cons.mpr ⟨?_, r2⟩⟩
        · intro o ho
          obtain ⟨-, e, he, o2⟩ := i3 o ho
          rw [o2]
          exact hsP e he
        · intro o ho x hx
          obtain ⟨e, he, hxe⟩ := (i1 x).mp ⟨o, ho, hx.2⟩
          exact hdP e he x ⟨hx.1, hxe⟩

/-- Length of the table the pass leaves: one entry less for every merge. -/
theorem coalesceFrom_length : ∀ (l : List EFI_MEMORY_DESCRIPTOR) (P : EFI_MEMORY_DESCRIPTOR),
    (coalesceFrom P l).length + joinCountFrom P l = l.length + 1 := by
  intro l
  induction l with
  | nil => intro P; rfl
  | cons d ds ih =>
    intro P
    unfold coalesceFrom joinCountFrom
    by_cases c1 : CanBeJoinedFree P d = true
    · rw [if_pos c1, if_pos c1]
      have := ih (joinFree P d)
      simp only [List.length_cons]
      omega
    · rw [if_neg c1, if_neg c1]
      by_cases c2 : CanBeJoinedRt P d = true
      · rw [if_pos c2, if_pos c2]
        have := ih (joinRt P d)
        simp only [List.length_cons]
        omega
      · rw [if_neg c2, if_neg c2]
        have := ih d
        simp only [List.length_cons]
        omega

/-- The join tests of the loop say what the specification's merge condition
says, and the joined descriptor is the specification's merged entry. -/
theorem CanBeJoined_iff_mergeCondition (P d : EFI_MEMORY_DESCRIPTOR) :
    ((CanBeJoinedFree P d = true ∨ CanBeJoinedRt P d = true) ↔ mergeCondition P d) ∧
    (CanBeJoinedFree P d = true → joinFree P d = mergedEntry P d) ∧
    (CanBeJoinedFree P d = false → CanBeJoinedRt P d = true → joinRt P d = mergedEntry P d) := by
  refine ⟨?_, ?_, ?_⟩
  · simp only [CanBeJoinedFree, CanBeJoinedRt, isContiguousSameAttribute, mergeCondition,
      endAddress64, Bool.and_eq_true, Bool.or_eq_true, decide_eq_true_eq]
    tauto
  · intro h
    simp only [CanBeJoinedFree, Bool.and_eq_true] at h
    simp only [joinFree, mergedEntry, h.2.2, if_true]
  · intro h1 h2
    have hnf : isFreeType P.MemType = false := by
      simp only [CanBeJoinedRt, Bool.and_eq_true, Bool.or_eq_true, decide_eq_true_eq] at h2
      rcases h2.2 with h | h
      · rw [h.2]; rfl
      · rw [h.2]; rfl
    simp only [joinRt, mergedEntry, hnf, Bool.false_eq_true, if_false]

/-- Descriptors of which the first ends at or below the start of the second
have no address in common. -/
theorem rangesDisjoint_of_le (a b : EFI_MEMORY_DESCRIPTOR)
    (h : rangeEnd a ≤ b.PhysicalStart) : rangesDisjoint a b := by
  intro x hx
  unfold inRange at hx
  omega

/-- On a buffer without descriptors the loop of `OcShrinkMemoryMap`, once
entered, reads outside the buffer. -/
theorem shrinkLoop_nil (n p d m : Nat) (h : Bool) (hn : 0 < n) :
    shrinkLoop n [] p d m h = none := by
  cases n with
  | zero => omega
  | succ k => simp [shrinkLoop]

/-- For a map without descriptors `OcShrinkMemoryMap` enters its loop and reads
outside the map. -/
theorem OcShrinkMemoryMap_nil : OcShrinkMemoryMap [] = none := by
  have h := shrinkLoop_nil (2 ^ 64 - 1) 0 1 1 false (by norm_num)
  unfold OcShrinkMemoryMap
  simp only [List.length_nil, if_true]
  rw [h]

/-- One step of the pass as the specification words it: merge when the merge
condition holds, emit the predecessor otherwise. -/
theorem coalesceFrom_cons_merge (P d : EFI_MEMORY_DESCRIPTOR)
    (ds : List EFI_MEMORY_DESCRIPTOR) :
    coalesceFrom P (d :: ds) =
      if mergeCondition P d then coalesceFrom (mergedEntry P d) ds
      else P :: coalesceFrom d ds := by
  obtain ⟨h1, h2, h3⟩ := CanBeJoined_iff_mergeCondition P d
  rw [coalesceFrom]
  by_cases c1 : CanBeJoinedFree P d = true
  · rw [if_pos c1, if_pos (h1.mp (Or.inl c1)), h2 c1]
  · rw [if_neg c1]
    by_cases c2 : CanBeJoinedRt P d = true
    · rw [if_pos c2, if_pos (h1.mp (Or.inr c2)), h3 (by simpa using c1) c2]
    · rw [if_neg c2, if_neg]
      intro hm
      rcases h1.mpr hm with h | h
      · exact c1 h
      · exact c2 h

/-! ## Sorting: the loops as functions on lists -/

theorem sortInner_eq_innerPass : ∀ (todo pre done : List EFI_MEMORY_DESCRIPTOR)
    (x : EFI_MEMORY_DESCRIPTOR) (e n : Nat), e = pre.length → n = pre.length + 1 + done.length →
    sortInner todo.length (pre ++ x :: (done ++ todo)) e n =
      pre ++ (innerPass x todo).1 :: (done ++ (innerPass x todo).2) := by
  intro todo
  induction todo with
  | nil =>
    intro pre done x e n _ _
    rfl
  | cons y ys ih =>
    intro pre done x e n he hn
    have hx : (pre ++ x :: (done ++ y :: ys)).getD e default = x := by
      rw [he]; exact getD_append_mid pre _ x
    have e1 : pre ++ x :: (done ++ y :: ys) = (pre ++ x :: done) ++ y :: ys := by simp
    have l1 : (pre ++ x :: done).length = n := by simp; omega
    have hy : (pre ++ x :: (done ++ y :: ys)).getD n default = y := by
      rw [e1, ← l1]; exact getD_append_mid _ ys y
    rw [List.length_cons, sortInner, hx, hy, innerPass]
    by_cases hgt : x.PhysicalStart > y.PhysicalStart
    · rw [if_pos hgt, if_pos hgt]
      have s1 : (pre ++ x :: (done ++ y :: ys)).set e y = (pre ++ y :: done) ++ y :: ys := by
        rw [he, set_append_mid]; simp
      have l2 : (pre ++ y :: done).length = n := by simp; omega
      have s2 : ((pre ++ y :: done) ++ y :: ys).set n x = pre ++ y :: ((done ++ [x]) ++ ys) := by
        rw [← l2, set_append_mid]; simp
      show sortInner ys.length (((pre ++ x :: (done ++ y :: ys)).set e y).set n x) e (n + 1) = _
      rw [s1, s2, ih pre (done ++ [x]) y e (n + 1) he (by simp; omega)]
      simp
    · rw [if_neg hgt, if_neg hgt]
      have e2 : pre ++ x :: (done ++ y :: ys) = pre ++ x :: ((done ++ [y]) ++ ys) := by simp
      rw [e2, ih pre (done ++ [y]) x e (n + 1) he (by simp; omega)]
      simp

/-- What one inner pass leaves: the same descriptors, the one at
`MemoryMapEntry` with the least start. -/
theorem innerPass_spec : ∀ (todo : List EFI_MEMORY_DESCRIPTOR) (x : EFI_MEMORY_DESCRIPTOR),
    ((innerPass x todo).1 :: (innerPass x todo).2).Perm (x :: todo) ∧
    (innerPass x todo).1.PhysicalStart ≤ x.PhysicalStart ∧
    (∀ z ∈ (innerPass x todo).2, (innerPass x todo).1.PhysicalStart ≤ z.PhysicalStart) := by
  intro todo
  induction todo with
  | nil =>
    intro x
    exact ⟨List.Perm.refl _, Nat.le_refl _, fun z hz => absurd hz (List.not_mem_nil z)⟩
  | cons y ys ih =>
    intro x
    rw [innerPass]
    by_cases hgt : x.PhysicalStart > y.PhysicalStart
    · rw [if_pos hgt]
      obtain ⟨p, h1, h2⟩ := ih y
      have hx : (innerPass y ys).1.PhysicalStart ≤ x.PhysicalStart := by omega
      refine ⟨?_, hx, ?_⟩
      · exact (List.Perm.swap _ _ _).trans (List.Perm.cons x p)
      · intro z hz
        rcases List.mem_cons.mp hz with rfl | hz
        · show (innerPass y ys).1.PhysicalStart ≤ z.PhysicalStart
          omega
        · exact h2 z hz
    · rw [if_neg hgt]
      obtain ⟨p, h1, h2⟩ := ih x
      refine ⟨?_, h1, ?_⟩
      · exact ((List.Perm.swap _ _ _).trans (List.Perm.cons y p)).trans (List.Perm.swap _ _ _)
      · intro z hz
        rcases List.mem_cons.mp hz with rfl | hz
        · show (innerPass x ys).1.PhysicalStart ≤ z.PhysicalStart
          omega
        · exact h2 z hz

/-- An inner pass from a descriptor with the least start exchanges nothing. -/
theorem innerPass_of_le : ∀ (todo : List EFI_MEMORY_DESCRIPTOR) (x : EFI_MEMORY_DESCRIPTOR),
    (∀ z ∈ todo, x.PhysicalStart ≤ z.PhysicalStart) → innerPass x todo = (x, todo) := by
  intro todo
  induction todo with
  | nil => intro x _; rfl
  | cons y ys ih =>
    intro x h
    have hy := h y (by simp)
    rw [innerPass, if_neg (by omega), ih x (fun z hz => h z (by simp [hz]))]

theorem sortOuter_eq_sortPasses : ∀ (k : Nat) (pre rest : List EFI_MEMORY_DESCRIPTOR),
    rest.length = k → sortOuter k (pre ++ rest) pre.length = pre ++ sortPasses k rest := by
  intro k
  induction k with
  | zero => intro pre rest _; rfl
  | succ k ih =>
    intro pre rest hl
    cases rest with
    | nil => simp at hl
    | cons x xs =>
      have hk : xs.length = k := by simpa using hl
      have hin := sortInner_eq_innerPass xs pre [] x pre.length (pre.length + 1) rfl rfl
      rw [hk] at hin
      simp only [List.nil_append] at hin
      have hlen : (innerPass x xs).2.length = k := by
        have := (innerPass_spec xs x).1.length_eq
        simp only [List.length_cons] at this
        omega
      have e1 : pre ++ (innerPass x xs).1 :: (innerPass x xs).2 =
          (pre ++ [(innerPass x xs).1]) ++ (innerPass x xs).2 := by simp
      have l1 : (pre ++ [(innerPass x xs).1]).length = pre.length + 1 := by simp
      rw [sortOuter, hin, e1, ← l1, ih _ _ hlen, sortPasses]
      simp

theorem OcSortMemoryMap_eq_sortPasses (T : List EFI_MEMORY_DESCRIPTOR) :
    OcSortMemoryMap T = sortPasses T.length T :=
  sortOuter_eq_sortPasses T.length [] T rfl

/-- The passes leave a permutation of the descriptors, in ascending order of
start. -/
theorem sortPasses_spec : ∀ (k : Nat) (l : List EFI_MEMORY_DESCRIPTOR), l.length = k →
    (sortPasses k l).Perm l ∧
    (sortPasses k l).Pairwise (fun a b => a.PhysicalStart ≤ b.PhysicalStart) := by
  intro k
  induction k with
  | zero =>
    intro l hl
    have : l = [] := List.length_eq_zero.mp hl
    subst this
    exact ⟨List.Perm.refl _, List.Pairwise.nil⟩
  | succ k ih =>
    intro l hl
    cases l with
    | nil => simp at hl
    | cons x xs =>
      obtain ⟨p, -, hmin⟩ := innerPass_spec xs x
      have hlen : (innerPass x xs).2.length = k := by
        have := p.length_eq
        simp only [List.length_cons] at this hl
        omega
      obtain ⟨q, s⟩ := ih _ hlen
      rw [sortPasses]
      refine ⟨(List.Perm.cons _ q).trans p, List.pairwise_cons.mpr ⟨?_, s⟩⟩
      intro z hz
      exact hmin z (q.subset hz)

/-- The passes exchange nothing in a table in ascending order of start. -/
theorem sortPasses_of_sorted : ∀ (k : Nat) (l : List EFI_MEMORY_DESCRIPTOR),
    l.Pairwise (fun a b => a.PhysicalStart ≤ b.PhysicalStart) → sortPasses k l = l := by
  intro k
  induction k with
  | zero => intro l _; rfl
  | succ k ih =>
    intro l hs
    cases l with
    | nil => rfl
    | cons x xs =>
      obtain ⟨h1, h2⟩ := List.pairwise_cons.mp hs
      rw [sortPasses, innerPass_of_le xs x h1, ih xs h2]

/-- Two tables in ascending order of start with the same descriptors, no two
of which start at the same address, are the same table. -/
theorem sorted_perm_unique (l1 l2 : List EFI_MEMORY_DESCRIPTOR) (hp : l1.Perm l2)
    (hd : l1.Pairwise (fun a b => a.PhysicalStart ≠ b.PhysicalStart))
    (h1 : l1.Pairwise (fun a b => a.PhysicalStart ≤ b.PhysicalStart))
    (h2 : l2.Pairwise (fun a b => a.PhysicalStart ≤ b.PhysicalStart)) : l1 = l2 := by
  have hd2 : l2.Pairwise (fun a b => a.PhysicalStart ≠ b.PhysicalStart) :=
    hp.pairwise hd (fun h => Ne.symm h)
  have s1 : l1.Pairwise (fun a b => a.PhysicalStart < b.PhysicalStart) :=
    (h1.and hd).imp (fun h => Nat.lt_of_le_of_ne h.1 h.2)
  have s2 : l2.Pairwise (fun a b => a.PhysicalStart < b.PhysicalStart) :=
    (h2.and hd2).imp (fun h => Nat.lt_of_le_of_ne h.1 h.2)
  haveI : IsAntisymm EFI_MEMORY_DESCRIPTOR (fun a b => a.PhysicalStart < b.PhysicalStart) :=
    ⟨fun a b hab hba => absurd hab (Nat.lt_asymm hba)⟩
  exact List.eq_of_perm_of_sorted hp s1 s2

/-! ## Allocation from the top: the test, the candidate, the scan -/

/-- For a descriptor whose range ends below `2 ^ 64` the test of
`AllocatePagesFromTop` says: conventional, enough pages, and the requested size
from the start ends at or below `Memory`. -/
theorem qualifies_iff (E : EFI_MEMORY_DESCRIPTOR) (Pages Memory : Nat)
    (hE : rangeEnd E < 2 ^ 64) :
    qualifies E Pages Memory = true ↔
      (E.MemType = EfiConventionalMemory ∧ Pages ≤ E.NumberOfPages ∧
        E.PhysicalStart + Pages * 4096 ≤ Memory) := by
  unfold rangeEnd at hE
  simp only [qualifies, EFI_PAGES_TO_SIZE, Bool.and_eq_true, decide_eq_true_eq]
  constructor
  · rintro ⟨⟨h1, h2⟩, h3⟩
    exact ⟨h1, h2, by omega⟩
  · rintro ⟨h1, h2, h3⟩
    exact ⟨⟨h1, h2⟩, by omega⟩

/-- The candidate of a descriptor that passed the test, in exact arithmetic. -/
theorem candidateAddress_spec (E : EFI_MEMORY_DESCRIPTOR) (Pages Memory : Nat)
    (hE : rangeEnd E < 2 ^ 64) (hM : Memory < 2 ^ 64) (hp : Pages ≤ E.NumberOfPages)
    (hs : E.PhysicalStart + Pages * 4096 ≤ Memory) :
    (rangeEnd E ≤ Memory → candidateAddress E Pages Memory = rangeEnd E - Pages * 4096) ∧
    (Memory < rangeEnd E → candidateAddress E Pages Memory = Memory - Pages * 4096) ∧
    E.PhysicalStart ≤ candidateAddress E Pages Memory ∧
    candidateAddress E Pages Memory + Pages * 4096 ≤ min (rangeEnd E) Memory := by
  unfold rangeEnd at *
  have e1 : (E.PhysicalStart + EFI_PAGES_TO_SIZE E.NumberOfPages) % 2 ^ 64 =
      E.PhysicalStart + E.NumberOfPages * 4096 := by
    unfold EFI_PAGES_TO_SIZE; omega
  have e2 : (E.PhysicalStart + EFI_PAGES_TO_SIZE (E.NumberOfPages - Pages)) % 2 ^ 64 =
      E.PhysicalStart + E.NumberOfPages * 4096 - Pages * 4096 := by
    unfold EFI_PAGES_TO_SIZE; omega
  have e3 : (Memory + (2 ^ 64 - EFI_PAGES_TO_SIZE Pages)) % 2 ^ 64 = Memory - Pages * 4096 := by
    unfold EFI_PAGES_TO_SIZE; omega
  unfold candidateAddress
  rw [e1, e2, e3]
  by_cases h : E.PhysicalStart + E.NumberOfPages * 4096 ≤ Memory
  · rw [if_pos h]
    refine ⟨fun _ => rfl, fun h2 => by omega, by omega, ?_⟩
    rw [Nat.min_def, if_pos h]; omega
  · rw [if_neg h]
    refine ⟨fun h2 => absurd h2 h, fun _ => rfl, by omega, ?_⟩
    rw [Nat.min_def, if_neg h]; omega

/-- The scan without a conflict check: either no descriptor below position `n`
passes the test and the result is `EFI_NOT_FOUND` with no allocation, or the
highest position below `n` that passes the test gets the one allocation, at its
candidate, and the status of that allocation is the result. -/
theorem allocateScan_none_cases (MemoryType Pages : Nat)
    (AllocatePages : Nat → Nat → Nat → EFI_STATUS) (T : List EFI_MEMORY_DESCRIPTOR)
    (Memory : Nat) : ∀ n : Nat,
    ((∀ i, i < n → qualifies (T.getD i default) Pages Memory = false) ∧
      allocateScan MemoryType Pages none AllocatePages T n Memory =
        ⟨EFI_STATUS.EFI_NOT_FOUND, Memory, []⟩) ∨
    (∃ i, i < n ∧ qualifies (T.getD i default) Pages Memory = true ∧
      (∀ j, i < j → j < n → qualifies (T.getD j default) Pages Memory = false) ∧
      allocateScan MemoryType Pages none AllocatePages T n Memory =
        ⟨AllocatePages MemoryType Pages (candidateAddress (T.getD i default) Pages Memory),
         candidateAddress (T.getD i default) Pages Memory,
         [(MemoryType, Pages, candidateAddress (T.getD i default) Pages Memory)]⟩) := by
  intro n
  induction n with
  | zero => exact Or.inl ⟨fun i hi => absurd hi (Nat.not_lt_zero i), rfl⟩
  | succ n ih =>
    by_cases hq : qualifies (T.getD n default) Pages Memory = true
    · refine Or.inr ⟨n, Nat.lt_succ_self n, hq, fun j h1 h2 => by omega, ?_⟩
      simp only [allocateScan, hq, if_true, Bool.false_eq_true, if_false]
    · have hq2 : qualifies (T.getD n default) Pages Memory = false := by simpa using hq
      have hstep : allocateScan MemoryType Pages none AllocatePages T (n + 1) Memory =
          allocateScan MemoryType Pages none AllocatePages T n Memory := by
        simp only [allocateScan, hq2, Bool.false_eq_true, if_false]
      rw [hstep]
      rcases ih with ⟨h1, h2⟩ | ⟨i, h1, h2, h3, h4⟩
      · refine Or.inl ⟨?_, h2⟩
        intro i hi
        rcases Nat.lt_succ_iff_lt_or_eq.mp hi with h | h
        · exact h1 i h
        · rw [h]; exact hq2
      · refine Or.inr ⟨i, Nat.lt_succ_of_lt h1, h2, ?_, h4⟩
        intro j hj1 hj2
        rcases Nat.lt_succ_iff_lt_or_eq.mp hj2 with h | h
        · exact h3 j hj1 h
        · rw [h]; exact hq2

/-- In a table whose entries end below `2 ^ 64`, a range that fits below the
ceiling lies in an entry that passes the test. -/
theorem fitsBelow_qualifies (T : List EFI_MEMORY_DESCRIPTOR) (Pages Ceiling b : Nat)
    (hwrap : ∀ d ∈ T, rangeEnd d < 2 ^ 64) (hb : fitsBelow T Pages Ceiling b) :
    ∃ k, k < T.length ∧ qualifies (T.getD k default) Pages Ceiling = true ∧
      (T.getD k default).PhysicalStart ≤ b ∧ b + Pages * 4096 ≤ rangeEnd (T.getD k default) := by
  obtain ⟨⟨E, hE, h1, h2, h3⟩, h4⟩ := hb
  obtain ⟨k, hk, rfl⟩ := List.getElem_of_mem hE
  refine ⟨k, hk, ?_⟩
  rw [List.getD_eq_getElem T default hk]
  refine ⟨(qualifies_iff _ Pages Ceiling (hwrap _ hE)).mpr ⟨h1, ?_, by omega⟩, h2, h3⟩
  unfold rangeEnd at h3
  omega

/-- In a sorted table without overlaps whose entries end below `2 ^ 64`, the
candidate of the highest entry that passes the test is the greatest address at
which the requested range fits below the ceiling. -/
theorem candidate_greatest (T : List EFI_MEMORY_DESCRIPTOR) (Pages Ceiling i : Nat)
    (hsorted : SortedDisjoint T) (hwrap : ∀ d ∈ T, rangeEnd d < 2 ^ 64)
    (hC : Ceiling < 2 ^ 64) (hi : i < T.length)
    (hq : qualifies (T.getD i default) Pages Ceiling = true)
    (hlast : ∀ j, i < j → j < T.length → qualifies (T.getD j default) Pages Ceiling = false) :
    fitsBelow T Pages Ceiling (candidateAddress (T.getD i default) Pages Ceiling) ∧
    ∀ b, fitsBelow T Pages Ceiling b → b ≤ candidateAddress (T.getD i default) Pages Ceiling := by
  have hmem : T.getD i default ∈ T := by
    rw [List.getD_eq_getElem T default hi]; exact List.getElem_mem hi
  have hEi := hwrap _ hmem
  obtain ⟨q1, q2, q3⟩ := (qualifies_iff _ Pages Ceiling hEi).mp hq
  obtain ⟨c1, c2, c3, c4⟩ := candidateAddress_spec _ Pages Ceiling hEi hC q2 q3
  have c5 : min (rangeEnd (T.getD i default)) Ceiling ≤
      candidateAddress (T.getD i default) Pages Ceiling + Pages * 4096 := by
    have hsz : Pages * 4096 ≤ rangeEnd (T.getD i default) := by unfold rangeEnd; omega
    by_cases h : rangeEnd (T.getD i default) ≤ Ceiling
    · rw [c1 h, Nat.min_def, if_pos h]; omega
    · rw [c2 (by omega), Nat.min_def, if_neg h]; omega
  refine ⟨⟨⟨_, hmem, q1, c3, ?_⟩, ?_⟩, ?_⟩
  · exact Nat.le_trans c4 (Nat.min_le_left _ _)
  · exact Nat.le_trans c4 (Nat.min_le_right _ _)
  · intro b hb
    have hbC := hb.2
    obtain ⟨k, hk, k1, k2, k3⟩ := fitsBelow_qualifies T Pages Ceiling b hwrap hb
    rcases Nat.lt_trichotomy k i with hlt | heq | hgt
    · have hp := List.pairwise_iff_getElem.mp hsorted k i hk hi hlt
      rw [← List.getD_eq_getElem T default hk, ← List.getD_eq_getElem T default hi] at hp
      omega
    · rw [heq] at k3
      have : b + Pages * 4096 ≤ min (rangeEnd (T.getD i default)) Ceiling :=
        Nat.le_min.mpr ⟨k3, hbC⟩
      omega
    · rw [hlast k hgt hk] at k1
      exact absurd k1 (by decide)

/-- Below the top of the address space the candidate is the one of the
specification. For a conventional entry `E` whose range ends below `2 ^ 64`, with at
least the requested pages and `E.start + requestedSize <= ceiling`, the entry
passes the test of `AllocatePagesFromTop` and its candidate is
`E.end - requestedSize` when `E.end <= ceiling` and `ceiling - requestedSize`
when `E` straddles the ceiling; in both cases `E.start <= candidate` and
`candidate + requestedSize <= min (E.end, ceiling)`. On the snapshot `[E]`
without conflict check the one allocation of `AllocatePagesFromTop` is made at
that candidate, which is left in `*Memory`. -/
theorem candidate_address_in_entry (E : EFI_MEMORY_DESCRIPTOR)
    (MemoryType Pages Ceiling : Nat) (AllocatePages : Nat → Nat → Nat → EFI_STATUS)
    (hE : rangeEnd E < 2 ^ 64) (hC : Ceiling < 2 ^ 64)
    (hconv : E.MemType = EfiConventionalMemory) (hp : Pages ≤ E.NumberOfPages)
    (hs : E.PhysicalStart + Pages * 4096 ≤ Ceiling) :
    qualifies E Pages Ceiling = true ∧
    (rangeEnd E ≤ Ceiling → candidateAddress E Pages Ceiling = rangeEnd E - Pages * 4096) ∧
    (Ceiling < rangeEnd E → candidateAddress E Pages Ceiling = Ceiling - Pages * 4096) ∧
    E.PhysicalStart ≤ candidateAddress E Pages Ceiling ∧
    candidateAddress E Pages Ceiling + Pages * 4096 ≤ min (rangeEnd E) Ceiling ∧
    AllocatePagesFromTop MemoryType Pages Ceiling (EFI_STATUS.EFI_SUCCESS, [E]) none
        AllocatePages =
      ⟨AllocatePages MemoryType Pages (candidateAddress E Pages Ceiling),
       candidateAddress E Pages Ceiling,
       [(MemoryType, Pages, candidateAddress E Pages Ceiling)]⟩ := by
  have hq := (qualifies_iff E Pages Ceiling hE).mpr ⟨hconv, hp, hs⟩
  obtain ⟨c1, c2, c3, c4⟩ := candidateAddress_spec E Pages Ceiling hE hC hp hs
  refine ⟨hq, c1, c2, c3, c4, ?_⟩
  have hg : [E].getD 0 default = E := rfl
  simp only [AllocatePagesFromTop, EFI_ERROR, ne_eq, not_true_eq_false, decide_False,
    Bool.false_eq_true, if_false, List.length_singleton, allocateScan, hg, hq, if_true]

/-- Below the top of the address space the allocation is the greatest fit. For a
sorted table without overlaps (each entry ends at or below the
start of every later entry, and below `2 ^ 64`), a ceiling below `2 ^ 64` and
no conflict check: when `AllocatePagesFromTop` makes its allocation at an
address `a`, the range `[a, a + requestedSize)` lies inside a single
conventional entry and ends at or below the ceiling, every address `b` with
that property is at most `a`, and `a` is the value left in `*Memory`. -/
theorem allocation_is_greatest_fit (T : List EFI_MEMORY_DESCRIPTOR)
    (MemoryType Pages Ceiling a : Nat) (AllocatePages : Nat → Nat → Nat → EFI_STATUS)
    (hsorted : SortedDisjoint T) (hwrap : ∀ d ∈ T, rangeEnd d < 2 ^ 64)
    (hC : Ceiling < 2 ^ 64)
    (hsel : (AllocatePagesFromTop MemoryType Pages Ceiling (EFI_STATUS.EFI_SUCCESS, T) none
      AllocatePages).Allocations = [(MemoryType, Pages, a)]) :
    fitsBelow T Pages Ceiling a ∧ (∀ b, fitsBelow T Pages Ceiling b → b ≤ a) ∧
    (AllocatePagesFromTop MemoryType Pages Ceiling (EFI_STATUS.EFI_SUCCESS, T) none
      AllocatePages).Memory = a := by
  have hrun : AllocatePagesFromTop MemoryType Pages Ceiling (EFI_STATUS.EFI_SUCCESS, T) none
      AllocatePages = allocateScan MemoryType Pages none AllocatePages T T.length Ceiling := by
    simp [AllocatePagesFromTop, EFI_ERROR]
  rw [hrun] at hsel ⊢
  rcases allocateScan_none_cases MemoryType Pages AllocatePages T Ceiling T.length with
    ⟨-, h2⟩ | ⟨i, hi, hq, hlast, h4⟩
  · rw [h2] at hsel
    simp at hsel
  · rw [h4] at hsel ⊢
    have ha : candidateAddress (T.getD i default) Pages Ceiling = a := by
      simpa using hsel
    obtain ⟨g1, g2⟩ := candidate_greatest T Pages Ceiling i hsorted hwrap hC hi hq hlast
    rw [ha] at g1 g2
    exact ⟨g1, g2, ha⟩

/-- On a sorted table without overlaps whose entries end below `2 ^ 64` the scan
of `AllocatePagesFromTop` with a conflict check agrees with the scan of the
specification: the candidate a rejection leaves in `*Memory` is at or above the
end of every entry still to scan, so those entries pass the test as they do
against the ceiling of the caller, with the same candidates. -/
theorem allocateScan_eq_selectFromTop (T : List EFI_MEMORY_DESCRIPTOR)
    (MemoryType Pages Ceiling : Nat) (Check : Nat → Nat → Bool)
    (AllocatePages : Nat → Nat → Nat → EFI_STATUS)
    (hsorted : SortedDisjoint T) (hwrap : ∀ d ∈ T, rangeEnd d < 2 ^ 64)
    (hC : Ceiling < 2 ^ 64) : ∀ (n Memory : Nat), n ≤ T.length →
    (Memory = Ceiling ∨
      (Memory ≤ Ceiling ∧ ∀ i, i < n → rangeEnd (T.getD i default) ≤ Memory)) →
    ((allocateScan MemoryType Pages (some Check) AllocatePages T n Memory).Status,
      (allocateScan MemoryType Pages (some Check) AllocatePages T n Memory).Allocations) =
      match selectFromTop Pages Ceiling Check T n with
      | some a => (AllocatePages MemoryType Pages a, [(MemoryType, Pages, a)])
      | none => (EFI_STATUS.EFI_NOT_FOUND, []) := by
  intro n
  induction n with
  | zero => intro Memory _ _; rfl
  | succ n ih =>
    intro Memory hn hinv
    have hn1 : n < T.length := by omega
    have hmem : T.getD n default ∈ T := by
      rw [List.getD_eq_getElem T default hn1]; exact List.getElem_mem hn1
    have hE := hwrap _ hmem
    have hMC : Memory ≤ Ceiling := by
      rcases hinv with h | h
      · omega
      · exact h.1
    have hbelow : ∀ i, i < n → rangeEnd (T.getD i default) ≤ (T.getD n default).PhysicalStart := by
      intro i hi
      have := List.pairwise_iff_getElem.mp hsorted i n (by omega) hn1 hi
      rw [List.getD_eq_getElem T default (by omega), List.getD_eq_getElem T default hn1]
      exact this
    have hsame : qualifies (T.getD n default) Pages Memory =
        qualifies (T.getD n default) Pages Ceiling ∧
        (qualifies (T.getD n default) Pages Ceiling = true →
          candidateAddress (T.getD n default) Pages Memory =
            candidateAddress (T.getD n default) Pages Ceiling) := by
      rcases hinv with h | ⟨-, h⟩
      · rw [h]; exact ⟨rfl, fun _ => rfl⟩
      · have hend := h n (Nat.lt_succ_self n)
        refine ⟨?_, ?_⟩
        · rw [Bool.eq_iff_iff, qualifies_iff _ _ _ hE, qualifies_iff _ _ _ hE]
          unfold rangeEnd at hend
          constructor
          · rintro ⟨a, b, c⟩; exact ⟨a, b, by omega⟩
          · rintro ⟨a, b, c⟩; exact ⟨a, b, by omega⟩
        · intro hq
          obtain ⟨-, q2, q3⟩ := (qualifies_iff _ _ _ hE).mp hq
          have q3m : (T.getD n default).PhysicalStart + Pages * 4096 ≤ Memory := by
            unfold rangeEnd at hend; omega
          rw [(candidateAddress_spec _ Pages Memory hE (by omega) q2 q3m).1 hend,
            (candidateAddress_spec _ Pages Ceiling hE hC q2 q3).1 (by omega)]
    by_cases hq : qualifies (T.getD n default) Pages Ceiling = true
    · have hqm : qualifies (T.getD n default) Pages Memory = true := by rw [hsame.1]; exact hq
      have hcm := hsame.2 hq
      obtain ⟨-, q2, q3⟩ := (qualifies_iff _ _ _ hE).mp hq
      obtain ⟨-, -, c3, c4⟩ := candidateAddress_spec _ Pages Ceiling hE hC q2 q3
      by_cases hrej : Check (candidateAddress (T.getD n default) Pages Ceiling)
          (EFI_PAGES_TO_SIZE Pages) = true
      · have hnext := ih (candidateAddress (T.getD n default) Pages Ceiling) (by omega)
          (Or.inr ⟨Nat.le_trans (Nat.le_add_right _ _) (Nat.le_trans c4 (Nat.min_le_right _ _)),
            fun i hi => Nat.le_trans (hbelow i hi) c3⟩)
        simp only [allocateScan, selectFromTop, hqm, hcm, hrej, hq, if_true, true_and,
          Bool.true_eq_false, if_false]
        exact hnext
      · have hrej2 : Check (candidateAddress (T.getD n default) Pages Ceiling)
            (EFI_PAGES_TO_SIZE Pages) = false := by simpa using hrej
        simp only [allocateScan, selectFromTop, hqm, hcm, hrej2, hq, if_true, and_self,
          Bool.false_eq_true, if_false]
    · have hq2 : qualifies (T.getD n default) Pages Ceiling = false := by simpa using hq
      have hqm : qualifies (T.getD n default) Pages Memory = false := by rw [hsame.1]; exact hq2
      have hnext := ih Memory (by omega) (by
        rcases hinv with h | ⟨h1, h2⟩
        · exact Or.inl h
        · exact Or.inr ⟨h1, fun i hi => h2 i (Nat.lt_succ_of_lt hi)⟩)
      simp only [allocateScan, selectFromTop, hqm, hq2, Bool.false_eq_true, if_false, false_and]
      exact hnext

/-! ## Updating an entry, counting runtime pages -/

/-- Bit by bit: a bit of the updated attributes is set when it was set or is
in `SetAttributes`, and is not in `DropAttributes`. -/
theorem updatedAttribute_testBit (a s d k : Nat) (hk : k < 64) :
    (updatedAttribute a s d).testBit k = ((a.testBit k || s.testBit k) && !d.testBit k) := by
  unfold updatedAttribute
  rw [Nat.testBit_and, Nat.testBit_or, Nat.testBit_xor, Nat.testBit_two_pow_sub_one]
  simp [hk]

/-- The containment test with an area of one byte, for a descriptor that ends
below `2 ^ 64` and an address below `2 ^ 64 - 1`: the address lies in the
range. -/
theorem AREA_WITHIN_DESCRIPTOR_one (d : EFI_MEMORY_DESCRIPTOR) (Address : Nat)
    (hd : rangeEnd d < 2 ^ 64) (hA : Address + 1 < 2 ^ 64) :
    AREA_WITHIN_DESCRIPTOR d Address 1 = true ↔ inRange d Address := by
  unfold rangeEnd at hd
  simp only [AREA_WITHIN_DESCRIPTOR, EFI_PAGES_TO_SIZE, Bool.and_eq_true, decide_eq_true_eq,
    inRange, rangeEnd]
  omega

/-- What `OcUpdateDescriptors` does when no descriptor passes the test. -/
theorem OcUpdateDescriptors_none : ∀ (T : List EFI_MEMORY_DESCRIPTOR) (x t s d : Nat),
    (∀ e ∈ T, AREA_WITHIN_DESCRIPTOR e x 1 = false) →
    OcUpdateDescriptors T x t s d = (EFI_STATUS.EFI_NOT_FOUND, T) := by
  intro T
  induction T with
  | nil => intro x t s d _; rfl
  | cons e es ih =>
    intro x t s d h
    rw [OcUpdateDescriptors, h e (by simp), ih x t s d (fun e' he' => h e' (by simp [he']))]
    simp

/-- What `OcUpdateDescriptors` does at the first descriptor that passes the
test. -/
theorem OcUpdateDescriptors_first : ∀ (pre post : List EFI_MEMORY_DESCRIPTOR)
    (e : EFI_MEMORY_DESCRIPTOR) (x t s d : Nat),
    (∀ p ∈ pre, AREA_WITHIN_DESCRIPTOR p x 1 = false) → AREA_WITHIN_DESCRIPTOR e x 1 = true →
    OcUpdateDescriptors (pre ++ e :: post) x t s d =
      (EFI_STATUS.EFI_SUCCESS,
        pre ++ { e with MemType := t, Attribute := updatedAttribute e.Attribute s d } :: post) := by
  intro pre
  induction pre with
  | nil =>
    intro post e x t s d _ he
    simp [OcUpdateDescriptors, he]
  | cons p ps ih =>
    intro post e x t s d h he
    rw [List.cons_append, OcUpdateDescriptors, h p (by simp),
      ih post e x t s d (fun p' hp' => h p' (by simp [hp'])) he]
    simp

/-- The first descriptor of a table that passes a test, with the descriptors
before and after it. -/
theorem exists_first_passing (f : EFI_MEMORY_DESCRIPTOR → Bool) :
    ∀ (T : List EFI_MEMORY_DESCRIPTOR), (∃ e ∈ T, f e = true) →
    ∃ pre e post, T = pre ++ e :: post ∧ (∀ p ∈ pre, f p = false) ∧ f e = true := by
  intro T
  induction T with
  | nil => rintro ⟨e, he, -⟩; simp at he
  | cons a as ih =>
    intro h
    by_cases ha : f a = true
    · exact ⟨[], a, as, rfl, fun p hp => by simp at hp, ha⟩
    · obtain ⟨e, he, hfe⟩ := h
      have he' : e ∈ as := by
        rcases List.mem_cons.mp he with rfl | he
        · exact absurd hfe ha
        · exact he
      obtain ⟨pre, e', post, h1, h2, h3⟩ := ih ⟨e, he', hfe⟩
      refine ⟨a :: pre, e', post, by rw [h1]; rfl, ?_, h3⟩
      intro p hp
      rcases List.mem_cons.mp hp with rfl | hp
      · simpa using ha
      · exact h2 p hp

/-- The loop of `CountRuntimePages`: the counters grow by the number and by the
pages of the descriptors that pass the test, in 64-bit arithmetic. -/
theorem countRuntimeLoop_eq : ∀ (T : List EFI_MEMORY_DESCRIPTOR) (n p : Nat),
    n < 2 ^ 64 → p < 2 ^ 64 →
    countRuntimeLoop T n p =
      ((n + (T.filter isCountedRuntime).length) % 2 ^ 64,
       (p + totalPages (T.filter isCountedRuntime)) % 2 ^ 64) := by
  intro T
  induction T with
  | nil =>
    intro n p hn hp
    simp only [countRuntimeLoop, List.filter_nil, List.length_nil, totalPages, List.map_nil,
      List.sum_nil, Nat.add_zero]
    rw [Nat.mod_eq_of_lt hn, Nat.mod_eq_of_lt hp]
  | cons d ds ih =>
    intro n p hn hp
    rw [countRuntimeLoop]
    by_cases hd : isCountedRuntime d = true
    · rw [if_pos hd, List.filter_cons_of_pos hd,
        ih _ _ (Nat.mod_lt _ (by norm_num)) (Nat.mod_lt _ (by norm_num))]
      simp only [totalPages, List.length_cons, List.map_cons, List.sum_cons]
      refine Prod.ext ?_ ?_
      · show _ % _ = _ % _
        omega
      · show _ % _ = _ % _
        omega
    · rw [if_neg hd, List.filter_cons_of_neg hd, ih n p hn hp]

/-! ## Acquiring the memory map: the retry loop -/

/-- The loop of `GetCurrentMemoryMapAlloc` with the buffer from the pool, from
pass `c` on: when the firmware answers `EFI_BUFFER_TOO_SMALL` in the `d` passes
from `c` on and `EFI_SUCCESS` in pass `c + d`, and the pool gives the buffer in
each of these passes, the loop returns with the map of pass `c + d`, the
buffers of the `d` passes before it released. -/
theorem memoryMapAllocLoop_retries (GetMemoryMap : Nat → Nat → GET_MEMORY_MAP_RESULT)
    (AllocatePool : Nat → Nat → Bool)
    (Snapshot : Nat → EFI_STATUS × List EFI_MEMORY_DESCRIPTOR)
    (AllocatePages : Nat → Nat → Nat → EFI_STATUS) : ∀ (d c M fuel : Nat) (R : List Nat),
    (M + 512) % 2 ^ 64 = requestSize GetMemoryMap c → d < fuel →
    (∀ j, c ≤ j → j < c + d →
      (GetMemoryMap j (requestSize GetMemoryMap j)).Status = EFI_STATUS.EFI_BUFFER_TOO_SMALL) →
    (GetMemoryMap (c + d) (requestSize GetMemoryMap (c + d))).Status = EFI_STATUS.EFI_SUCCESS →
    (∀ j, c ≤ j → j ≤ c + d → AllocatePool j (requestSize GetMemoryMap j) = true) →
    memoryMapAllocLoop GetMemoryMap AllocatePool Snapshot AllocatePages fuel c M none R =
      some ⟨EFI_STATUS.EFI_SUCCESS,
        (GetMemoryMap (c + d) (requestSize GetMemoryMap (c + d))).MemoryMapSize,
        some (GetMemoryMap (c + d) (requestSize GetMemoryMap (c + d))).MemoryMap, none,
        R ++ List.range' c d⟩ := by
  intro d
  induction d with
  | zero =>
    intro c M fuel R hM hf _ hok hal
    obtain ⟨f, rfl⟩ : ∃ f, fuel = f + 1 := ⟨fuel - 1, by omega⟩
    have hal0 := hal c (Nat.le_refl c) (Nat.le_refl c)
    simp only [Nat.add_zero] at hok ⊢
    have hE : EFI_ERROR EFI_STATUS.EFI_SUCCESS = false := rfl
    simp only [memoryMapAllocLoop, hM, hal0, hok, hE, Bool.false_eq_true, if_false,
      reduceCtorEq, Bool.true_eq_false, List.range'_zero, List.append_nil]
  | succ d ih =>
    intro c M fuel R hM hf hbts hok hal
    obtain ⟨f, rfl⟩ : ∃ f, fuel = f + 1 := ⟨fuel - 1, by omega⟩
    have hal0 := hal c (Nat.le_refl c) (by omega)
    have hb0 := hbts c (Nat.le_refl c) (by omega)
    have hstep : memoryMapAllocLoop GetMemoryMap AllocatePool Snapshot AllocatePages (f + 1) c M
          none R =
        memoryMapAllocLoop GetMemoryMap AllocatePool Snapshot AllocatePages f (c + 1)
          (GetMemoryMap c (requestSize GetMemoryMap c)).MemoryMapSize none (R ++ [c]) := by
      simp only [memoryMapAllocLoop, hM, hal0, hb0, Bool.true_eq_false, if_false, if_true]
    have hcd : c + (d + 1) = c + 1 + d := by omega
    rw [hstep, hcd]
    have hR : R ++ List.range' c (d + 1) = (R ++ [c]) ++ List.range' (c + 1) d := by
      rw [List.range'_succ]; simp
    rw [hR]
    refine ih (c + 1) _ f (R ++ [c]) rfl (by omega) ?_ ?_ ?_
    · intro j h1 h2
      exact hbts j (by omega) (by omega)
    · rw [← hcd]; exact hok
    · intro j h1 h2
      exact hal j (by omega) (by omega)

/-- `OcGetCurrentMemoryMap` case by case: it returns a memory map exactly when the
query of the size answers `EFI_BUFFER_TOO_SMALL`, the size with the slack fits in
64 bits, the pool gives the buffer, and the one fill call, made with that size,
does not fail; the map is the one of that call. -/
theorem OcGetCurrentMemoryMap_some_iff (GetMemoryMap : Nat → Nat → GET_MEMORY_MAP_RESULT)
    (AllocatePool : Nat → Bool) (MemoryAttributes : Option (List EFI_MEMORY_DESCRIPTOR))
    (IncludeSplitSpace : Bool) (out : List EFI_MEMORY_DESCRIPTOR × Nat × Nat) :
    OcGetCurrentMemoryMap GetMemoryMap AllocatePool MemoryAttributes IncludeSplitSpace =
        some out ↔
      ((GetMemoryMap 0 0).Status = EFI_STATUS.EFI_BUFFER_TOO_SMALL ∧
       (GetMemoryMap 0 0).MemoryMapSize +
         snapshotSlack (GetMemoryMap 0 0).DescriptorSize MemoryAttributes IncludeSplitSpace
           < 2 ^ 64 ∧
       AllocatePool ((GetMemoryMap 0 0).MemoryMapSize +
         snapshotSlack (GetMemoryMap 0 0).DescriptorSize MemoryAttributes IncludeSplitSpace)
           = true ∧
       EFI_ERROR (GetMemoryMap 1 ((GetMemoryMap 0 0).MemoryMapSize +
         snapshotSlack (GetMemoryMap 0 0).DescriptorSize MemoryAttributes
           IncludeSplitSpace)).Status = false ∧
       out = ((GetMemoryMap 1 ((GetMemoryMap 0 0).MemoryMapSize +
           snapshotSlack (GetMemoryMap 0 0).DescriptorSize MemoryAttributes
             IncludeSplitSpace)).MemoryMap,
         (GetMemoryMap 1 ((GetMemoryMap 0 0).MemoryMapSize +
           snapshotSlack (GetMemoryMap 0 0).DescriptorSize MemoryAttributes
             IncludeSplitSpace)).MemoryMapSize,
         (GetMemoryMap 0 0).MemoryMapSize +
           snapshotSlack (GetMemoryMap 0 0).DescriptorSize MemoryAttributes
             IncludeSplitSpace)) := by
  have hS : snapshotSlack (GetMemoryMap 0 0).DescriptorSize MemoryAttributes IncludeSplitSpace =
      max (((GetMemoryMap 0 0).DescriptorSize + (if IncludeSplitSpace then
          (OcCountSplitDescritptors MemoryAttributes * (GetMemoryMap 0 0).DescriptorSize)
            % 2 ^ 64 else 0)) % 2 ^ 64)
        ((1024 + (if IncludeSplitSpace then
          (OcCountSplitDescritptors MemoryAttributes * (GetMemoryMap 0 0).DescriptorSize)
            % 2 ^ 64 else 0)) % 2 ^ 64) := rfl
  unfold OcGetCurrentMemoryMap
  simp only [← hS]
  generalize snapshotSlack (GetMemoryMap 0 0).DescriptorSize MemoryAttributes
    IncludeSplitSpace = S
  by_cases h1 : (GetMemoryMap 0 0).Status = EFI_STATUS.EFI_BUFFER_TOO_SMALL
  · by_cases h2 : 2 ^ 64 ≤ (GetMemoryMap 0 0).MemoryMapSize + S
    · simp only [h1, ne_eq, not_true_eq_false, if_false, h2, if_true, reduceCtorEq, true_and,
        false_iff, not_and]
      intro h; omega
    · by_cases h3 : AllocatePool ((GetMemoryMap 0 0).MemoryMapSize + S) = true
      · by_cases h4 : EFI_ERROR (GetMemoryMap 1 ((GetMemoryMap 0 0).MemoryMapSize + S)).Status
            = true
        · simp [h1, h2, h3, h4]
        · have h4' : EFI_ERROR (GetMemoryMap 1 ((GetMemoryMap 0 0).MemoryMapSize + S)).Status
              = false := by simpa using h4
          simp only [h1, ne_eq, not_true_eq_false, if_false, h2, h3, Bool.true_eq_false, h4',
            Bool.false_eq_true, Option.some.injEq, true_and]
          constructor
          · intro h; exact ⟨by omega, h.symm⟩
          · intro h; exact h.2.symm
      · simp [h1, h2, h3]
  · simp [h1]

/-- The slack of `OcGetCurrentMemoryMap` is at least 1024 bytes plus the split
allowance, when that sum fits in 64 bits. -/
theorem snapshotSlack_ge (DescriptorSize : Nat)
    (MemoryAttributes : Option (List EFI_MEMORY_DESCRIPTOR)) (IncludeSplitSpace : Bool)
    (h : 1024 + OcCountSplitDescritptors MemoryAttributes * DescriptorSize < 2 ^ 64) :
    1024 + (if IncludeSplitSpace then OcCountSplitDescritptors MemoryAttributes * DescriptorSize
      else 0) ≤ snapshotSlack DescriptorSize MemoryAttributes IncludeSplitSpace := by
  unfold snapshotSlack
  cases IncludeSplitSpace with
  | false =>
    simp only [Bool.false_eq_true, if_false, Nat.add_zero]
    exact Nat.le_trans (by norm_num) (Nat.le_max_right _ _)
  | true =>
    simp only [if_true]
    refine Nat.le_trans ?_ (Nat.le_max_right _ _)
    have h1 : (OcCountSplitDescritptors MemoryAttributes * DescriptorSize) % 2 ^ 64 =
        OcCountSplitDescritptors MemoryAttributes * DescriptorSize :=
      Nat.mod_eq_of_lt (by omega)
    rw [h1, Nat.mod_eq_of_lt h]

/-- With `TopMemory` the second pass of `GetCurrentMemoryMapAlloc` takes the page
count that the first pass left in `*TopMemory` as its ceiling: for the firmware
whose map grows after the query and the ceiling `0x100000`, the first pass
allocates its page below the ceiling, the fill call answers
`EFI_BUFFER_TOO_SMALL`, and the second pass asks for a page below the address 1
and returns `EFI_NOT_FOUND`. -/
theorem GetCurrentMemoryMapAlloc_from_top_second_pass :
    GetCurrentMemoryMapAlloc scenarioFirmware poolGrantedInPass scenarioSnapshots
        allocatePagesGranted (some 0x100000) 2 =
      some ⟨EFI_STATUS.EFI_NOT_FOUND, 1760, none, some 1, [1]⟩ := by
  decide

/-! ## The split engine on a table that needs no split -/

/-- The attribute scan finds nothing when every runtime attribute that passes
the containment test derives the type of the descriptor. -/
theorem findSplitAttribute_none_of_same (E : EFI_MEMORY_DESCRIPTOR) :
    ∀ (L : List EFI_MEMORY_DESCRIPTOR) (i : Nat) (b : Bool),
    (∀ A ∈ L, isRuntimeType A.MemType = true →
      AREA_WITHIN_DESCRIPTOR E A.PhysicalStart (EFI_PAGES_TO_SIZE A.NumberOfPages) = true →
      OcRealMemoryType A = E.MemType) →
    findSplitAttribute E L i b = none := by
  intro L
  induction L with
  | nil => intro i b _; rfl
  | cons A As ih =>
    intro i b h
    have hrest : ∀ B ∈ As, isRuntimeType B.MemType = true →
        AREA_WITHIN_DESCRIPTOR E B.PhysicalStart (EFI_PAGES_TO_SIZE B.NumberOfPages) = true →
        OcRealMemoryType B = E.MemType := fun B hB => h B (by simp [hB])
    rw [findSplitAttribute]
    by_cases hrt : isRuntimeType A.MemType = true
    · rw [if_pos hrt]
      by_cases hin : AREA_WITHIN_DESCRIPTOR E A.PhysicalStart
          (EFI_PAGES_TO_SIZE A.NumberOfPages) = true
      · rw [if_pos hin, if_neg (by simpa using h A (by simp) hrt hin)]
        exact ih _ _ hrest
      · rw [if_neg hin]
        by_cases hb : b = true
        · rw [if_pos hb]
        · rw [if_neg hb]
          exact ih _ _ hrest
    · rw [if_neg hrt]
      exact ih _ _ hrest

/-- The loop of the engine on a map in which no runtime entry has an attribute
to split by: it walks to the end and returns `EFI_SUCCESS` with the map as it
is. -/
theorem splitLoop_unchanged (cap : Nat) (Attributes m : List EFI_MEMORY_DESCRIPTOR) (l : Nat)
    (hnone : ∀ i, ∀ h : i < m.length, isRuntimeType (m[i]).MemType = true →
      findSplitAttribute m[i] (Attributes.drop l) l false = none) :
    ∀ (fuel i : Nat), m.length - i < fuel →
      splitLoop cap Attributes fuel m i l = some (EFI_STATUS.EFI_SUCCESS, m) := by
  intro fuel
  induction fuel with
  | zero => intro i h; omega
  | succ fuel ih =>
    intro i hf
    rw [splitLoop_succ]
    by_cases hi : i < m.length
    · rw [dif_pos hi]
      by_cases hrt : isRuntimeType (m[i]).MemType = true
      · rw [if_pos hrt, hnone i hi hrt]
        exact ih (i + 1) (by omega)
      · rw [if_neg hrt]
        exact ih (i + 1) (by omega)
    · rw [dif_neg hi]

/-- `OcSplitMemoryMapByAttributes` leaves the table as it is, with
`EFI_SUCCESS`, when for every runtime-typed entry every runtime attribute that
passes the containment test derives the type of the entry. -/
theorem OcSplitMemoryMapByAttributes_unchanged (cap : Nat)
    (T Attributes : List EFI_MEMORY_DESCRIPTOR)
    (h : ∀ D ∈ T, isRuntimeType D.MemType = true → ∀ A ∈ Attributes,
      isRuntimeType A.MemType = true →
      AREA_WITHIN_DESCRIPTOR D A.PhysicalStart (EFI_PAGES_TO_SIZE A.NumberOfPages) = true →
      OcRealMemoryType A = D.MemType) :
    OcSplitMemoryMapByAttributes cap T (some Attributes) =
      some (EFI_STATUS.EFI_SUCCESS, T) := by
  unfold OcSplitMemoryMapByAttributes
  apply splitLoop_unchanged cap Attributes T 0 _ _ 0 (by omega)
  intro i hi hrt
  apply findSplitAttribute_none_of_same
  intro A hA
  exact h T[i] (List.getElem_mem hi) hrt A (List.mem_of_mem_drop hA)

/-- The merge condition needs both types among the seven types that take part
in a merge, of the same class, and equal attributes. -/
theorem mergeCondition_types (P d : EFI_MEMORY_DESCRIPTOR) (h : mergeCondition P d) :
    isMergeType P.MemType = true ∧ isMergeType d.MemType = true ∧
    d.Attribute = P.Attribute ∧
    ((isFreeType P.MemType = true ∧ isFreeType d.MemType = true) ∨
     (P.MemType = EfiRuntimeServicesCode ∧ d.MemType = EfiRuntimeServicesCode) ∨
     (P.MemType = EfiRuntimeServicesData ∧ d.MemType = EfiRuntimeServicesData)) := by
  obtain ⟨-, hattr, hty⟩ := h
  refine ⟨?_, ?_, hattr, hty⟩
  · rcases hty with ⟨h1, -⟩ | ⟨h1, -⟩ | ⟨h1, -⟩
    · simp [isMergeType, h1]
    · simp [isMergeType, h1]
    · simp [isMergeType, h1]
  · rcases hty with ⟨-, h1⟩ | ⟨-, h1⟩ | ⟨-, h1⟩
    · simp [isMergeType, h1]
    · simp [isMergeType, h1]
    · simp [isMergeType, h1]

/-- In a table without an entry of one of the seven types no entry can be
joined to its predecessor. -/
theorem NoJoin_of_no_merge_type (T : List EFI_MEMORY_DESCRIPTOR)
    (h : ∀ e ∈ T, isMergeType e.MemType = false) : NoJoin T := by
  apply List.Pairwise.chain'
  apply List.pairwise_of_forall_mem_list
  intro a ha b _
  have hnot : ¬ mergeCondition a b := by
    intro hm
    have := (mergeCondition_types a b hm).1
    rw [h a ha] at this
    exact absurd this (by decide)
  have hiff := (CanBeJoined_iff_mergeCondition a b).1
  constructor
  · cases hc : CanBeJoinedFree a b with
    | false => rfl
    | true => exact absurd (hiff.mp (Or.inl hc)) hnot
  · cases hc : CanBeJoinedRt a b with
    | false => rfl
    | true => exact absurd (hiff.mp (Or.inr hc)) hnot

/-! ## The split engine: two insertions for every runtime attribute -/

/-- Every call of `OcSplitMemoryEntryByAttribute` by the engine is for an
attribute at or after the cursor, of a runtime type, and leaves a map with at
most two entries more. -/
theorem split_call_facts (cap : Nat) (Attributes m : List EFI_MEMORY_DESCRIPTOR)
    (i l j : Nat) (hi : i < m.length)
    (hf : findSplitAttribute m[i] (Attributes.drop l) l false = some j) :
    l < j + 1 ∧ j < Attributes.length ∧
    isRuntimeType (Attributes.getD j default).MemType = true ∧
    AREA_WITHIN_DESCRIPTOR m[i] (Attributes.getD j default).PhysicalStart
      (EFI_PAGES_TO_SIZE (Attributes.getD j default).NumberOfPages) = true ∧
    ((Attributes.drop (j + 1)).filter (fun e => isRuntimeType e.MemType)).length + 1 ≤
      ((Attributes.drop l).filter (fun e => isRuntimeType e.MemType)).length ∧
    (OcSplitMemoryEntryByAttribute m i cap (Attributes.getD j default)).MemoryMap.length ≤
      m.length + 2 := by
  obtain ⟨hlj, hjlen, -, hget, hrt, hin, -⟩ := findSplitAttribute_drop_some _ _ _ _ hf
  have hcount := runtime_count_drop Attributes l j _ hlj hget hrt
  obtain ⟨hdec, hlen⟩ := eq_take_append_getElem_drop m i hi
  have hc := OcSplitMemoryEntryByAttribute_counts (m.take i) (m.drop (i + 1)) m[i]
    (Attributes.getD j default) cap
  rw [← hdec, hlen] at hc
  obtain ⟨-, c2, -, c4, -, -⟩ := hc
  refine ⟨by omega, hjlen, hrt, hin, hcount, ?_⟩
  rw [c2]
  have : (m.drop (i + 1)).length = m.length - (i + 1) := List.length_drop _ _
  omega

/-- The map the loop leaves has at most two entries more for every runtime
attribute from the cursor on, whatever the status. -/
theorem splitLoop_length_slots (cap : Nat) (Attributes : List EFI_MEMORY_DESCRIPTOR)
    (B fuel : Nat) (m : List EFI_MEMORY_DESCRIPTOR) (i l : Nat)
    (hm : m.length +
      2 * ((Attributes.drop l).filter (fun e => isRuntimeType e.MemType)).length ≤ B)
    (res : EFI_STATUS × List EFI_MEMORY_DESCRIPTOR)
    (hres : splitLoop cap Attributes fuel m i l = some res) :
    res.2.length ≤ B := by
  refine splitLoop_rule cap Attributes
    (fun m _ l => m.length +
      2 * ((Attributes.drop l).filter (fun e => isRuntimeType e.MemType)).length ≤ B)
    (fun res => res.2.length ≤ B) ?_ ?_ ?_ fuel m i l hm res hres
  · intro m i l h _
    show m.length ≤ B
    omega
  · intro m i l h _ _; exact h
  · intro m i l j h hi _ hf
    obtain ⟨-, -, -, -, hcount, hlen⟩ := split_call_facts cap Attributes m i l j hi hf
    refine ⟨fun _ => ?_, fun _ => ?_⟩
    · show (OcSplitMemoryEntryByAttribute m i cap (Attributes.getD j default)).MemoryMap.length
        ≤ B
      omega
    · show (OcSplitMemoryEntryByAttribute m i cap (Attributes.getD j default)).MemoryMap.length
        + 2 * ((Attributes.drop (j + 1)).filter (fun e => isRuntimeType e.MemType)).length ≤ B
      omega

/-! ## The assertion and the subtractions of `OcSplitMemoryEntryByAttribute` -/

/-- `OcSplitMemoryEntryByAttribute` up to its `ASSERT`: without a free slot for
the head split it returns `EFI_OUT_OF_RESOURCES`; otherwise it goes on, from the
assertion, with `entryAtAssert` as the current entry. -/
theorem OcSplitMemoryEntryByAttribute_at_assert (pre post : List EFI_MEMORY_DESCRIPTOR)
    (E A : EFI_MEMORY_DESCRIPTOR) (cap : Nat) :
    OcSplitMemoryEntryByAttribute (pre ++ E :: post) pre.length cap A =
      if E.PhysicalStart < A.PhysicalStart then
        if (pre ++ E :: post).length = cap then
          ⟨EFI_STATUS.EFI_OUT_OF_RESOURCES, pre ++ E :: post, pre.length⟩
        else
          splitEntryAtStart
            ((pre ++ [{ E with NumberOfPages :=
                EFI_SIZE_TO_PAGES (A.PhysicalStart - E.PhysicalStart) }]) ++
              entryAtAssert E A :: post)
            (pre.length + 1) cap A
      else
        splitEntryAtStart (pre ++ entryAtAssert E A :: post) pre.length cap A := by
  by_cases hgt : E.PhysicalStart < A.PhysicalStart
  · rw [if_pos hgt, OcSplitMemoryEntryByAttribute_append_gt pre post E A cap hgt]
    simp only [entryAtAssert, gt_iff_lt, hgt, if_true, List.length_append,
      List.length_singleton]
  · rw [if_neg hgt, OcSplitMemoryEntryByAttribute_append_le pre post E A cap (by omega)]
    simp only [entryAtAssert, gt_iff_lt, hgt, if_false]

/-- For a page-aligned attribute of at least one page inside a page-aligned
entry, both ending below `2 ^ 64`: the assertion holds, the head split takes at
least one page and not more than the entry has, and the attribute has not more
pages than the entry at the assertion. -/
theorem entryAtAssert_facts (E A : EFI_MEMORY_DESCRIPTOR) (hE : DescOK E) (hA : DescOK A)
    (hin : AREA_WITHIN_DESCRIPTOR E A.PhysicalStart (EFI_PAGES_TO_SIZE A.NumberOfPages) = true) :
    A.PhysicalStart = (entryAtAssert E A).PhysicalStart ∧
    (E.PhysicalStart < A.PhysicalStart →
      1 ≤ EFI_SIZE_TO_PAGES (A.PhysicalStart - E.PhysicalStart) ∧
      EFI_SIZE_TO_PAGES (A.PhysicalStart - E.PhysicalStart) ≤ E.NumberOfPages) ∧
    A.NumberOfPages ≤ (entryAtAssert E A).NumberOfPages := by
  obtain ⟨hlo, hhi⟩ := (AREA_WITHIN_DESCRIPTOR_iff E A hE.2.2 hA.2.2).mp hin
  obtain ⟨e1, e2, e3⟩ := hE
  obtain ⟨a1, a2, a3⟩ := hA
  unfold rangeEnd at hhi e3 a3
  have hdiff : EFI_SIZE_TO_PAGES (A.PhysicalStart - E.PhysicalStart) =
      (A.PhysicalStart - E.PhysicalStart) / 4096 :=
    EFI_SIZE_TO_PAGES_aligned _ (by omega)
  by_cases hgt : E.PhysicalStart < A.PhysicalStart
  · simp only [entryAtAssert, gt_iff_lt, hgt, if_true, true_implies]
    rw [hdiff]
    refine ⟨trivial, ⟨by omega, by omega⟩, by omega⟩
  · simp only [entryAtAssert, gt_iff_lt, hgt, if_false, false_implies, true_and]
    exact ⟨by omega, by omega⟩

/-! ## Reaching an entry of the map and an attribute of the table -/

/-- C1. For a well-formed table `T` (page-aligned entries of at least one page,
sorted ascending, non-overlapping, ranges ending below `2 ^ 64`) and a
well-formed attribute table (the same, every entry of runtime code or data type
and inside one runtime-typed entry of `T`): if `OcSplitMemoryMapByAttributes`
returns success, then for every attribute entry `A`, every entry of the output
whose range shares an address with the range of `A` has the type
`OcRealMemoryType A`. -/
theorem split_success_types (cap : Nat) (T Attributes out : List EFI_MEMORY_DESCRIPTOR)
    (hT : TableOK T) (hA : AttributesOK T Attributes)
    (hres : OcSplitMemoryMapByAttributes cap T (some Attributes)
      = some (EFI_STATUS.EFI_SUCCESS, out)) :
    ∀ A ∈ Attributes, ∀ e ∈ out, (∃ x, inRange A x ∧ inRange e x) →
      e.MemType = OcRealMemoryType A := by
  have hinv : SplitInv Attributes T 0 0 :=
    ⟨hT, fun X hX => (hA.2 X hX).2, fun e he => by simp at he,
      fun _ _ k _ hk => absurd hk (Nat.not_lt_zero k)⟩
  exact splitLoop_types cap Attributes hA.1 (fun a ha => (hA.2 a ha).1) _ T 0 0 hinv _ hres rfl

/-- Witness for C1: the three entries left by the scenario with capacity 3. -/
theorem split_success_types_witness :
    TableOK scenarioTable ∧ AttributesOK scenarioTable scenarioAttributesXP ∧
    ∀ A ∈ scenarioAttributesXP,
      ∀ e ∈ [(⟨EfiRuntimeServicesCode, 0, 0, 4, 0⟩ : EFI_MEMORY_DESCRIPTOR),
        ⟨EfiRuntimeServicesData, 4 * 4096, 0, 3, 0⟩,
        ⟨EfiRuntimeServicesCode, 7 * 4096, 0, 3, 0⟩],
      (∃ x, inRange A x ∧ inRange e x) → e.MemType = OcRealMemoryType A :=
  ⟨by decide, by decide,
    split_success_types 3 scenarioTable scenarioAttributesXP _ (by decide) (by decide)
      (by decide)⟩

/-- C2. For a well-formed table (page-aligned entries of at least one page,
sorted ascending, non-overlapping, ranges ending below `2 ^ 64`) and attribute
entries that are page-aligned, of at least one page and end below `2 ^ 64`, the
table left by `OcSplitMemoryMapByAttributes` on success is again well-formed:
its starts ascend strictly and no address lies in the ranges of two entries.
(Sortedness of the attribute table and containment in a runtime descriptor are
not needed, the engine tests containment itself before each split.) -/
theorem split_success_sorted_nonoverlapping (cap : Nat)
    (T Attributes out : List EFI_MEMORY_DESCRIPTOR)
    (hT : TableOK T) (hA : ∀ a ∈ Attributes, DescOK a)
    (hres : OcSplitMemoryMapByAttributes cap T (some Attributes)
      = some (EFI_STATUS.EFI_SUCCESS, out)) :
    out.Pairwise (fun a b => a.PhysicalStart < b.PhysicalStart) ∧
    out.Pairwise (fun a b => ∀ x, ¬ (inRange a x ∧ inRange b x)) ∧
    TableOK out := by
  have h := splitLoop_preserves cap Attributes T hA _ T 0 0
    ⟨hT, fun _ => Iff.rfl, rfl⟩ _ hres
  exact ⟨(TableOK_sorted_disjoint out h.1).1, (TableOK_sorted_disjoint out h.1).2, h.1⟩

/-- Witness for C2: the three entries left by the scenario with capacity 3. -/
theorem split_success_sorted_nonoverlapping_witness :
    TableOK scenarioTable ∧ (∀ a ∈ scenarioAttributesXP, DescOK a) ∧
    List.Pairwise (fun a b => a.PhysicalStart < b.PhysicalStart)
      [(⟨EfiRuntimeServicesCode, 0, 0, 4, 0⟩ : EFI_MEMORY_DESCRIPTOR),
       ⟨EfiRuntimeServicesData, 4 * 4096, 0, 3, 0⟩,
       ⟨EfiRuntimeServicesCode, 7 * 4096, 0, 3, 0⟩] :=
  ⟨by decide, by decide,
    (split_success_sorted_nonoverlapping 3 scenarioTable scenarioAttributesXP _
      (by decide) (by decide) (by decide)).1⟩

/-- C3. For a well-formed table (entries page-aligned, of at least one page,
sorted, non-overlapping, ending below `2 ^ 64`) and attribute entries that are
page-aligned, of at least one page and end below `2 ^ 64`,
`OcSplitMemoryMapByAttributes` returns, and whatever the status, the table it
leaves covers exactly the addresses the input covered and has the same total
number of pages: no address is dropped, none is covered twice. -/
theorem split_preserves_coverage (cap : Nat) (T Attributes : List EFI_MEMORY_DESCRIPTOR)
    (hT : TableOK T) (hA : ∀ a ∈ Attributes, DescOK a) :
    ∃ st out, OcSplitMemoryMapByAttributes cap T (some Attributes) = some (st, out) ∧
      (∀ x, covers out x ↔ covers T x) ∧ totalPages out = totalPages T := by
  obtain ⟨⟨st, out⟩, hres⟩ := OcSplitMemoryMapByAttributes_returns cap T (some Attributes)
  have h := splitLoop_preserves cap Attributes T hA _ T 0 0
    ⟨hT, fun _ => Iff.rfl, rfl⟩ _ hres
  exact ⟨st, out, hres, h.2.1, h.2.2⟩

/-- Witness for C3: the scenario with capacity 3. -/
theorem split_preserves_coverage_witness :
    TableOK scenarioTable ∧ (∀ a ∈ scenarioAttributesXP, DescOK a) ∧
    ∃ st out, OcSplitMemoryMapByAttributes 3 scenarioTable (some scenarioAttributesXP)
        = some (st, out) ∧
      (∀ x, covers out x ↔ covers scenarioTable x) ∧ totalPages out = totalPages scenarioTable :=
  ⟨by decide, by decide,
    split_preserves_coverage 3 scenarioTable scenarioAttributesXP (by decide) (by decide)⟩

/-- C4. For every input with `length ≤ capacity` (any table, any attribute
table or none), `OcSplitMemoryMapByAttributes` returns with `length ≤ capacity`,
whatever the status; and when the input is well-formed (entries page-aligned, of
at least one page, sorted, non-overlapping, ending below `2 ^ 64`; attribute
entries page-aligned, of at least one page, ending below `2 ^ 64`) and the
status is `EFI_OUT_OF_RESOURCES`, the table left is still well-formed (sorted,
non-overlapping) and covers exactly the addresses the input covered. -/
theorem split_respects_capacity (cap : Nat) (T : List EFI_MEMORY_DESCRIPTOR)
    (MemoryAttributes : Option (List EFI_MEMORY_DESCRIPTOR))
    (hlen : T.length ≤ cap) :
    ∃ st out, OcSplitMemoryMapByAttributes cap T MemoryAttributes = some (st, out) ∧
      out.length ≤ cap ∧
      (TableOK T →
        (∀ Attributes, MemoryAttributes = some Attributes → ∀ a ∈ Attributes, DescOK a) →
        st = EFI_STATUS.EFI_OUT_OF_RESOURCES →
        TableOK out ∧
        out.Pairwise (fun a b => a.PhysicalStart < b.PhysicalStart) ∧
        out.Pairwise (fun a b => ∀ x, ¬ (inRange a x ∧ inRange b x)) ∧
        (∀ x, covers out x ↔ covers T x)) := by
  cases MemoryAttributes with
  | none =>
    exact ⟨EFI_STATUS.EFI_UNSUPPORTED, T, rfl, hlen, fun _ _ h => absurd h (by decide)⟩
  | some Attributes =>
    obtain ⟨⟨st, out⟩, hres⟩ := OcSplitMemoryMapByAttributes_returns cap T (some Attributes)
    refine ⟨st, out, hres, splitLoop_length_le cap Attributes _ T 0 0 hlen _ hres, ?_⟩
    intro hT hA _
    have h := splitLoop_preserves cap Attributes T (hA Attributes rfl) _ T 0 0
      ⟨hT, fun _ => Iff.rfl, rfl⟩ _ hres
    exact ⟨h.1, (TableOK_sorted_disjoint out h.1).1, (TableOK_sorted_disjoint out h.1).2,
      h.2.1⟩

/-- Witness for C4: the scenario with capacity 2 ends in `EFI_OUT_OF_RESOURCES`
with two entries, well-formed and covering the ten pages of the input. -/
theorem split_respects_capacity_witness :
    ∃ out, OcSplitMemoryMapByAttributes 2 scenarioTable (some scenarioAttributesXP)
        = some (EFI_STATUS.EFI_OUT_OF_RESOURCES, out) ∧
      out.length ≤ 2 ∧ TableOK out ∧ (∀ x, covers out x ↔ covers scenarioTable x) := by
  obtain ⟨st, out, hres, hlen, himp⟩ :=
    split_respects_capacity 2 scenarioTable (some scenarioAttributesXP) (by decide)
  have heval : OcSplitMemoryMapByAttributes 2 scenarioTable (some scenarioAttributesXP)
      = some (EFI_STATUS.EFI_OUT_OF_RESOURCES,
        [⟨EfiRuntimeServicesCode, 0, 0, 4, 0⟩, ⟨EfiRuntimeServicesCode, 4 * 4096, 0, 6, 0⟩]) := by
    decide
  rw [heval] at hres
  obtain ⟨hst, hout⟩ := Prod.mk.inj (Option.some.inj hres)
  have h := himp (by decide)
    (fun Attributes hA => by
      obtain rfl := Option.some.inj hA
      decide)
    hst.symm
  exact ⟨out, by rw [heval, hout], hlen, h.1, h.2.2.2⟩

/-- C5 (as the code behaves). For a well-formed table `T` of length `n` and a
well-formed attribute table in which every entry lies inside one runtime-typed
entry of `T` and the entries inside an entry of `T` tile it (they describe it
completely, without a gap): if `capacity = n + OcCountSplitDescritptors`, then
`OcSplitMemoryMapByAttributes` returns `EFI_SUCCESS`, never
`EFI_OUT_OF_RESOURCES`. An attribute that starts after the current entry then
always comes after an attribute of the entry's type that the scan passed over,
whose slot pays for the second insertion. -/
theorem split_succeeds_when_attributes_tile (cap : Nat)
    (T Attributes : List EFI_MEMORY_DESCRIPTOR)
    (hT : TableOK T) (hA : AttributesOK T Attributes) (htile : AttributesTile T Attributes)
    (hcap : cap = T.length + OcCountSplitDescritptors (some Attributes)) :
    ∃ out, OcSplitMemoryMapByAttributes cap T (some Attributes)
      = some (EFI_STATUS.EFI_SUCCESS, out) := by
  have hArt : ∀ a ∈ Attributes, isRuntimeType a.MemType = true := fun a ha => (hA.2 a ha).1
  have hcount : OcCountSplitDescritptors (some Attributes) = Attributes.length := by
    simp only [OcCountSplitDescritptors]
    rw [List.filter_eq_self.mpr (fun a ha => hArt a ha)]
  have hinv : SlotInv cap Attributes T 0 0 := by
    refine ⟨⟨hT, fun X hX => (hA.2 X hX).2, fun e he => by simp at he,
      fun _ _ k _ hk => absurd hk (Nat.not_lt_zero k)⟩, ?_, ?_, ?_⟩
    · intro e he hex x hx
      rw [List.drop_zero] at he
      exact AttributesTile_covered T Attributes htile e he hex x hx
    · intro _ _ k _ hk; exact absurd hk (Nat.not_lt_zero k)
    · rw [hcap, hcount]; omega
  obtain ⟨⟨st, out⟩, hres⟩ := OcSplitMemoryMapByAttributes_returns cap T (some Attributes)
  have hst : st = EFI_STATUS.EFI_SUCCESS :=
    splitLoop_success_of_tiling cap Attributes hA.1 hArt _ T 0 0 hinv _ hres
  exact ⟨out, by rw [hres, hst]⟩

/-- Witness for C5 as amended: ten pages of runtime code described by four
read-only pages and six execute-protected pages, capacity `1 + 2`. -/
theorem split_succeeds_when_attributes_tile_witness :
    TableOK scenarioTable ∧ AttributesOK scenarioTable scenarioAttributesTiling ∧
    AttributesTile scenarioTable scenarioAttributesTiling ∧
    ∃ out, OcSplitMemoryMapByAttributes 3 scenarioTable (some scenarioAttributesTiling)
      = some (EFI_STATUS.EFI_SUCCESS, out) :=
  ⟨by decide, by decide, by decide,
    split_succeeds_when_attributes_tile 3 scenarioTable scenarioAttributesTiling
      (by decide) (by decide) (by decide) (by decide)⟩

/-- C5 as stated fails: a normalized table of length 2, one runtime attribute
lying inside its runtime entry and leaving a gap on both sides, capacity
`2 + 1`, and the engine returns `EFI_OUT_OF_RESOURCES` after the first of the
two insertions the attribute needs. -/
theorem split_one_slot_per_attribute_out_of_resources :
    TableOK scenarioTableTwo ∧ NoJoin scenarioTableTwo ∧
    AttributesOK scenarioTableTwo scenarioAttributesMiddle ∧
    OcSplitMemoryMapByAttributes
        (scenarioTableTwo.length + OcCountSplitDescritptors (some scenarioAttributesMiddle))
        scenarioTableTwo (some scenarioAttributesMiddle)
      = some (EFI_STATUS.EFI_OUT_OF_RESOURCES,
          [⟨EfiRuntimeServicesCode, 0, 0, 2, 0⟩, ⟨EfiRuntimeServicesCode, 2 * 4096, 0, 8, 0⟩,
           ⟨EfiConventionalMemory, 10 * 4096, 0, 5, 0⟩]) :=
  ⟨by decide, List.chain'_pair.mpr (by decide), by decide, by decide⟩

/-- C6. Let `D` be the entry at position `pre.length` of the map
`pre ++ D :: post`, and `A` an attribute inside `D` that starts strictly after
the start of `D` and ends strictly before its end (both page-aligned, `D` ending
below `2 ^ 64`). With at least two free slots, `OcSplitMemoryEntryByAttribute`
succeeds and replaces `D` by three consecutive entries: `[D.start, A.start)`
with the type of `D`, the range of `A` with `OcRealMemoryType A`, and
`[A.end, D.end)` with the type of `D`; the entries before are untouched, the
entries after are moved up two slots unchanged, the length grows by two and the
current entry is the third piece. -/
theorem split_interior_attribute (pre post : List EFI_MEMORY_DESCRIPTOR)
    (D A : EFI_MEMORY_DESCRIPTOR) (cap : Nat)
    (hD : D.PhysicalStart % 4096 = 0) (hA : A.PhysicalStart % 4096 = 0)
    (hwrap : rangeEnd D < 2 ^ 64)
    (hlo : D.PhysicalStart < A.PhysicalStart) (hhi : rangeEnd A < rangeEnd D)
    (hcap : (pre ++ D :: post).length + 2 ≤ cap) :
    OcSplitMemoryEntryByAttribute (pre ++ D :: post) pre.length cap A =
      { Status := EFI_STATUS.EFI_SUCCESS
        MemoryMap := pre ++
          [ { D with NumberOfPages := (A.PhysicalStart - D.PhysicalStart) / 4096 },
            { D with
              MemType := OcRealMemoryType A
              PhysicalStart := A.PhysicalStart
              NumberOfPages := A.NumberOfPages },
            { D with
              PhysicalStart := A.PhysicalStart + A.NumberOfPages * 4096
              NumberOfPages := (rangeEnd D - rangeEnd A) / 4096 } ] ++ post
        CurrentEntryIndex := pre.length + 2 } ∧
    (OcSplitMemoryEntryByAttribute (pre ++ D :: post) pre.length cap A).MemoryMap.length
      = (pre ++ D :: post).length + 2 := by
  have hout := OcSplitMemoryEntryByAttribute_eq_outcome pre post D A cap hD hA
    (Nat.le_of_lt hlo) (Nat.le_of_lt hhi) hwrap
  have h1 : ¬ (pre ++ D :: post).length = cap := by omega
  have h2 : ¬ rangeEnd A = rangeEnd D := by omega
  have h3 : ¬ (pre ++ D :: post).length + 1 = cap := by omega
  rw [hout]
  unfold splitEntryOutcome
  rw [if_pos hlo, if_neg h1, if_neg h2, if_neg h3]
  refine ⟨?_, ?_⟩
  · simp only [headPiece, midPiece, tailPiece, rangeEnd, List.append_assoc, List.cons_append,
      List.nil_append]
  · simp only [List.length_append, List.length_cons]
    omega

/-- Witness for C6: the scenario `[{0,10,runtime-code}]`, `[{4,3,XP}]`,
capacity 3, for the split of the entry and for the whole engine. -/
theorem split_interior_attribute_witness :
    OcSplitMemoryEntryByAttribute
        ([] ++ (⟨EfiRuntimeServicesCode, 0, 0, 10, 0⟩ : EFI_MEMORY_DESCRIPTOR) :: []) 0 3
        ⟨EfiRuntimeServicesData, 4 * 4096, 0, 3, EFI_MEMORY_XP⟩ =
      { Status := EFI_STATUS.EFI_SUCCESS
        MemoryMap := [⟨EfiRuntimeServicesCode, 0, 0, 4, 0⟩,
          ⟨EfiRuntimeServicesData, 4 * 4096, 0, 3, 0⟩,
          ⟨EfiRuntimeServicesCode, 7 * 4096, 0, 3, 0⟩]
        CurrentEntryIndex := 2 } ∧
    OcSplitMemoryMapByAttributes 3 scenarioTable (some scenarioAttributesXP) =
      some (EFI_STATUS.EFI_SUCCESS,
        [⟨EfiRuntimeServicesCode, 0, 0, 4, 0⟩,
          ⟨EfiRuntimeServicesData, 4 * 4096, 0, 3, 0⟩,
          ⟨EfiRuntimeServicesCode, 7 * 4096, 0, 3, 0⟩]) :=
  ⟨(split_interior_attribute [] [] ⟨EfiRuntimeServicesCode, 0, 0, 10, 0⟩
      ⟨EfiRuntimeServicesData, 4 * 4096, 0, 3, EFI_MEMORY_XP⟩ 3
      (by decide) (by decide) (by decide) (by decide) (by decide) (by decide)).1,
    by decide⟩

/-- C7 (as the code behaves). On the table `[{0, 10 pages, runtime-code}]` with
the attribute `[{0, 4 pages, RO}]` and capacity 2 the engine succeeds and leaves
the table unchanged, one entry of ten pages: the attribute derives the type the
entry already has, so nothing is split. -/
theorem split_same_type_scenario :
    OcSplitMemoryMapByAttributes 2 scenarioTable (some scenarioAttributesRO)
      = some (EFI_STATUS.EFI_SUCCESS, [⟨EfiRuntimeServicesCode, 0, 0, 10, 0⟩]) := by
  decide

/-- C7 as stated fails: the result of the scenario is not the two-entry table
`[{0,4,runtime-code},{4,6,runtime-code}]`. -/
theorem split_same_type_scenario_not_two_entries :
    OcSplitMemoryMapByAttributes 2 scenarioTable (some scenarioAttributesRO)
      ≠ some (EFI_STATUS.EFI_SUCCESS,
        [⟨EfiRuntimeServicesCode, 0, 0, 4, 0⟩, ⟨EfiRuntimeServicesCode, 4 * 4096, 0, 6, 0⟩]) := by
  decide

/-- C9. For an attribute entry of runtime code or data type, `OcRealMemoryType`
is runtime-services-code when the read-only flag is set (whatever the
execute-protect flag), otherwise runtime-services-data when the execute-protect
flag is set, otherwise the entry's own type; so it is always runtime code or
runtime data. -/
theorem OcRealMemoryType_cases (A : EFI_MEMORY_DESCRIPTOR)
    (hrt : A.MemType = EfiRuntimeServicesCode ∨ A.MemType = EfiRuntimeServicesData) :
    (A.Attribute &&& EFI_MEMORY_RO ≠ 0 → OcRealMemoryType A = EfiRuntimeServicesCode) ∧
    (A.Attribute &&& EFI_MEMORY_RO = 0 → A.Attribute &&& EFI_MEMORY_XP ≠ 0 →
      OcRealMemoryType A = EfiRuntimeServicesData) ∧
    (A.Attribute &&& EFI_MEMORY_RO = 0 → A.Attribute &&& EFI_MEMORY_XP = 0 →
      OcRealMemoryType A = A.MemType) ∧
    (OcRealMemoryType A = EfiRuntimeServicesCode ∨
      OcRealMemoryType A = EfiRuntimeServicesData) := by
  unfold OcRealMemoryType
  refine ⟨fun h => by rw [if_pos h], fun h1 h2 => by rw [if_neg (not_not.mpr h1), if_pos h2],
    fun h1 h2 => by rw [if_neg (not_not.mpr h1), if_neg (not_not.mpr h2)], ?_⟩
  split_ifs
  · exact Or.inl rfl
  · exact Or.inr rfl
  · exact hrt

/-- Witness for C9: read-only and execute-protect both set derive runtime
code. -/
theorem OcRealMemoryType_cases_witness :
    OcRealMemoryType ⟨EfiRuntimeServicesData, 0, 0, 1, EFI_MEMORY_RO ||| EFI_MEMORY_XP⟩
      = EfiRuntimeServicesCode :=
  (OcRealMemoryType_cases ⟨EfiRuntimeServicesData, 0, 0, 1, EFI_MEMORY_RO ||| EFI_MEMORY_XP⟩
    (Or.inr rfl)).1 (by decide)

/-- C10. For every non-empty table `OcShrinkMemoryMap` returns a table, and
running it again on that table returns the very same table (same entries, same
length): in the output of one pass no entry can be joined to its
predecessor. -/
theorem shrink_twice_eq_once (T : List EFI_MEMORY_DESCRIPTOR) (hT : T ≠ []) :
    ∃ out, OcShrinkMemoryMap T = some out ∧ OcShrinkMemoryMap out = some out ∧
      NoJoin out := by
  cases T with
  | nil => exact absurd rfl hT
  | cons t ts =>
    obtain ⟨h, tl, e, -⟩ := coalesceFrom_head ts t
    have hno := coalesceFrom_NoJoin ts t
    refine ⟨coalesceFrom t ts, OcShrinkMemoryMap_cons t ts, ?_, hno⟩
    rw [e] at hno ⊢
    rw [OcShrinkMemoryMap_cons h tl, coalesceFrom_of_NoJoin tl h hno]

/-- Witness for C10: the coalescing scenario of the specification. -/
theorem shrink_twice_eq_once_witness :
    ∃ out, OcShrinkMemoryMap scenarioCoalesce = some out ∧
      OcShrinkMemoryMap out = some out ∧ NoJoin out :=
  shrink_twice_eq_once scenarioCoalesce (by decide)

/-! ## The claims on coalescing, sorting and allocation from the top -/

/-- C11. For every non-empty table that is sorted ascending by `PhysicalStart`,
in which no two entries have an address in common, and in which no end address
`PhysicalStart + NumberOfPages * 4096` wraps (it is below `2 ^ 64`),
`OcShrinkMemoryMap` returns a table that is again sorted ascending by
`PhysicalStart` and in which no two entries have an address in common. -/
theorem shrink_keeps_sorted_nonoverlapping (T : List EFI_MEMORY_DESCRIPTOR) (hT : T ≠ [])
    (hwrap : ∀ d ∈ T, rangeEnd d < 2 ^ 64)
    (hsorted : T.Pairwise (fun a b => a.PhysicalStart ≤ b.PhysicalStart))
    (hdisjoint : T.Pairwise rangesDisjoint) :
    ∃ out, OcShrinkMemoryMap T = some out ∧
      out.Pairwise (fun a b => a.PhysicalStart ≤ b.PhysicalStart) ∧
      out.Pairwise rangesDisjoint := by
  cases T with
  | nil => exact absurd rfl hT
  | cons t ts =>
    exact ⟨coalesceFrom t ts, OcShrinkMemoryMap_cons t ts,
      coalesceFrom_sorted_disjoint ts t hwrap hsorted hdisjoint⟩

/-- Witness for C11: the coalescing scenario of the specification. -/
theorem shrink_keeps_sorted_nonoverlapping_witness :
    ∃ out, OcShrinkMemoryMap scenarioCoalesce = some out ∧
      out.Pairwise (fun a b => a.PhysicalStart ≤ b.PhysicalStart) ∧
      out.Pairwise rangesDisjoint :=
  shrink_keeps_sorted_nonoverlapping scenarioCoalesce (by decide) (by decide) (by decide)
    (by
      simp only [scenarioCoalesce, List.pairwise_cons, List.mem_cons, List.mem_singleton,
        forall_eq_or_imp, forall_eq, List.not_mem_nil, false_implies, implies_true,
        List.Pairwise.nil, and_true]
      exact ⟨⟨rangesDisjoint_of_le _ _ (by decide), rangesDisjoint_of_le _ _ (by decide)⟩,
        rangesDisjoint_of_le _ _ (by decide)⟩)

/-- C12. For every non-empty table in which no end address wraps (each is below
`2 ^ 64`), and so for every such table without overlaps, `OcShrinkMemoryMap`
returns a table that covers exactly the addresses the input covers and whose
page counts add up to the same total. -/
theorem shrink_preserves_coverage_and_pages (T : List EFI_MEMORY_DESCRIPTOR) (hT : T ≠ [])
    (hwrap : ∀ d ∈ T, rangeEnd d < 2 ^ 64) :
    ∃ out, OcShrinkMemoryMap T = some out ∧ (∀ x, covers out x ↔ covers T x) ∧
      totalPages out = totalPages T := by
  cases T with
  | nil => exact absurd rfl hT
  | cons t ts =>
    obtain ⟨h1, h2, -⟩ := coalesceFrom_ranges ts t hwrap
    exact ⟨coalesceFrom t ts, OcShrinkMemoryMap_cons t ts, h1, h2⟩

/-- Witness for C12: the coalescing scenario of the specification. -/
theorem shrink_preserves_coverage_and_pages_witness :
    ∃ out, OcShrinkMemoryMap scenarioCoalesce = some out ∧
      (∀ x, covers out x ↔ covers scenarioCoalesce x) ∧
      totalPages out = totalPages scenarioCoalesce :=
  shrink_preserves_coverage_and_pages scenarioCoalesce (by decide) (by decide)

/-- C13. `OcShrinkMemoryMap` follows the merge rule of the specification. A
table of one entry is returned as it is. On `P :: d :: ds`, with `P` the
predecessor accumulated so far: when the 64-bit end address of `P` equals the
start of `d`, the attributes are identical and both types are of the free
class, or both runtime code, or both runtime data, `d` is merged into `P` and
the pass goes on from the merged entry, which keeps the start and the
attributes of `P`, has the 64-bit sum of the page counts, and has type
conventional in the free case and the type of `P` in the runtime case;
otherwise `P` is emitted as it is and the pass goes on from `d`. When the
ranges of `P` and `d` end below `2 ^ 64` the end address and the sum are the
exact ones. The scenario `[{0,2,conventional},{2,3,conventional},
{5,1,runtime-data}]` gives `[{0,5,conventional},{5,1,runtime-data}]`. -/
theorem shrink_merge_rule (P d : EFI_MEMORY_DESCRIPTOR) (ds : List EFI_MEMORY_DESCRIPTOR) :
    OcShrinkMemoryMap [P] = some [P] ∧
    OcShrinkMemoryMap (P :: d :: ds) =
      (if mergeCondition P d then OcShrinkMemoryMap (mergedEntry P d :: ds)
       else (OcShrinkMemoryMap (d :: ds)).map (fun out => P :: out)) ∧
    (mergedEntry P d).PhysicalStart = P.PhysicalStart ∧
    (mergedEntry P d).Attribute = P.Attribute ∧
    (mergedEntry P d).NumberOfPages = (P.NumberOfPages + d.NumberOfPages) % 2 ^ 64 ∧
    (isFreeType P.MemType = true → (mergedEntry P d).MemType = EfiConventionalMemory) ∧
    (isFreeType P.MemType = false → (mergedEntry P d).MemType = P.MemType) ∧
    (rangeEnd P < 2 ^ 64 → rangeEnd d < 2 ^ 64 →
      endAddress64 P = rangeEnd P ∧
      (mergedEntry P d).NumberOfPages = P.NumberOfPages + d.NumberOfPages) ∧
    OcShrinkMemoryMap scenarioCoalesce =
      some [⟨EfiConventionalMemory, 0, 0, 5, 0⟩, ⟨EfiRuntimeServicesData, 5 * 4096, 0, 1, 0⟩] := by
  refine ⟨OcShrinkMemoryMap_cons P [], ?_, rfl, rfl, rfl, ?_, ?_, ?_, ?_⟩
  · rw [OcShrinkMemoryMap_cons, coalesceFrom_cons_merge]
    by_cases hm : mergeCondition P d
    · rw [if_pos hm, if_pos hm, OcShrinkMemoryMap_cons]
    · rw [if_neg hm, if_neg hm, OcShrinkMemoryMap_cons]
      rfl
  · intro h
    simp only [mergedEntry, h, if_true]
  · intro h
    simp only [mergedEntry, h, Bool.false_eq_true, if_false]
  · intro hP hd
    unfold rangeEnd at hP hd
    refine ⟨?_, ?_⟩
    · unfold endAddress64 EFI_PAGES_TO_SIZE rangeEnd
      omega
    · show (P.NumberOfPages + d.NumberOfPages) % 2 ^ 64 = P.NumberOfPages + d.NumberOfPages
      omega
  · show OcShrinkMemoryMap (_ :: _) = _
    rw [OcShrinkMemoryMap_cons]
    decide

/-- Witness for C13: the first two entries of the coalescing scenario are
merged, and their ranges end below `2 ^ 64`. -/
theorem shrink_merge_rule_witness :
    OcShrinkMemoryMap
        [⟨EfiConventionalMemory, 0, 0, 2, 0⟩, ⟨EfiConventionalMemory, 2 * 4096, 0, 3, 0⟩,
         ⟨EfiRuntimeServicesData, 5 * 4096, 0, 1, 0⟩] =
      OcShrinkMemoryMap
        [⟨EfiConventionalMemory, 0, 0, 5, 0⟩, ⟨EfiRuntimeServicesData, 5 * 4096, 0, 1, 0⟩] ∧
    endAddress64 ⟨EfiConventionalMemory, 0, 0, 2, 0⟩ = 2 * 4096 :=
  ⟨(shrink_merge_rule ⟨EfiConventionalMemory, 0, 0, 2, 0⟩
      ⟨EfiConventionalMemory, 2 * 4096, 0, 3, 0⟩
      [⟨EfiRuntimeServicesData, 5 * 4096, 0, 1, 0⟩]).2.1.trans (if_pos (by decide)),
   ((shrink_merge_rule ⟨EfiConventionalMemory, 0, 0, 2, 0⟩
      ⟨EfiConventionalMemory, 2 * 4096, 0, 3, 0⟩ []).2.2.2.2.2.2.2.1
        (by decide) (by decide)).1⟩

/-- C14. For a table without entries `OcShrinkMemoryMap` produces no table: the
size it starts from, `MemoryMapSize - DescriptorSize`, wraps around, and the
loop reads outside the map. For every table with at least one entry it returns
a table that is not longer than the input, and whose length is the length of
the input minus the number of merges of the pass. -/
theorem shrink_length_and_empty_table :
    OcShrinkMemoryMap [] = none ∧
    ∀ (t : EFI_MEMORY_DESCRIPTOR) (ts : List EFI_MEMORY_DESCRIPTOR),
      ∃ out, OcShrinkMemoryMap (t :: ts) = some out ∧ out.length ≤ (t :: ts).length ∧
        out.length + joinCountFrom t ts = (t :: ts).length := by
  refine ⟨OcShrinkMemoryMap_nil, ?_⟩
  intro t ts
  have h := coalesceFrom_length ts t
  refine ⟨coalesceFrom t ts, OcShrinkMemoryMap_cons t ts, ?_, ?_⟩
  · simp only [List.length_cons]; omega
  · simp only [List.length_cons]; omega

/-- C15. For every table, the table `OcSortMemoryMap` leaves is a permutation of
the input, and it is in ascending order of `PhysicalStart`: the start of each
entry is at most the start of every later entry, in particular of the next
one. -/
theorem sort_permutation_ascending (T : List EFI_MEMORY_DESCRIPTOR) :
    (OcSortMemoryMap T).Perm T ∧
    (OcSortMemoryMap T).Pairwise (fun a b => a.PhysicalStart ≤ b.PhysicalStart) ∧
    (OcSortMemoryMap T).Chain' (fun a b => a.PhysicalStart ≤ b.PhysicalStart) := by
  rw [OcSortMemoryMap_eq_sortPasses]
  obtain ⟨p, s⟩ := sortPasses_spec T.length T rfl
  exact ⟨p, s, List.Pairwise.chain' s⟩

/-- C16. `OcSortMemoryMap` returns a table in ascending order of `PhysicalStart`
unchanged; and for two tables that are permutations of one another, no two
entries of which start at the same address, it returns the same table. -/
theorem sort_sorted_unchanged_and_order_independent (T T1 T2 : List EFI_MEMORY_DESCRIPTOR)
    (hsorted : T.Pairwise (fun a b => a.PhysicalStart ≤ b.PhysicalStart))
    (hperm : T1.Perm T2)
    (hdistinct : T1.Pairwise (fun a b => a.PhysicalStart ≠ b.PhysicalStart)) :
    OcSortMemoryMap T = T ∧ OcSortMemoryMap T1 = OcSortMemoryMap T2 := by
  refine ⟨?_, ?_⟩
  · rw [OcSortMemoryMap_eq_sortPasses]
    exact sortPasses_of_sorted T.length T hsorted
  · rw [OcSortMemoryMap_eq_sortPasses, OcSortMemoryMap_eq_sortPasses]
    obtain ⟨p1, s1⟩ := sortPasses_spec T1.length T1 rfl
    obtain ⟨p2, s2⟩ := sortPasses_spec T2.length T2 rfl
    refine sorted_perm_unique _ _ ((p1.trans hperm).trans p2.symm) ?_ s1 s2
    exact p1.symm.pairwise hdistinct (fun h => Ne.symm h)

/-- Witness for C16: the coalescing scenario is in ascending order, and the
table with its entries in descending order is a permutation of it. -/
theorem sort_sorted_unchanged_and_order_independent_witness :
    OcSortMemoryMap scenarioCoalesce = scenarioCoalesce ∧
    OcSortMemoryMap scenarioUnsorted = OcSortMemoryMap scenarioCoalesce :=
  sort_sorted_unchanged_and_order_independent scenarioCoalesce scenarioUnsorted scenarioCoalesce
    (by decide) (List.reverse_perm scenarioCoalesce) (by decide)

/-- C17. For the conventional entry of 4 pages at `0xffffffffffffc000`, which ends
at `2 ^ 64`, 1 page and the ceiling `0xffffffffffffe000`: the entry has enough
pages, `start + requestedSize <= ceiling`, and it straddles the ceiling, so the
candidate should be `ceiling - requestedSize = 0xffffffffffffd000`. The sum
`PhysicalStart + EFI_PAGES_TO_SIZE (NumberOfPages)` of the test "the whole
block is under Memory" wraps to 0, the test succeeds, and `AllocatePagesFromTop`
takes the top of the block, `0xfffffffffffff000`, whose page ends above the
ceiling; that is where the one allocation is made. -/
theorem allocate_candidate_wraps_at_top :
    scenarioTopEntry.MemType = EfiConventionalMemory ∧
    1 ≤ scenarioTopEntry.NumberOfPages ∧
    scenarioTopEntry.PhysicalStart + 1 * 4096 ≤ 0xffffffffffffe000 ∧
    0xffffffffffffe000 < rangeEnd scenarioTopEntry ∧
    rangeEnd scenarioTopEntry = 2 ^ 64 ∧
    (scenarioTopEntry.PhysicalStart + EFI_PAGES_TO_SIZE scenarioTopEntry.NumberOfPages)
      % 2 ^ 64 = 0 ∧
    qualifies scenarioTopEntry 1 0xffffffffffffe000 = true ∧
    candidateAddress scenarioTopEntry 1 0xffffffffffffe000 = 0xfffffffffffff000 ∧
    0xffffffffffffe000 - 1 * 4096 = 0xffffffffffffd000 ∧
    0xffffffffffffe000 < candidateAddress scenarioTopEntry 1 0xffffffffffffe000 + 1 * 4096 ∧
    AllocatePagesFromTop EfiBootServicesData 1 0xffffffffffffe000
        (EFI_STATUS.EFI_SUCCESS, [scenarioTopEntry]) none allocatePagesGranted =
      ⟨EFI_STATUS.EFI_SUCCESS, 0xfffffffffffff000,
        [(EfiBootServicesData, 1, 0xfffffffffffff000)]⟩ := by
  decide

/-- C18. On the sorted table without overlaps
`[{0x0,16,conventional},{0xffffffffffffe000,2,conventional}]`, whose last entry
ends at `2 ^ 64`, for 2 pages, the ceiling `0x100000` and no conflict check: the
greatest address at which 2 pages fit in a conventional entry and end at or
below the ceiling is `0xE000`, in the first entry. For the last entry the sum
`PhysicalStart + EFI_PAGES_TO_SIZE (Pages)` wraps to 0, the entry passes the
test, and `AllocatePagesFromTop` allocates at `0xffffffffffffe000`, above the
ceiling, where the range does not fit. -/
theorem allocate_above_ceiling_at_top :
    SortedDisjoint scenarioTableTop ∧
    (AllocatePagesFromTop EfiBootServicesData 2 0x100000
        (EFI_STATUS.EFI_SUCCESS, scenarioTableTop) none allocatePagesGranted =
      ⟨EFI_STATUS.EFI_SUCCESS, 0xffffffffffffe000,
        [(EfiBootServicesData, 2, 0xffffffffffffe000)]⟩) ∧
    (scenarioTableTop.getD 1 default).PhysicalStart + 2 * 4096 = 2 ^ 64 ∧
    ((scenarioTableTop.getD 1 default).PhysicalStart + EFI_PAGES_TO_SIZE 2) % 2 ^ 64 = 0 ∧
    qualifies (scenarioTableTop.getD 1 default) 2 0x100000 = true ∧
    fitsBelow scenarioTableTop 2 0x100000 0xE000 ∧
    (∀ b, fitsBelow scenarioTableTop 2 0x100000 b → b ≤ 0xE000) ∧
    ¬ fitsBelow scenarioTableTop 2 0x100000 0xffffffffffffe000 := by
  refine ⟨by decide, by decide, by decide, by decide, by decide, ?_, ?_, ?_⟩
  · exact ⟨⟨⟨EfiConventionalMemory, 0, 0, 16, 0⟩, by decide, by decide⟩, by decide⟩
  · rintro b ⟨⟨E, hE, -, h2, h3⟩, h4⟩
    simp only [scenarioTableTop, List.mem_cons, List.mem_singleton, List.not_mem_nil,
      or_false] at hE
    rcases hE with rfl | rfl
    · simp only [rangeEnd] at h3
      omega
    · simp only at h2
      omega
  · rintro ⟨-, h⟩
    omega

/-- C19. On the snapshot `[{0x80000,16,conventional},{0x10000,16,conventional}]`,
for 2 pages under the ceiling `0x100000` and a conflict check that rejects the
range at `0x1E000`, `AllocatePagesFromTop` returns `EFI_NOT_FOUND` without an
allocation and leaves the rejected candidate `0x1E000` in `*Memory`: the
candidate of the last entry was written to `*Memory` before the conflict check,
and the entry at `0x80000` was then tested against it. The scan of the
specification, which tests every entry against the ceiling of the caller,
selects `0x8E000` in the entry at `0x80000`. -/
theorem allocate_rejected_candidate_lowers_ceiling :
    AllocatePagesFromTop EfiBootServicesData 2 0x100000
        (EFI_STATUS.EFI_SUCCESS, scenarioSnapshotUnsorted) (some conflictAt1E000)
        allocatePagesGranted = ⟨EFI_STATUS.EFI_NOT_FOUND, 0x1E000, []⟩ ∧
    selectFromTop 2 0x100000 conflictAt1E000 scenarioSnapshotUnsorted
        scenarioSnapshotUnsorted.length = some 0x8E000 ∧
    qualifies ⟨EfiConventionalMemory, 0x80000, 0, 16, 0⟩ 2 0x100000 = true ∧
    qualifies ⟨EfiConventionalMemory, 0x80000, 0, 16, 0⟩ 2 0x1E000 = false := by
  decide

/-- C20, as stated, fails in both directions. On the snapshot
`[{0x0,16,conventional}]`, for 2 pages under the ceiling `0x100000`, the entry
qualifies, the one allocation is made, the firmware answers `EFI_NOT_FOUND`,
and that is what `AllocatePagesFromTop` returns. On the snapshot
`[{0xffffffffffffe000,2,conventional}]`, whose entry ends at `2 ^ 64`, for 2
pages under the ceiling `0x100000`, no entry has
`start + requestedSize <= ceiling`, yet the 64-bit sum wraps to 0, the entry
passes the test, and the routine allocates and returns `EFI_SUCCESS`. -/
theorem allocate_not_found_with_qualifying_entry :
    ¬ ((AllocatePagesFromTop EfiBootServicesData 2 0x100000
          (EFI_STATUS.EFI_SUCCESS, scenarioAllocate) none allocatePagesTaken).Status =
        EFI_STATUS.EFI_NOT_FOUND ↔
      ¬ ∃ E ∈ scenarioAllocate, E.MemType = EfiConventionalMemory ∧ 2 ≤ E.NumberOfPages ∧
        E.PhysicalStart + 2 * 4096 ≤ 0x100000) ∧
    ¬ ((AllocatePagesFromTop EfiBootServicesData 2 0x100000
          (EFI_STATUS.EFI_SUCCESS, scenarioSnapshotTop) none allocatePagesGranted).Status =
        EFI_STATUS.EFI_NOT_FOUND ↔
      ¬ ∃ E ∈ scenarioSnapshotTop, E.MemType = EfiConventionalMemory ∧
        2 ≤ E.NumberOfPages ∧ E.PhysicalStart + 2 * 4096 ≤ 0x100000) := by
  constructor
  · intro h
    exact h.mp (by decide) ⟨⟨EfiConventionalMemory, 0, 0, 16, 0⟩, by decide, by decide⟩
  · intro h
    have hs : (AllocatePagesFromTop EfiBootServicesData 2 0x100000
        (EFI_STATUS.EFI_SUCCESS, scenarioSnapshotTop) none allocatePagesGranted).Status =
        EFI_STATUS.EFI_SUCCESS := by decide
    have hno : ¬ ∃ E ∈ scenarioSnapshotTop, E.MemType = EfiConventionalMemory ∧
        2 ≤ E.NumberOfPages ∧ E.PhysicalStart + 2 * 4096 ≤ 0x100000 := by
      rintro ⟨E, hE, -, -, h3⟩
      simp only [scenarioSnapshotTop, List.mem_singleton] at hE
      subst hE
      simp only at h3
      omega
    have := h.mpr hno
    rw [hs] at this
    exact absurd this (by decide)

/-- C20, amended. For a snapshot whose entries end below `2 ^ 64` (so that the
64-bit sums of the test do not wrap) and no conflict check: when the snapshot has no conventional entry with at least the requested
pages and `start + requestedSize <= ceiling`, `AllocatePagesFromTop` returns
`EFI_NOT_FOUND` and makes no allocation; otherwise it makes exactly one
allocation, at the candidate of the last such entry of the table, and returns
the status of that allocation. So it returns `EFI_NOT_FOUND` exactly when no
entry qualifies or the allocation itself answers `EFI_NOT_FOUND`. -/
theorem allocate_not_found_or_single_allocation (T : List EFI_MEMORY_DESCRIPTOR)
    (MemoryType Pages Ceiling : Nat) (AllocatePages : Nat → Nat → Nat → EFI_STATUS)
    (hwrap : ∀ d ∈ T, rangeEnd d < 2 ^ 64) :
    ((¬ ∃ E ∈ T, E.MemType = EfiConventionalMemory ∧ Pages ≤ E.NumberOfPages ∧
          E.PhysicalStart + Pages * 4096 ≤ Ceiling) →
      AllocatePagesFromTop MemoryType Pages Ceiling (EFI_STATUS.EFI_SUCCESS, T) none
        AllocatePages = ⟨EFI_STATUS.EFI_NOT_FOUND, Ceiling, []⟩) ∧
    ((∃ E ∈ T, E.MemType = EfiConventionalMemory ∧ Pages ≤ E.NumberOfPages ∧
          E.PhysicalStart + Pages * 4096 ≤ Ceiling) →
      ∃ i, i < T.length ∧ qualifies (T.getD i default) Pages Ceiling = true ∧
        (∀ j, i < j → j < T.length → qualifies (T.getD j default) Pages Ceiling = false) ∧
        AllocatePagesFromTop MemoryType Pages Ceiling (EFI_STATUS.EFI_SUCCESS, T) none
          AllocatePages =
          ⟨AllocatePages MemoryType Pages (candidateAddress (T.getD i default) Pages Ceiling),
           candidateAddress (T.getD i default) Pages Ceiling,
           [(MemoryType, Pages, candidateAddress (T.getD i default) Pages Ceiling)]⟩) ∧
    ((AllocatePagesFromTop MemoryType Pages Ceiling (EFI_STATUS.EFI_SUCCESS, T) none
        AllocatePages).Status = EFI_STATUS.EFI_NOT_FOUND ↔
      ((¬ ∃ E ∈ T, E.MemType = EfiConventionalMemory ∧ Pages ≤ E.NumberOfPages ∧
          E.PhysicalStart + Pages * 4096 ≤ Ceiling) ∨
       ∃ a, (AllocatePagesFromTop MemoryType Pages Ceiling (EFI_STATUS.EFI_SUCCESS, T) none
          AllocatePages).Allocations = [(MemoryType, Pages, a)] ∧
        AllocatePages MemoryType Pages a = EFI_STATUS.EFI_NOT_FOUND)) := by
  have hrun : AllocatePagesFromTop MemoryType Pages Ceiling (EFI_STATUS.EFI_SUCCESS, T) none
      AllocatePages = allocateScan MemoryType Pages none AllocatePages T T.length Ceiling := by
    simp [AllocatePagesFromTop, EFI_ERROR]
  have hex : (∃ E ∈ T, E.MemType = EfiConventionalMemory ∧ Pages ≤ E.NumberOfPages ∧
      E.PhysicalStart + Pages * 4096 ≤ Ceiling) ↔
      ∃ i, i < T.length ∧ qualifies (T.getD i default) Pages Ceiling = true := by
    constructor
    · rintro ⟨E, hE, hq⟩
      obtain ⟨k, hk, rfl⟩ := List.getElem_of_mem hE
      refine ⟨k, hk, ?_⟩
      rw [List.getD_eq_getElem T default hk]
      exact (qualifies_iff _ Pages Ceiling (hwrap _ hE)).mpr hq
    · rintro ⟨i, hi, hq⟩
      rw [List.getD_eq_getElem T default hi] at hq
      exact ⟨T[i], List.getElem_mem hi,
        (qualifies_iff _ Pages Ceiling (hwrap _ (List.getElem_mem hi))).mp hq⟩
  rw [hrun, hex]
  rcases allocateScan_none_cases MemoryType Pages AllocatePages T Ceiling T.length with
    ⟨h1, h2⟩ | ⟨i, hi, hq, hlast, h4⟩
  · have hno : ¬ ∃ i, i < T.length ∧ qualifies (T.getD i default) Pages Ceiling = true := by
      rintro ⟨i, hi, hq⟩
      rw [h1 i hi] at hq
      exact absurd hq (by decide)
    refine ⟨fun _ => h2, fun h => absurd h hno, ?_⟩
    rw [h2]
    exact ⟨fun _ => Or.inl hno, fun _ => rfl⟩
  · have hyes : ∃ i, i < T.length ∧ qualifies (T.getD i default) Pages Ceiling = true :=
      ⟨i, hi, hq⟩
    refine ⟨fun h => absurd hyes h, fun _ => ⟨i, hi, hq, hlast, h4⟩, ?_⟩
    rw [h4]
    constructor
    · intro hs
      exact Or.inr ⟨_, rfl, hs⟩
    · rintro (h | ⟨a, ha, hs⟩)
      · exact absurd hyes h
      · have : candidateAddress (T.getD i default) Pages Ceiling = a := by simpa using ha
        show AllocatePages MemoryType Pages _ = _
        rw [this]
        exact hs

/-- Witness for C20, amended: on `[{0x0,16,conventional}]`, for 2 pages under
`0x100000`, with a firmware that grants the allocation. -/
theorem allocate_not_found_or_single_allocation_witness :
    ((AllocatePagesFromTop EfiBootServicesData 2 0x100000
        (EFI_STATUS.EFI_SUCCESS, scenarioAllocate) none allocatePagesGranted).Status =
        EFI_STATUS.EFI_NOT_FOUND ↔
      ((¬ ∃ E ∈ scenarioAllocate, E.MemType = EfiConventionalMemory ∧ 2 ≤ E.NumberOfPages ∧
          E.PhysicalStart + 2 * 4096 ≤ 0x100000) ∨
       ∃ a, (AllocatePagesFromTop EfiBootServicesData 2 0x100000
          (EFI_STATUS.EFI_SUCCESS, scenarioAllocate) none allocatePagesGranted).Allocations =
            [(EfiBootServicesData, 2, a)] ∧
        allocatePagesGranted EfiBootServicesData 2 a = EFI_STATUS.EFI_NOT_FOUND)) :=
  (allocate_not_found_or_single_allocation scenarioAllocate EfiBootServicesData 2 0x100000
    allocatePagesGranted (by decide)).2.2

/-! ## The claims on updating entries, counting, acquiring the map, and on the
split engine and coalescing again -/

/-- C21. For every table whose entries end below `2 ^ 64` and every address below
`2 ^ 64 - 1` (so that neither the ends nor `Address + 1` wrap in the 64-bit
containment test): `OcUpdateDescriptors` returns `EFI_SUCCESS` if and only if
the range of some entry contains the address, and `EFI_NOT_FOUND` with the
table unchanged otherwise; on success the first entry in table order whose
range contains the address gets the given type and the attributes
`(old | SetAttributes) & ~DropAttributes`, bit by bit set when the bit was set
or is in `SetAttributes` and is not in `DropAttributes`, while its start, its
page count and every other entry stay as they are. -/
theorem update_descriptors_first_match (T : List EFI_MEMORY_DESCRIPTOR)
    (Address MemType SetAttributes DropAttributes : Nat)
    (hwrap : ∀ e ∈ T, rangeEnd e < 2 ^ 64) (hA : Address + 1 < 2 ^ 64) :
    ((OcUpdateDescriptors T Address MemType SetAttributes DropAttributes).1 =
        EFI_STATUS.EFI_SUCCESS ↔ ∃ e ∈ T, inRange e Address) ∧
    ((¬ ∃ e ∈ T, inRange e Address) →
      OcUpdateDescriptors T Address MemType SetAttributes DropAttributes =
        (EFI_STATUS.EFI_NOT_FOUND, T)) ∧
    (∀ pre e post, T = pre ++ e :: post → (∀ p ∈ pre, ¬ inRange p Address) →
      inRange e Address →
      OcUpdateDescriptors T Address MemType SetAttributes DropAttributes =
        (EFI_STATUS.EFI_SUCCESS,
          pre ++ { e with
            MemType := MemType
            Attribute := updatedAttribute e.Attribute SetAttributes DropAttributes } :: post)) ∧
    (∀ old k, k < 64 →
      (updatedAttribute old SetAttributes DropAttributes).testBit k =
        ((old.testBit k || SetAttributes.testBit k) && !DropAttributes.testBit k)) := by
  have hiff : ∀ e ∈ T, (AREA_WITHIN_DESCRIPTOR e Address 1 = true ↔ inRange e Address) :=
    fun e he => AREA_WITHIN_DESCRIPTOR_one e Address (hwrap e he) hA
  have hnone : (¬ ∃ e ∈ T, inRange e Address) →
      OcUpdateDescriptors T Address MemType SetAttributes DropAttributes =
        (EFI_STATUS.EFI_NOT_FOUND, T) := by
    intro h
    apply OcUpdateDescriptors_none
    intro e he
    cases hw : AREA_WITHIN_DESCRIPTOR e Address 1 with
    | false => rfl
    | true => exact absurd ⟨e, he, (hiff e he).mp hw⟩ h
  have hfirst : ∀ pre e post, T = pre ++ e :: post → (∀ p ∈ pre, ¬ inRange p Address) →
      inRange e Address →
      OcUpdateDescriptors T Address MemType SetAttributes DropAttributes =
        (EFI_STATUS.EFI_SUCCESS,
          pre ++ { e with
            MemType := MemType
            Attribute := updatedAttribute e.Attribute SetAttributes DropAttributes } ::
            post) := by
    intro pre e post hT hpre he
    subst hT
    apply OcUpdateDescriptors_first
    · intro p hp
      cases hw : AREA_WITHIN_DESCRIPTOR p Address 1 with
      | false => rfl
      | true => exact absurd ((hiff p (by simp [hp])).mp hw) (hpre p hp)
    · exact (hiff e (by simp)).mpr he
  refine ⟨?_, hnone, hfirst, fun old k hk => updatedAttribute_testBit old _ _ k hk⟩
  constructor
  · intro hs
    by_contra hno
    rw [hnone hno] at hs
    have hs' : EFI_STATUS.EFI_NOT_FOUND = EFI_STATUS.EFI_SUCCESS := hs
    exact absurd hs' (by decide)
  · rintro ⟨e, he, hin⟩
    obtain ⟨pre, e', post, h1, h2, h3⟩ := exists_first_passing
      (fun d => AREA_WITHIN_DESCRIPTOR d Address 1) T ⟨e, he, (hiff e he).mpr hin⟩
    rw [hfirst pre e' post h1 ?_ ((hiff e' (by rw [h1]; simp)).mp h3)]
    intro p hp hin'
    have := (hiff p (by rw [h1]; simp [hp])).mpr hin'
    rw [h2 p hp] at this
    exact absurd this (by decide)

/-- Witness for C21: in the coalescing scenario the address `0x2800` lies in the
second entry; with type runtime data, `SetAttributes` the read-only bit and
`DropAttributes` the read-only and execute-protect bits, the second entry
becomes runtime data with no attribute, the read-only bit being dropped. -/
theorem update_descriptors_first_match_witness :
    OcUpdateDescriptors scenarioCoalesce 0x2800 EfiRuntimeServicesData EFI_MEMORY_RO
        (EFI_MEMORY_RO ||| EFI_MEMORY_XP) =
      (EFI_STATUS.EFI_SUCCESS,
        [⟨EfiConventionalMemory, 0, 0, 2, 0⟩, ⟨EfiRuntimeServicesData, 2 * 4096, 0, 3, 0⟩,
         ⟨EfiRuntimeServicesData, 5 * 4096, 0, 1, 0⟩]) :=
  (update_descriptors_first_match scenarioCoalesce 0x2800 EfiRuntimeServicesData EFI_MEMORY_RO
    (EFI_MEMORY_RO ||| EFI_MEMORY_XP) (by decide) (by decide)).2.2.1
    [⟨EfiConventionalMemory, 0, 0, 2, 0⟩] ⟨EfiConventionalMemory, 2 * 4096, 0, 3, 0⟩
    [⟨EfiRuntimeServicesData, 5 * 4096, 0, 1, 0⟩] rfl
    (by
      intro p hp
      simp only [List.mem_singleton] at hp
      subst hp
      simp [inRange, rangeEnd])
    (by simp [inRange, rangeEnd])

/-- C22. For every table `CountRuntimePages` returns, as 64-bit values, the sum of
`NumberOfPages` over the entries whose attributes have the bit
`EFI_MEMORY_RUNTIME` and whose type is not reserved, and writes to
`DescriptorCount` the number of those entries; the values are the exact sum and
number when these are below `2 ^ 64`. An entry of reserved type does not count,
whatever its attributes. -/
theorem count_runtime_pages (T : List EFI_MEMORY_DESCRIPTOR) :
    (CountRuntimePages T).1 = totalPages (T.filter isCountedRuntime) % 2 ^ 64 ∧
    (CountRuntimePages T).2 = (T.filter isCountedRuntime).length % 2 ^ 64 ∧
    (totalPages (T.filter isCountedRuntime) < 2 ^ 64 →
      (CountRuntimePages T).1 = totalPages (T.filter isCountedRuntime)) ∧
    (T.length < 2 ^ 64 → (CountRuntimePages T).2 = (T.filter isCountedRuntime).length) ∧
    (∀ d, d ∈ T.filter isCountedRuntime ↔
      (d ∈ T ∧ d.Attribute &&& EFI_MEMORY_RUNTIME ≠ 0 ∧ d.MemType ≠ EfiReservedMemoryType)) ∧
    (∀ pre d post, T = pre ++ d :: post → d.MemType = EfiReservedMemoryType →
      CountRuntimePages T = CountRuntimePages (pre ++ post)) := by
  have h := countRuntimeLoop_eq T 0 0 (by norm_num) (by norm_num)
  have h1 : (CountRuntimePages T).1 = totalPages (T.filter isCountedRuntime) % 2 ^ 64 := by
    simp only [CountRuntimePages, h, Nat.zero_add]
  have h2 : (CountRuntimePages T).2 = (T.filter isCountedRuntime).length % 2 ^ 64 := by
    simp only [CountRuntimePages, h, Nat.zero_add]
  refine ⟨h1, h2, ?_, ?_, ?_, ?_⟩
  · intro hlt
    rw [h1, Nat.mod_eq_of_lt hlt]
  · intro hlt
    rw [h2, Nat.mod_eq_of_lt (Nat.lt_of_le_of_lt (List.length_filter_le _ _) hlt)]
  · intro d
    simp only [List.mem_filter, isCountedRuntime, Bool.and_eq_true, decide_eq_true_eq]
    tauto
  · intro pre d post hT hd
    have hnot : isCountedRuntime d = false := by
      simp [isCountedRuntime, hd]
    have h' := countRuntimeLoop_eq (pre ++ post) 0 0 (by norm_num) (by norm_num)
    subst hT
    simp only [CountRuntimePages, h, h', List.filter_append, List.filter_cons_of_neg
      (show ¬ isCountedRuntime d = true by simp [hnot])]

/-- Witness for C22: of the four entries of the scenario the two runtime-visible
entries that are not reserved count, with 3 + 2 pages. -/
theorem count_runtime_pages_witness : CountRuntimePages scenarioRuntimePages = (5, 2) :=
  Prod.ext
    (((count_runtime_pages scenarioRuntimePages).2.2.1 (by decide)).trans (by decide))
    (((count_runtime_pages scenarioRuntimePages).2.2.2.1 (by decide)).trans (by decide))

/-- C23, as stated, fails for `OcGetCurrentMemoryMap`, the routine with the split
allowance: for a firmware whose map grows from 2 to 26 descriptors of 48 bytes
after the query of the size, the buffer of 96 + 1024 bytes is too small, the
fill call answers `EFI_BUFFER_TOO_SMALL`, and the routine returns `NULL`
without another cycle; a second cycle (a query answered with 1248 bytes, a fill
call with 1248 + 1024 bytes) would have succeeded. -/
theorem acquire_buffer_too_small_is_final :
    (scenarioFirmware 0 0).Status = EFI_STATUS.EFI_BUFFER_TOO_SMALL ∧
    (scenarioFirmware 0 0).MemoryMapSize = 96 ∧
    (scenarioFirmware 1 (96 + 1024)).Status = EFI_STATUS.EFI_BUFFER_TOO_SMALL ∧
    (scenarioFirmware 2 0).MemoryMapSize = 1248 ∧
    (scenarioFirmware 3 (1248 + 1024)).Status = EFI_STATUS.EFI_SUCCESS ∧
    OcGetCurrentMemoryMap scenarioFirmware poolGranted none false = none ∧
    OcGetCurrentMemoryMap scenarioFirmware poolGranted none true = none := by
  decide

/-- C23, amended. In `GetCurrentMemoryMapAlloc` called without `TopMemory`, so
that the buffer comes from the pool, an answer `EFI_BUFFER_TOO_SMALL` of the
fill call is never the final outcome: the buffer is released and the allocation
and the fill call are repeated, with a buffer of 512 bytes more than the size
the firmware reported. So when the query of the size and the fill calls of the
passes before pass `k` answer `EFI_BUFFER_TOO_SMALL`, the fill call of pass `k`
succeeds, and the pool gives the buffer in every pass, the routine returns
`EFI_SUCCESS` with the map of pass `k`, the buffers of the passes 1 to `k - 1`
released, given fuel for `k` passes. `OcGetCurrentMemoryMap` does not retry: it
makes one fill call, with a buffer of the size reported plus
`MAX (DescriptorSize + ExtraSize, 1024 + ExtraSize)` bytes, which is at least
1024 bytes plus the split allowance when that sum fits in 64 bits, and it
returns a memory map exactly when the query answers `EFI_BUFFER_TOO_SMALL`, the
size of the buffer fits in 64 bits, the pool gives the buffer and the fill call
does not fail. -/
theorem acquire_alloc_retries_buffer_too_small
    (GetMemoryMap : Nat → Nat → GET_MEMORY_MAP_RESULT) :
    (∀ (AllocatePool : Nat → Nat → Bool)
        (Snapshot : Nat → EFI_STATUS × List EFI_MEMORY_DESCRIPTOR)
        (AllocatePages : Nat → Nat → Nat → EFI_STATUS) (k fuel : Nat),
      1 ≤ k → k ≤ fuel →
      (GetMemoryMap 0 0).Status = EFI_STATUS.EFI_BUFFER_TOO_SMALL →
      (∀ j, 1 ≤ j → j < k →
        (GetMemoryMap j (requestSize GetMemoryMap j)).Status =
          EFI_STATUS.EFI_BUFFER_TOO_SMALL) →
      (GetMemoryMap k (requestSize GetMemoryMap k)).Status = EFI_STATUS.EFI_SUCCESS →
      (∀ j, 1 ≤ j → j ≤ k → AllocatePool j (requestSize GetMemoryMap j) = true) →
      GetCurrentMemoryMapAlloc GetMemoryMap AllocatePool Snapshot AllocatePages none fuel =
        some ⟨EFI_STATUS.EFI_SUCCESS,
          (GetMemoryMap k (requestSize GetMemoryMap k)).MemoryMapSize,
          some (GetMemoryMap k (requestSize GetMemoryMap k)).MemoryMap, none,
          List.range' 1 (k - 1)⟩) ∧
    (∀ j, requestSize GetMemoryMap (j + 1) =
      ((GetMemoryMap j (requestSize GetMemoryMap j)).MemoryMapSize + 512) % 2 ^ 64) ∧
    (∀ (Pool : Nat → Bool) (MemoryAttributes : Option (List EFI_MEMORY_DESCRIPTOR))
        (IncludeSplitSpace : Bool) (out : List EFI_MEMORY_DESCRIPTOR × Nat × Nat),
      OcGetCurrentMemoryMap GetMemoryMap Pool MemoryAttributes IncludeSplitSpace = some out ↔
        ((GetMemoryMap 0 0).Status = EFI_STATUS.EFI_BUFFER_TOO_SMALL ∧
         (GetMemoryMap 0 0).MemoryMapSize +
           snapshotSlack (GetMemoryMap 0 0).DescriptorSize MemoryAttributes IncludeSplitSpace
             < 2 ^ 64 ∧
         Pool ((GetMemoryMap 0 0).MemoryMapSize +
           snapshotSlack (GetMemoryMap 0 0).DescriptorSize MemoryAttributes IncludeSplitSpace)
             = true ∧
         EFI_ERROR (GetMemoryMap 1 ((GetMemoryMap 0 0).MemoryMapSize +
           snapshotSlack (GetMemoryMap 0 0).DescriptorSize MemoryAttributes
             IncludeSplitSpace)).Status = false ∧
         out = ((GetMemoryMap 1 ((GetMemoryMap 0 0).MemoryMapSize +
             snapshotSlack (GetMemoryMap 0 0).DescriptorSize MemoryAttributes
               IncludeSplitSpace)).MemoryMap,
           (GetMemoryMap 1 ((GetMemoryMap 0 0).MemoryMapSize +
             snapshotSlack (GetMemoryMap 0 0).DescriptorSize MemoryAttributes
               IncludeSplitSpace)).MemoryMapSize,
           (GetMemoryMap 0 0).MemoryMapSize +
             snapshotSlack (GetMemoryMap 0 0).DescriptorSize MemoryAttributes
               IncludeSplitSpace))) ∧
    (∀ (MemoryAttributes : Option (List EFI_MEMORY_DESCRIPTOR)) (IncludeSplitSpace : Bool),
      snapshotSlack (GetMemoryMap 0 0).DescriptorSize MemoryAttributes IncludeSplitSpace =
        max (((GetMemoryMap 0 0).DescriptorSize + (if IncludeSplitSpace then
            (OcCountSplitDescritptors MemoryAttributes * (GetMemoryMap 0 0).DescriptorSize)
              % 2 ^ 64 else 0)) % 2 ^ 64)
          ((1024 + (if IncludeSplitSpace then
            (OcCountSplitDescritptors MemoryAttributes * (GetMemoryMap 0 0).DescriptorSize)
              % 2 ^ 64 else 0)) % 2 ^ 64) ∧
      (1024 + OcCountSplitDescritptors MemoryAttributes * (GetMemoryMap 0 0).DescriptorSize
          < 2 ^ 64 →
        1024 + (if IncludeSplitSpace then
            OcCountSplitDescritptors MemoryAttributes * (GetMemoryMap 0 0).DescriptorSize
          else 0) ≤
          snapshotSlack (GetMemoryMap 0 0).DescriptorSize MemoryAttributes
            IncludeSplitSpace)) := by
  refine ⟨?_, fun _ => rfl, ?_, ?_⟩
  · intro AllocatePool Snapshot AllocatePages k fuel hk hfuel hquery hsmall hfill hpool
    have hloop := memoryMapAllocLoop_retries GetMemoryMap AllocatePool Snapshot AllocatePages
      (k - 1) 1 (GetMemoryMap 0 0).MemoryMapSize fuel [] rfl (by omega)
      (fun j h1 h2 => hsmall j h1 (by omega))
      (by rw [show 1 + (k - 1) = k by omega]; exact hfill)
      (fun j h1 h2 => hpool j h1 (by omega))
    rw [show 1 + (k - 1) = k by omega, List.nil_append] at hloop
    simp only [GetCurrentMemoryMapAlloc, hquery, ne_eq, not_true_eq_false, if_false]
    exact hloop
  · intro Pool MemoryAttributes IncludeSplitSpace out
    exact OcGetCurrentMemoryMap_some_iff GetMemoryMap Pool MemoryAttributes IncludeSplitSpace out
  · intro MemoryAttributes IncludeSplitSpace
    exact ⟨rfl, snapshotSlack_ge _ _ _⟩

/-- Witness for C23, amended: for the firmware whose map grows after the query,
the first fill call of `GetCurrentMemoryMapAlloc` (608 bytes) is answered
`EFI_BUFFER_TOO_SMALL`, its buffer is released, the second fill call (1760
bytes) succeeds, and the routine returns the map of 26 entries. -/
theorem acquire_alloc_retries_buffer_too_small_witness :
    GetCurrentMemoryMapAlloc scenarioFirmware poolGrantedInPass scenarioSnapshots
        allocatePagesGranted none 2 =
      some ⟨EFI_STATUS.EFI_SUCCESS, 1248, some (scenarioMapOf 26), none, [1]⟩ :=
  (acquire_alloc_retries_buffer_too_small scenarioFirmware).1 poolGrantedInPass
    scenarioSnapshots allocatePagesGranted 2 2 (by decide) (by decide) (by decide)
    (by
      intro j h1 h2
      have hj : j = 1 := by omega
      subst hj
      decide)
    (by decide) (fun _ _ _ => rfl)

/-- C24. For a well-formed table (entries page-aligned, of at least one page,
sorted, non-overlapping, ending below `2 ^ 64`) and attribute entries that end
below `2 ^ 64`: if for every runtime-typed entry of the table every attribute
entry contained in it derives a real type equal to the type of that entry, then
`OcSplitMemoryMapByAttributes` returns `EFI_SUCCESS` and leaves the table, and
so its length, unchanged, whatever the capacity. -/
theorem split_same_type_unchanged (cap : Nat) (T Attributes : List EFI_MEMORY_DESCRIPTOR)
    (hT : TableOK T) (hA : ∀ a ∈ Attributes, rangeEnd a < 2 ^ 64)
    (hsame : ∀ D ∈ T, isRuntimeType D.MemType = true → ∀ A ∈ Attributes,
      rangeWithin D A → OcRealMemoryType A = D.MemType) :
    OcSplitMemoryMapByAttributes cap T (some Attributes) = some (EFI_STATUS.EFI_SUCCESS, T) := by
  apply OcSplitMemoryMapByAttributes_unchanged
  intro D hD hrt A hAmem _ hin
  exact hsame D hD hrt A hAmem
    ((AREA_WITHIN_DESCRIPTOR_iff D A (hT.1 D hD).2.2 (hA A hAmem)).mp hin)

/-- Witness for C24: ten pages of runtime code with a read-only attribute on the
first four pages, which derives runtime code. -/
theorem split_same_type_unchanged_witness :
    OcSplitMemoryMapByAttributes 1 scenarioTable (some scenarioAttributesRO) =
      some (EFI_STATUS.EFI_SUCCESS, scenarioTable) :=
  split_same_type_unchanged 1 scenarioTable scenarioAttributesRO (by decide) (by decide)
    (by decide)

/-- C25. `OcShrinkMemoryMap` does not merge an entry `d` into the predecessor `P`
accumulated so far, but emits `P` as it is and goes on from `d`, when one of the
two types is outside the seven types boot services code or data, conventional,
loader code or data, runtime code, runtime data, when one is runtime code and
the other runtime data, when one is a runtime type and the other of the free
class, or when the attributes differ; and a non-empty table in which no entry
has one of the seven types is returned unchanged. -/
theorem shrink_never_merges_other_types (P d : EFI_MEMORY_DESCRIPTOR)
    (ds T : List EFI_MEMORY_DESCRIPTOR)
    (hbad : isMergeType P.MemType = false ∨ isMergeType d.MemType = false ∨
      (P.MemType = EfiRuntimeServicesCode ∧ d.MemType = EfiRuntimeServicesData) ∨
      (P.MemType = EfiRuntimeServicesData ∧ d.MemType = EfiRuntimeServicesCode) ∨
      (isRuntimeType P.MemType = true ∧ isFreeType d.MemType = true) ∨
      (isFreeType P.MemType = true ∧ isRuntimeType d.MemType = true) ∨
      d.Attribute ≠ P.Attribute)
    (hT : T ≠ []) (hnone : ∀ e ∈ T, isMergeType e.MemType = false) :
    OcShrinkMemoryMap (P :: d :: ds) =
      (OcShrinkMemoryMap (d :: ds)).map (fun out => P :: out) ∧
    OcShrinkMemoryMap T = some T := by
  constructor
  · have hnot : ¬ mergeCondition P d := by
      intro hm
      obtain ⟨m1, m2, m3, m4⟩ := mergeCondition_types P d hm
      rcases hbad with h | h | ⟨h1, h2⟩ | ⟨h1, h2⟩ | ⟨h1, h2⟩ | ⟨h1, h2⟩ | h
      · rw [h] at m1; exact absurd m1 (by decide)
      · rw [h] at m2; exact absurd m2 (by decide)
      · rw [h1, h2] at m4; revert m4; decide
      · rw [h1, h2] at m4; revert m4; decide
      · rcases m4 with ⟨a, -⟩ | ⟨a, b⟩ | ⟨a, b⟩
        · revert h1 a; simp only [isRuntimeType, isFreeType, Bool.or_eq_true, decide_eq_true_eq]
          rintro (h | h) <;> rw [h] <;> decide
        · rw [b] at h2; exact absurd h2 (by decide)
        · rw [b] at h2; exact absurd h2 (by decide)
      · rcases m4 with ⟨-, a⟩ | ⟨a, b⟩ | ⟨a, b⟩
        · revert h2 a; simp only [isRuntimeType, isFreeType, Bool.or_eq_true, decide_eq_true_eq]
          rintro (h | h) <;> rw [h] <;> decide
        · rw [a] at h1; exact absurd h1 (by decide)
        · rw [a] at h1; exact absurd h1 (by decide)
      · exact h m3
    rw [OcShrinkMemoryMap_cons, coalesceFrom_cons_merge, if_neg hnot, OcShrinkMemoryMap_cons]
    rfl
  · cases T with
    | nil => exact absurd rfl hT
    | cons t ts =>
      rw [OcShrinkMemoryMap_cons, coalesceFrom_of_NoJoin ts t (NoJoin_of_no_merge_type _ hnone)]

/-- Witness for C25: a runtime code entry is not merged with the runtime data
entry that follows it with equal attributes, and the table of contiguous ACPI
reclaim and persistent entries with equal attributes is returned unchanged. -/
theorem shrink_never_merges_other_types_witness :
    OcShrinkMemoryMap [⟨EfiRuntimeServicesCode, 0, 0, 2, 0⟩,
        ⟨EfiRuntimeServicesData, 2 * 4096, 0, 3, 0⟩] =
      (OcShrinkMemoryMap [⟨EfiRuntimeServicesData, 2 * 4096, 0, 3, 0⟩]).map
        (fun out => ⟨EfiRuntimeServicesCode, 0, 0, 2, 0⟩ :: out) ∧
    OcShrinkMemoryMap scenarioNoMerge = some scenarioNoMerge :=
  shrink_never_merges_other_types ⟨EfiRuntimeServicesCode, 0, 0, 2, 0⟩
    ⟨EfiRuntimeServicesData, 2 * 4096, 0, 3, 0⟩ [] scenarioNoMerge
    (Or.inr (Or.inr (Or.inl ⟨rfl, rfl⟩))) (by decide) (by decide)

/-- C26. For every table and every attribute table (well-formed or not): every
call of `OcSplitMemoryEntryByAttribute` made by the engine is for an attribute
entry of a runtime type at or after the resume cursor, after which the cursor
is one past that entry, so no entry is used twice, and the call leaves at most
two entries more in the map. So the table the engine leaves has at most
`2 * OcCountSplitDescritptors` entries more than the input, whatever the
status, and when the capacity is at least the length plus
`2 * OcCountSplitDescritptors` the engine does not return
`EFI_OUT_OF_RESOURCES`: with an attributes table it returns `EFI_SUCCESS`. -/
theorem split_two_slots_per_runtime_attribute (cap : Nat) (T : List EFI_MEMORY_DESCRIPTOR)
    (MemoryAttributes : Option (List EFI_MEMORY_DESCRIPTOR)) :
    (∃ st out, OcSplitMemoryMapByAttributes cap T MemoryAttributes = some (st, out) ∧
      out.length ≤ T.length + 2 * OcCountSplitDescritptors MemoryAttributes ∧
      (T.length + 2 * OcCountSplitDescritptors MemoryAttributes ≤ cap →
        st ≠ EFI_STATUS.EFI_OUT_OF_RESOURCES ∧
        (MemoryAttributes ≠ none → st = EFI_STATUS.EFI_SUCCESS))) ∧
    (∀ Attributes m i l j, MemoryAttributes = some Attributes → ∀ hi : i < m.length,
      findSplitAttribute m[i] (Attributes.drop l) l false = some j →
      l < j + 1 ∧ j < Attributes.length ∧
      isRuntimeType (Attributes.getD j default).MemType = true ∧
      (OcSplitMemoryEntryByAttribute m i cap (Attributes.getD j default)).MemoryMap.length ≤
        m.length + 2) := by
  constructor
  · cases MemoryAttributes with
    | none =>
      refine ⟨EFI_STATUS.EFI_UNSUPPORTED, T, rfl, Nat.le_add_right _ _, fun _ => ?_⟩
      exact ⟨by decide, fun h => absurd rfl h⟩
    | some Attributes =>
      obtain ⟨⟨st, out⟩, hres⟩ := OcSplitMemoryMapByAttributes_returns cap T (some Attributes)
      refine ⟨st, out, hres, ?_, fun hcap => ?_⟩
      · exact splitLoop_length_slots cap Attributes _ _ T 0 0 (Nat.le_refl _) _ hres
      · have hs : st = EFI_STATUS.EFI_SUCCESS :=
          splitLoop_success_of_slots cap Attributes _ T 0 0 hcap _ hres
        exact ⟨by rw [hs]; decide, fun _ => hs⟩
  · intro Attributes m i l j _ hi hf
    obtain ⟨h1, h2, h3, -, -, h6⟩ := split_call_facts cap Attributes m i l j hi hf
    exact ⟨h1, h2, h3, h6⟩

/-- Witness for C26: the attribute in the middle of the runtime entry of the
two-entry table needs two insertions; with capacity `2 + 2 * 1` the engine
returns `EFI_SUCCESS`. -/
theorem split_two_slots_per_runtime_attribute_witness :
    ∃ out, OcSplitMemoryMapByAttributes 4 scenarioTableTwo (some scenarioAttributesMiddle) =
      some (EFI_STATUS.EFI_SUCCESS, out) ∧ out.length ≤ 4 := by
  obtain ⟨⟨st, out, hres, hlen, hcap⟩, -⟩ :=
    split_two_slots_per_runtime_attribute 4 scenarioTableTwo (some scenarioAttributesMiddle)
  have hs := (hcap (by decide)).2 (by simp)
  subst hs
  exact ⟨out, hres, hlen⟩

/-- C27. Whenever the engine calls `OcSplitMemoryEntryByAttribute`, for the entry
`m[i]` and the attribute at the position `j` that its scan found, with entry
and attribute entries page-aligned, of at least one page and ending below
`2 ^ 64`: the attribute passed the containment test against the entry; the
assertion holds, the attribute starts where the current entry starts after the
optional head split; the head split takes `DiffPages >= 1` pages and not more
than the entry has, and the attribute has not more pages than the current
entry, so neither subtraction of page counts wraps; and every entry written in
place of `m[i]` has at least one page. -/
theorem split_call_assertion_and_page_counts (cap : Nat)
    (Attributes m : List EFI_MEMORY_DESCRIPTOR) (i l j : Nat) (hi : i < m.length)
    (hE : DescOK m[i]) (hA : ∀ a ∈ Attributes, DescOK a)
    (hf : findSplitAttribute m[i] (Attributes.drop l) l false = some j) :
    AREA_WITHIN_DESCRIPTOR m[i] (Attributes.getD j default).PhysicalStart
      (EFI_PAGES_TO_SIZE (Attributes.getD j default).NumberOfPages) = true ∧
    (Attributes.getD j default).PhysicalStart =
      (entryAtAssert m[i] (Attributes.getD j default)).PhysicalStart ∧
    ((m[i]).PhysicalStart < (Attributes.getD j default).PhysicalStart →
      1 ≤ EFI_SIZE_TO_PAGES ((Attributes.getD j default).PhysicalStart - (m[i]).PhysicalStart) ∧
      EFI_SIZE_TO_PAGES ((Attributes.getD j default).PhysicalStart - (m[i]).PhysicalStart) ≤
        (m[i]).NumberOfPages) ∧
    (Attributes.getD j default).NumberOfPages ≤
      (entryAtAssert m[i] (Attributes.getD j default)).NumberOfPages ∧
    ∃ ps, (OcSplitMemoryEntryByAttribute m i cap (Attributes.getD j default)).MemoryMap =
        m.take i ++ ps ++ m.drop (i + 1) ∧
      ∀ d ∈ ps, 1 ≤ d.NumberOfPages := by
  obtain ⟨-, -, hmem, -, -, hin, -⟩ := findSplitAttribute_drop_some _ _ _ _ hf
  have hAj := hA _ hmem
  obtain ⟨f1, f2, f3⟩ := entryAtAssert_facts m[i] (Attributes.getD j default) hE hAj hin
  refine ⟨hin, f1, f2, f3, ?_⟩
  obtain ⟨hlo, hhi⟩ := (AREA_WITHIN_DESCRIPTOR_iff _ _ hE.2.2 hAj.2.2).mp hin
  obtain ⟨hdec, hlen⟩ := eq_take_append_getElem_drop m i hi
  have hout := OcSplitMemoryEntryByAttribute_eq_outcome (m.take i) (m.drop (i + 1)) m[i]
    (Attributes.getD j default) cap hE.1 hAj.1 hlo hhi hE.2.2
  rw [← hdec, hlen] at hout
  obtain ⟨ps, hps, htiles⟩ := splitEntryOutcome_tiles (m.take i) (m.drop (i + 1)) m[i]
    (Attributes.getD j default) cap hE hAj hlo hhi
  refine ⟨ps, by rw [hout, hps], ?_⟩
  intro d hd
  exact ((Tiles_facts ps _ _ htiles).2.1 d hd).1.2.1

/-- Witness for C27: the engine on the scenario table calls the routine for the
execute-protected attribute on pages 4 to 6 of the ten pages of runtime code;
the head split takes 4 pages and the attribute has 3 of the 6 pages left. -/
theorem split_call_assertion_and_page_counts_witness :
    EFI_SIZE_TO_PAGES (4 * 4096 - 0) ≤ 10 ∧
    (3 : Nat) ≤ (entryAtAssert ⟨EfiRuntimeServicesCode, 0, 0, 10, 0⟩
      ⟨EfiRuntimeServicesData, 4 * 4096, 0, 3, EFI_MEMORY_XP⟩).NumberOfPages :=
  ⟨((split_call_assertion_and_page_counts 3 scenarioAttributesXP scenarioTable 0 0 0
      (by decide) (by decide) (by decide) (by decide)).2.2.1 (by decide)).2,
   (split_call_assertion_and_page_counts 3 scenarioAttributesXP scenarioTable 0 0 0
      (by decide) (by decide) (by decide) (by decide)).2.2.2.1⟩

/-- C28. For a well-formed table and a well-formed attribute table (entries
page-aligned, of at least one page, sorted, non-overlapping, ending below
`2 ^ 64`; every attribute entry of a runtime type and inside one runtime-typed
entry of the table): when `OcSplitMemoryMapByAttributes` returns `EFI_SUCCESS`
with the table `out`, running it again on `out` with the same attribute table
and capacity returns `EFI_SUCCESS` with `out` again, the same entries and the
same length. -/
theorem split_twice_eq_once (cap : Nat) (T Attributes out : List EFI_MEMORY_DESCRIPTOR)
    (hT : TableOK T) (hA : AttributesOK T Attributes)
    (hres : OcSplitMemoryMapByAttributes cap T (some Attributes)
      = some (EFI_STATUS.EFI_SUCCESS, out)) :
    OcSplitMemoryMapByAttributes cap out (some Attributes) =
      some (EFI_STATUS.EFI_SUCCESS, out) := by
  have hAok : ∀ a ∈ Attributes, DescOK a := hA.1.1
  have hpres := splitLoop_preserves cap Attributes T hAok _ T 0 0
    ⟨hT, fun _ => Iff.rfl, rfl⟩ _ hres
  have hinv : SplitInv Attributes T 0 0 :=
    ⟨hT, fun X hX => (hA.2 X hX).2, fun e he => by simp at he,
      fun _ _ k _ hk => absurd hk (Nat.not_lt_zero k)⟩
  have htypes := splitLoop_types cap Attributes hA.1 (fun a ha => (hA.2 a ha).1) _ T 0 0
    hinv _ hres rfl
  apply OcSplitMemoryMapByAttributes_unchanged
  intro D hD _ A hAmem _ hin
  have hDok : DescOK D := hpres.1.1 D hD
  obtain ⟨hlo, hhi⟩ := (AREA_WITHIN_DESCRIPTOR_iff D A hDok.2.2 (hAok A hAmem).2.2).mp hin
  have hne := DescOK_nonempty A (hAok A hAmem)
  have hshare : ∃ x, inRange A x ∧ inRange D x := by
    refine ⟨A.PhysicalStart, ⟨Nat.le_refl _, hne⟩, hlo, ?_⟩
    omega
  exact (htypes A hAmem D hD hshare).symm

/-- Witness for C28: the scenario with capacity 3 leaves three entries, and a
second run leaves the same three entries. -/
theorem split_twice_eq_once_witness :
    OcSplitMemoryMapByAttributes 3
        [⟨EfiRuntimeServicesCode, 0, 0, 4, 0⟩, ⟨EfiRuntimeServicesData, 4 * 4096, 0, 3, 0⟩,
         ⟨EfiRuntimeServicesCode, 7 * 4096, 0, 3, 0⟩] (some scenarioAttributesXP) =
      some (EFI_STATUS.EFI_SUCCESS,
        [⟨EfiRuntimeServicesCode, 0, 0, 4, 0⟩, ⟨EfiRuntimeServicesData, 4 * 4096, 0, 3, 0⟩,
         ⟨EfiRuntimeServicesCode, 7 * 4096, 0, 3, 0⟩]) :=
  split_twice_eq_once 3 scenarioTable scenarioAttributesXP _ (by decide) (by decide)
    (by decide)

end OcMemoryLib
